import Mathlib

/-!
Verification development for the simplification core of the DefinitelyLisp
source-to-source compiler.

The repository carries two generations of the abstract syntax tree:

* a flat tagged enum (`src/transform.rs`, `src/simplify.rs`) with a bottom-up
  `transform` combinator and the desugaring passes `simplify_conditional` and
  `simplify_match_expr`; this generation is embedded below in namespace `Flat`;
* a span-carrying wrapper (`src/ast/node.rs`, `src/ast/let_expr.rs`) with the
  context-threading `traverse`/`prewalk`/`postwalk` engine and let-expression
  elimination; this generation is embedded in namespace `Spanned`.

Rust panics (`panic!`, `todo!`) terminate the process; they are modelled as
`Except.error` (namespace `Flat`) or as `Option.none` (namespace `Spanned`).
The `Spanned` traversal can genuinely diverge (substitution descends into
substituted values, so self-referential bindings loop); it is therefore
embedded with an explicit fuel parameter, `none` standing for
non-termination or a fatal signal.
-/

set_option maxHeartbeats 1600000

/-! Operator enums shared by both generations (`crate::ast`). -/

/-- The extends-expression unary operators.  The source grammar and the spec
only give logical `not`. -/
inductive PrefixOp where
  | Not
deriving DecidableEq, Repr

/-- The extends-expression binary operators (`InfixOp` in `crate::ast`). -/
inductive InfixOp where
  | Extends
  | NotExtends
  | Equals
  | NotEquals
  | StrictEquals
  | StrictNotEquals
  | And
  | Or
deriving DecidableEq, Repr

namespace Flat

/-! The flat tagged-union AST of `src/simplify.rs` / `src/transform.rs`.

The two Rust files disagree slightly about this enum (the repository keeps two
generations of the design): `simplify.rs` matches `MatchExpr { value, arms }`
and `TypeAlias(_, _, _)` while `transform.rs` has an extra `else_` field on
`MatchExpr` and a four-field `TypeAlias`.  The embedding follows
`simplify.rs`, the authority for the desugaring passes, and takes the
recursion scheme of each composite variant from `transform.rs`.  Payloads
that the passes never inspect (numbers, primitive names, infix-operator
symbols, error payloads) are modelled as `String`. -/
mutual
/-- A tree element of the flat generation. -/
inductive Node where
  | Program (statements : List Node)
  | TypeAlias (name : String) (params : List Node) (body : Node)
  | BinOp (lhs : Node) (op : String) (rhs : Node)
  | Ident (name : String)
  | Number (raw : String)
  | Primitive (name : String)
  | String (s : String)
  | TemplateString (s : String)
  | ExtendsPrefixOp (op : PrefixOp) (value : Node)
  | ExtendsBinOp (lhs : Node) (op : InfixOp) (rhs : Node)
  | ExtendsExpr (lhs rhs then_branch else_branch : Node)
  | Error (message : String)
  | ObjectLiteral (properties : List ObjectProperty)
  | Application (name : String) (args : List Node)
  | Never
  | Any
  | Unknown
  | Tuple (items : List Node)
  | Array (inner : Node)
  | Null
  | Undefined
  | False
  | True
  | IfExpr (condition : Node) (then_branch : Node) (else_branch : Option Node)
  | MatchExpr (value : Node) (arms : List MatchArm)

/-- A match arm `{ pattern, body }`. -/
inductive MatchArm where
  | mk (pattern : Node) (body : Node)

/-- An object-literal property; only its `value` child is a tree node. -/
inductive ObjectProperty where
  | mk (key : String) (value : Node)
end

def MatchArm.pattern : MatchArm → Node
  | .mk p _ => p

def MatchArm.body : MatchArm → Node
  | .mk _ b => b

def ObjectProperty.key : ObjectProperty → String
  | .mk k _ => k

def ObjectProperty.value : ObjectProperty → Node
  | .mk _ v => v

/-! Generic bottom-up rewrite, `impl Transform for Node` in `src/transform.rs`:
for every node the children are transformed first, the node is rebuilt from the
transformed children, and the rewrite function `f` is applied to the rebuilt
node (leaf variants are passed to `f` unchanged).  A rewrite function that
panics is modelled by returning `Except.error`, which aborts the whole walk. -/
mutual
/-- Bottom-up rewrite of a single node; see the comment above. -/
def transform (f : Node → Except String Node) : Node → Except String Node
  | .Error m => f (.Error m)
  | .Never => f .Never
  | .Any => f .Any
  | .Unknown => f .Unknown
  | .Null => f .Null
  | .Undefined => f .Undefined
  | .False => f .False
  | .True => f .True
  | .Ident n => f (.Ident n)
  | .Number r => f (.Number r)
  | .Primitive p => f (.Primitive p)
  | .String s => f (.String s)
  | .TemplateString s => f (.TemplateString s)
  | .Program xs => do f (.Program (← transformList f xs))
  | .TypeAlias name params body => do
      f (.TypeAlias name (← transformList f params) (← transform f body))
  | .Tuple xs => do f (.Tuple (← transformList f xs))
  | .Array inner => do f (.Array (← transform f inner))
  | .BinOp lhs op rhs => do
      f (.BinOp (← transform f lhs) op (← transform f rhs))
  | .ExtendsBinOp lhs op rhs => do
      f (.ExtendsBinOp (← transform f lhs) op (← transform f rhs))
  | .ExtendsPrefixOp op value => do
      f (.ExtendsPrefixOp op (← transform f value))
  | .ExtendsExpr lhs rhs then_branch else_branch => do
      f (.ExtendsExpr (← transform f lhs) (← transform f rhs)
          (← transform f then_branch) (← transform f else_branch))
  | .ObjectLiteral props => do f (.ObjectLiteral (← transformProps f props))
  | .Application name args => do f (.Application name (← transformList f args))
  | .IfExpr cond then_branch else_branch => do
      f (.IfExpr (← transform f cond) (← transform f then_branch)
          (← transformOpt f else_branch))
  | .MatchExpr value arms => do
      f (.MatchExpr (← transform f value) (← transformArms f arms))
  termination_by structural n => n

def transformList (f : Node → Except String Node) : List Node → Except String (List Node)
  | [] => pure []
  | x :: xs => do pure ((← transform f x) :: (← transformList f xs))
  termination_by structural xs => xs

def transformOpt (f : Node → Except String Node) : Option Node → Except String (Option Node)
  | none => pure none
  | some v => do pure (some (← transform f v))
  termination_by structural o => o

def transformArms (f : Node → Except String Node) : List MatchArm → Except String (List MatchArm)
  | [] => pure []
  | .mk pattern body :: rest => do
      pure (MatchArm.mk (← transform f pattern) (← transform f body)
        :: (← transformArms f rest))
  termination_by structural arms => arms

def transformProps (f : Node → Except String Node) :
    List ObjectProperty → Except String (List ObjectProperty)
  | [] => pure []
  | .mk key value :: rest => do
      pure (ObjectProperty.mk key (← transform f value)
        :: (← transformProps f rest))
  termination_by structural props => props
end

/-- `simplify_conditional` from `src/simplify.rs`: normalize a surface
conditional (condition, then-branch, else-branch) into canonical
`ExtendsExpr` nodes, recursing over the shape of the condition.  The Rust
`todo!()` arms (equality-flavoured operators) and the final
`panic!("Expected extends operator, ...")` are modelled as errors. -/
def simplify_conditional (condition then_ else_ : Node) : Except String Node :=
  match condition with
  | .ExtendsPrefixOp op value =>
      match op with
      | .Not => simplify_conditional value else_ then_
  | .ExtendsBinOp lhs op rhs =>
      match op with
      | .Extends => .ok (.ExtendsExpr lhs rhs then_ else_)
      | .NotExtends => .ok (.ExtendsExpr lhs rhs else_ then_)
      | .Equals => .error "not yet implemented"
      | .NotEquals => .error "not yet implemented"
      | .StrictEquals => .error "not yet implemented"
      | .StrictNotEquals => .error "not yet implemented"
      | .And => do
          let then_ ← simplify_conditional rhs then_ else_
          simplify_conditional lhs then_ else_
      | .Or => do
          let else_ ← simplify_conditional rhs then_ else_
          simplify_conditional lhs then_ else_
  | _ => .error "Expected extends operator"
  termination_by structural condition

/-- Is this node the literal wildcard identifier `_`?  This is the guard
`Node::Ident(ident_name) if ident_name == "_"` of `simplify_match_expr`. -/
def isWildcardPat : Node → Bool
  | .Ident name => name == "_"
  | _ => false

/-- Is this arm's pattern the literal wildcard identifier `_`? -/
def isWildcardArm (arm : MatchArm) : Bool := isWildcardPat arm.pattern

/-- The wildcard scan loop of `simplify_match_expr` (`src/simplify.rs`): walk
the arms with their indices, recording the index and body of the wildcard arm,
and fail on a second wildcard (`panic!("Multiple wildcard patterns found in
match expression")`).  `i` is the current index, `wildcard_idx` and
`else_body` are the loop's mutable state. -/
def wildcardScan :
    List MatchArm → Nat → Option Nat → Node → Except String (Option Nat × Node)
  | [], _, wildcard_idx, else_body => .ok (wildcard_idx, else_body)
  | arm :: rest, i, wildcard_idx, else_body =>
      if isWildcardArm arm then
        if wildcard_idx.isSome then
          .error "Multiple wildcard patterns found in match expression"
        else wildcardScan rest (i + 1) (some i) arm.body
      else wildcardScan rest (i + 1) wildcard_idx else_body

/-- `simplify_match_expr` from `src/simplify.rs`, taking the `value` and
`arms` fields of the `MatchExpr` node it destructures (the function panics if
handed any other variant, so the embedding takes the fields directly).  At
most one wildcard arm is extracted and its body becomes the default, else the
default is `Never`; the remaining arms are folded right-to-left into canonical
`ExtendsExpr` nodes. -/
def simplify_match_expr (value : Node) (arms : List MatchArm) : Except String Node := do
  let (wildcard_idx, else_body) ← wildcardScan arms 0 none .Never
  let arms := match wildcard_idx with
    | some idx => arms.eraseIdx idx
    | none => arms
  .ok (arms.foldr (fun arm acc => .ExtendsExpr value arm.pattern arm.body acc) else_body)

/-- The rewrite function that `Simplify for Node` (`src/simplify.rs`) passes
to `transform`: replace `IfExpr` (missing else-branch defaults to `Never`) and
`MatchExpr`; every other variant is returned unchanged (the Rust code lists
all remaining variants explicitly and clones the node). -/
def simplifyF : Node → Except String Node
  | .IfExpr op then_ else_ =>
      let else_ := match else_ with
        | some v => v
        | none => .Never
      simplify_conditional op then_ else_
  | .MatchExpr value arms => simplify_match_expr value arms
  | node => .ok node

/-- The panic-message type (inside the `Node` namespace the name `String`
would resolve to the `Node.String` constructor, hence this alias). -/
abbrev Msg := String

/-- `Node::simplify` of the flat generation (`impl Simplify for Node`). -/
def Node.simplify (n : Node) : Except Msg Node := transform simplifyF n

example :
    Node.simplify (.IfExpr (.ExtendsBinOp (.Ident "a") .Extends (.Ident "b"))
      (.Ident "c") (some (.Ident "d"))) =
    .ok (.ExtendsExpr (.Ident "a") (.Ident "b") (.Ident "c") (.Ident "d")) := by
  rfl

example :
    Node.simplify (.MatchExpr (.Ident "A")
      [.mk (.Primitive "number") (.Number "1"),
       .mk (.Primitive "string") (.Number "2"),
       .mk (.Ident "_") (.Number "3")]) =
    .ok (.ExtendsExpr (.Ident "A") (.Primitive "number") (.Number "1")
      (.ExtendsExpr (.Ident "A") (.Primitive "string") (.Number "2") (.Number "3"))) := by
  rfl

/-- C7: negation duality.  For every extends-condition `C` and branches
`(T, E)`, simplifying `if not C then T else E` and simplifying
`if C then E else T` produce the same canonical tree.  (When the simplifier
panics, neither call produces a tree; the theorem therefore equates the
produced trees.) -/
theorem simplify_not_duality (C T E Q : Node) :
    Node.simplify (.IfExpr (.ExtendsPrefixOp .Not C) T (some E)) = .ok Q ↔
    Node.simplify (.IfExpr C E (some T)) = .ok Q := by
  simp only [Node.simplify, transform, transformOpt]
  cases hc : transform simplifyF C with
  | error e =>
      simp [hc, bind, Except.bind]
  | ok c =>
      cases ht : transform simplifyF T with
      | error e =>
          cases he : transform simplifyF E <;>
            simp [hc, ht, he, simplifyF, bind, Except.bind, pure, Except.pure, simplify_conditional]
      | ok t =>
          cases he : transform simplifyF E <;>
            simp [hc, ht, he, simplifyF, bind, Except.bind, pure, Except.pure, simplify_conditional]

/-- C8: and-distribution.  Simplifying `if (A and B) then T else E` is the
same as simplifying `if A then (if B then T else E) else E`. -/
theorem simplify_and_distribution (A B T E : Node) :
    Node.simplify (.IfExpr (.ExtendsBinOp A .And B) T (some E)) =
    Node.simplify (.IfExpr A (.IfExpr B T (some E)) (some E)) := by
  simp only [Node.simplify, transform, transformOpt]
  cases ha : transform simplifyF A with
  | error e => simp [ha, bind, Except.bind]
  | ok a =>
      cases hb : transform simplifyF B with
      | error e => simp [ha, hb, bind, Except.bind, pure, Except.pure, simplifyF]
      | ok b =>
          cases ht : transform simplifyF T with
          | error e => simp [ha, hb, ht, bind, Except.bind, pure, Except.pure, simplifyF]
          | ok t =>
              cases he : transform simplifyF E with
              | error e => simp [ha, hb, ht, he, bind, Except.bind, pure, Except.pure, simplifyF]
              | ok e =>
                  simp only [ha, hb, ht, he, bind, Except.bind, pure, Except.pure, simplifyF,
                    simplify_conditional]


/-- A scan over wildcard-free arms leaves the wildcard state untouched. -/
theorem wildcardScan_no_wildcard (arms : List MatchArm) (i : Nat) (idx : Option Nat)
    (body : Node) (h : ∀ arm ∈ arms, isWildcardArm arm = false) :
    wildcardScan arms i idx body = .ok (idx, body) := by
  induction arms generalizing i with
  | nil => rfl
  | cons a rest ih =>
      have ha : isWildcardArm a = false := h a (by simp)
      simp only [wildcardScan, ha, Bool.false_eq_true, if_false]
      exact ih (i + 1) (fun x hx => h x (by simp [hx]))

/-- Scanning past a wildcard-free prefix only advances the index. -/
theorem wildcardScan_append (pre rest : List MatchArm) (i : Nat) (idx : Option Nat)
    (body : Node) (h : ∀ arm ∈ pre, isWildcardArm arm = false) :
    wildcardScan (pre ++ rest) i idx body = wildcardScan rest (i + pre.length) idx body := by
  induction pre generalizing i with
  | nil => simp
  | cons a p ih =>
      have ha : isWildcardArm a = false := h a (by simp)
      simp only [List.cons_append, wildcardScan, ha, Bool.false_eq_true, if_false,
        List.length_cons]
      rw [show i + (p.length + 1) = (i + 1) + p.length by omega]
      exact ih (i + 1) (fun x hx => h x (by simp [hx]))

/-- Removing the element at the length of the prefix removes exactly that
element. -/
theorem eraseIdx_append_cons (pre post : List MatchArm) (x : MatchArm) :
    (pre ++ x :: post).eraseIdx pre.length = pre ++ post := by
  induction pre with
  | nil => rfl
  | cons a p ih => simp [List.eraseIdx, ih]

/-- C10: the single wildcard arm is extracted from wherever it appears in the
arm list, its body becomes the final default, and all remaining arms — the
ones before it and the ones after it — are folded into the conditional chain
in their original order.  A mid-list wildcard therefore does not shadow the
arms that follow it. -/
theorem simplify_match_wildcard_position (value wildBody : Node) (pre post : List MatchArm)
    (h1 : ∀ arm ∈ pre, isWildcardArm arm = false)
    (h2 : ∀ arm ∈ post, isWildcardArm arm = false) :
    simplify_match_expr value (pre ++ .mk (.Ident "_") wildBody :: post) =
      .ok ((pre ++ post).foldr
        (fun arm acc => .ExtendsExpr value arm.pattern arm.body acc) wildBody) := by
  unfold simplify_match_expr
  rw [wildcardScan_append pre _ 0 none .Never h1]
  simp only [wildcardScan, isWildcardArm, isWildcardPat, MatchArm.pattern, MatchArm.body,
    beq_self_eq_true, if_true, Option.isSome_none, Bool.false_eq_true, if_false,
    wildcardScan_no_wildcard post _ _ _ h2, Nat.zero_add]
  simp [bind, Except.bind, eraseIdx_append_cons]

/-- A witness for the previous theorem: the wildcard sits in the middle and
the arm after it is still compiled into the chain, before the wildcard body. -/
theorem simplify_match_wildcard_position_witness :
    simplify_match_expr (.Ident "A")
      [.mk (.Primitive "number") (.Number "1"),
       .mk (.Ident "_") (.Number "9"),
       .mk (.Primitive "string") (.Number "2")] =
    .ok (.ExtendsExpr (.Ident "A") (.Primitive "number") (.Number "1")
      (.ExtendsExpr (.Ident "A") (.Primitive "string") (.Number "2") (.Number "9"))) := by
  have := simplify_match_wildcard_position (.Ident "A") (.Number "9")
    [.mk (.Primitive "number") (.Number "1")]
    [.mk (.Primitive "string") (.Number "2")]
    (by intro arm h; simp at h; subst h; rfl)
    (by intro arm h; simp at h; subst h; rfl)
  simpa using this

/-- Once two wildcards have been seen (counting one already recorded in the
state), the scan aborts with the fixed duplicate-wildcard message. -/
theorem wildcardScan_duplicate (arms : List MatchArm) :
    ∀ (i : Nat) (idx : Option Nat) (body : Node),
    2 ≤ arms.countP isWildcardArm + (if idx.isSome then 1 else 0) →
    wildcardScan arms i idx body =
      .error "Multiple wildcard patterns found in match expression" := by
  induction arms with
  | nil =>
      intro i idx body h
      simp only [List.countP_nil] at h
      cases idx <;> simp at h
  | cons a rest ih =>
      intro i idx body h
      by_cases ha : isWildcardArm a = true
      · cases idx with
        | some j => simp [wildcardScan, ha]
        | none =>
            simp only [wildcardScan, ha, if_true, Option.isSome_none, Bool.false_eq_true,
              if_false]
            apply ih
            simp only [List.countP_cons, ha, if_true, Option.isSome_none,
              Bool.false_eq_true, if_false] at h
            simp only [Option.isSome_some, if_true]
            omega
      · have ha' : isWildcardArm a = false := by revert ha; cases isWildcardArm a <;> simp
        simp only [wildcardScan, ha', Bool.false_eq_true, if_false]
        apply ih
        simp only [List.countP_cons, ha', Bool.false_eq_true, if_false] at h
        omega

/-- C9 (amended): a match expression with two or more wildcard arms makes
simplification abort with the duplicate-wildcard signal instead of returning
a tree.  The signal's message is the fixed string of the Rust `panic!` and
carries no information about the duplicate arm. -/
theorem simplify_match_duplicate_wildcard (value : Node) (arms : List MatchArm)
    (h : 2 ≤ arms.countP isWildcardArm) :
    simplify_match_expr value arms =
      .error "Multiple wildcard patterns found in match expression" := by
  unfold simplify_match_expr
  rw [wildcardScan_duplicate arms 0 none .Never (by simpa using h)]
  rfl

/-- Witness for the duplicate-wildcard theorem at a concrete match. -/
theorem simplify_match_duplicate_wildcard_witness :
    simplify_match_expr (.Ident "A")
      [.mk (.Ident "_") (.Number "1"), .mk (.Ident "_") (.Number "2")] =
      .error "Multiple wildcard patterns found in match expression" :=
  simplify_match_duplicate_wildcard (.Ident "A")
    [.mk (.Ident "_") (.Number "1"), .mk (.Ident "_") (.Number "2")] (by decide)

/-- C9, counterexample to the reported-context part: the duplicate-wildcard
signal is the same for two structurally different matches (different values,
different duplicate arms), so it is not reported with the duplicate arm's
context — the message is a constant. -/
theorem duplicate_wildcard_signal_is_fixed :
    simplify_match_expr (.Ident "A")
        [.mk (.Ident "_") (.Number "1"), .mk (.Ident "_") (.Number "2")] =
      simplify_match_expr (.Ident "B")
        [.mk (.Ident "_") (.String "x"), .mk (.Ident "_") (.Tuple [])] ∧
    simplify_match_expr (.Ident "A")
        [.mk (.Ident "_") (.Number "1"), .mk (.Ident "_") (.Number "2")] =
      .error "Multiple wildcard patterns found in match expression" :=
  ⟨rfl, rfl⟩

/-- The nested surface-conditional chain
`if V <: p1 then b1 else if V <: p2 then b2 else ... else D`
that a match expression is specified to be equivalent to. -/
def chain (value : Node) (arms : List MatchArm) (dflt : Node) : Node :=
  arms.foldr
    (fun arm acc =>
      .IfExpr (.ExtendsBinOp value .Extends arm.pattern) arm.body (some acc))
    dflt

/-- Transforming an appended arm list transforms both parts in order. -/
theorem transformArms_append (f : Node → Except String Node) (xs ys : List MatchArm) :
    transformArms f (xs ++ ys) = (do
      let xs' ← transformArms f xs
      let ys' ← transformArms f ys
      pure (xs' ++ ys')) := by
  induction xs with
  | nil =>
      simp only [List.nil_append, transformArms]
      cases h : transformArms f ys <;> simp [h, bind, Except.bind, pure, Except.pure]
  | cons a rest ih =>
      obtain ⟨p, b⟩ := a
      simp only [List.cons_append, transformArms]
      cases hp : transform f p <;>
        cases hb : transform f b <;>
          cases hr : transformArms f rest <;>
            cases hy : transformArms f ys <;>
              simp [ih, hp, hb, hr, hy, bind, Except.bind, pure, Except.pure]

/-- If every arm's transformed pattern is non-wildcard, the transformed arm
list is wildcard-free. -/
theorem transformArms_no_wildcard (f : Node → Except String Node)
    (arms arms' : List MatchArm) (h : transformArms f arms = .ok arms')
    (hw : ∀ arm ∈ arms, ∀ p, transform f arm.pattern = .ok p → isWildcardPat p = false) :
    ∀ arm ∈ arms', isWildcardArm arm = false := by
  induction arms generalizing arms' with
  | nil =>
      simp only [transformArms, pure, Except.pure, Except.ok.injEq] at h
      subst h; simp
  | cons a rest ih =>
      obtain ⟨p, b⟩ := a
      simp only [transformArms, bind, Except.bind] at h
      cases hp : transform f p with
      | error e => rw [hp] at h; exact absurd h (by simp)
      | ok p' =>
          rw [hp] at h
          cases hb : transform f b with
          | error e => rw [hb] at h; exact absurd h (by simp)
          | ok b' =>
              rw [hb] at h
              cases hr : transformArms f rest with
              | error e => rw [hr] at h; exact absurd h (by simp)
              | ok rest' =>
                  rw [hr] at h
                  simp only [pure, Except.pure, Except.ok.injEq] at h
                  subst h
                  intro arm harm
                  rcases List.mem_cons.mp harm with rfl | hmem
                  · have := hw ⟨p, b⟩ (by simp) p' (by simpa [MatchArm.pattern] using hp)
                    simpa [isWildcardArm, MatchArm.pattern] using this
                  · exact ih rest' hr (fun x hx => hw x (by simp [hx])) arm hmem

/-- Simplifying the nested conditional chain folds the simplified arms over
the simplified default, provided the scrutinee simplifies successfully. -/
theorem simplify_chain (value v' : Node) (hv : transform simplifyF value = .ok v')
    (arms : List MatchArm) (dflt : Node) :
    transform simplifyF (chain value arms dflt) = (do
      let arms' ← transformArms simplifyF arms
      let d' ← transform simplifyF dflt
      pure (arms'.foldr
        (fun arm acc => Node.ExtendsExpr v' arm.pattern arm.body acc) d')) := by
  induction arms with
  | nil =>
      simp only [chain, List.foldr_nil, transformArms]
      cases hd : transform simplifyF dflt <;>
        simp [hd, bind, Except.bind, pure, Except.pure]
  | cons a rest ih =>
      obtain ⟨p, b⟩ := a
      show transform simplifyF
          (.IfExpr (.ExtendsBinOp value .Extends p) b (some (chain value rest dflt))) = _
      simp only [transform, transformOpt, transformArms, hv, bind, Except.bind]
      cases hp : transform simplifyF p <;>
        cases hb : transform simplifyF b <;>
          cases hr : transformArms simplifyF rest <;>
            cases hd : transform simplifyF dflt <;>
              simp [ih, hp, hb, hr, hd, bind, Except.bind, pure, Except.pure, simplifyF,
                simplify_conditional, MatchArm.pattern, MatchArm.body]

/-- With no wildcard arm the default is the bottom type `Never` and all arms
are folded right-to-left. -/
theorem simplify_match_no_wildcard (value : Node) (arms : List MatchArm)
    (h : ∀ arm ∈ arms, isWildcardArm arm = false) :
    simplify_match_expr value arms =
      .ok (arms.foldr (fun arm acc => .ExtendsExpr value arm.pattern arm.body acc) .Never) := by
  unfold simplify_match_expr
  rw [wildcardScan_no_wildcard arms 0 none .Never h]
  rfl

/-- C2: match compilation agrees with the nested conditional chain.  For a
match on `value` whose ordered arms are non-wildcard (their patterns stay
non-wildcard after simplification) followed by an optional trailing wildcard
arm with body `d`, simplification of the match expression equals
simplification of the chain `if value <: p1 then b1 else ... else D`, where
`D` is the wildcard body if present and `Never` otherwise.  Earlier arms end
up tested first, so they take precedence. -/
theorem simplify_match_as_nested_conditional (value : Node) (arms : List MatchArm)
    (dflt : Option Node) (hne : arms ≠ [])
    (hw : ∀ arm ∈ arms, ∀ p,
      transform simplifyF arm.pattern = .ok p → isWildcardPat p = false) :
    Node.simplify (.MatchExpr value
        (arms ++ (match dflt with
          | some d => [MatchArm.mk (.Ident "_") d]
          | none => []))) =
    Node.simplify (chain value arms (dflt.getD .Never)) := by
  obtain ⟨a0, rest, rfl⟩ : ∃ a0 rest, arms = a0 :: rest := by
    cases arms with
    | nil => exact absurd rfl hne
    | cons a r => exact ⟨a, r, rfl⟩
  cases hv : transform simplifyF value with
  | error e =>
      obtain ⟨p, b⟩ := a0
      simp [Node.simplify, transform, chain, transformArms, hv, bind, Except.bind, simplifyF,
        MatchArm.pattern, MatchArm.body]
  | ok v' =>
      unfold Node.simplify
      rw [simplify_chain value v' hv]
      simp only [transform, bind, Except.bind, hv]
      rw [transformArms_append]
      cases hA : transformArms simplifyF (a0 :: rest) with
      | error e => simp [bind, Except.bind]
      | ok arms' =>
          have hwild : ∀ arm ∈ arms', isWildcardArm arm = false :=
            transformArms_no_wildcard _ _ arms' hA hw
          cases dflt with
          | none =>
              simp only [Option.getD_none, bind, Except.bind, transformArms, pure, Except.pure,
                List.append_nil, simplifyF]
              rw [simplify_match_no_wildcard v' arms' hwild]
              simp only [transform, simplifyF, bind, Except.bind, pure, Except.pure]
          | some d =>
              simp only [Option.getD_some, bind, Except.bind, transformArms, transform,
                simplifyF, pure, Except.pure]
              cases hd : transform simplifyF d with
              | error e => simp [bind, Except.bind]
              | ok d' =>
                  simp only [bind, Except.bind, pure, Except.pure]
                  rw [show arms' ++ [MatchArm.mk (.Ident "_") d'] =
                        arms' ++ MatchArm.mk (.Ident "_") d' :: [] from rfl,
                    simplify_match_wildcard_position v' d' arms' [] hwild (by simp)]
                  simp

/-- Witness for C2: the spec's own example, a match on `A` with arms `number`
and `string` and a wildcard default `3`. -/
theorem simplify_match_as_nested_conditional_witness :
    Node.simplify (.MatchExpr (.Ident "A")
      [.mk (.Primitive "number") (.Number "1"),
       .mk (.Primitive "string") (.Number "2"),
       .mk (.Ident "_") (.Number "3")]) =
    Node.simplify (chain (.Ident "A")
      [.mk (.Primitive "number") (.Number "1"),
       .mk (.Primitive "string") (.Number "2")]
      (.Number "3")) := by
  have h := simplify_match_as_nested_conditional (.Ident "A")
    [.mk (.Primitive "number") (.Number "1"), .mk (.Primitive "string") (.Number "2")]
    (some (.Number "3"))
    (by simp)
    (by
      intro arm harm p hp
      have harm2 : arm = MatchArm.mk (.Primitive "number") (.Number "1") ∨
          arm = MatchArm.mk (.Primitive "string") (.Number "2") := by
        simpa using harm
      rcases harm2 with rfl | rfl <;>
        simp only [MatchArm.pattern, transform, simplifyF, Except.ok.injEq] at hp <;>
          subst hp <;> rfl)
  simpa using h

/-! Canonical-form predicate: a tree is clean when it contains no surface
`IfExpr` and no `MatchExpr` node anywhere.  These are exactly the variants the
simplification pass of this generation rewrites. -/
mutual
/-- No `IfExpr`/`MatchExpr` variant anywhere in the node. -/
def isClean : Node → Bool
  | .Program xs => isCleanList xs
  | .TypeAlias _ params body => isCleanList params && isClean body
  | .BinOp lhs _ rhs => isClean lhs && isClean rhs
  | .Ident _ => true
  | .Number _ => true
  | .Primitive _ => true
  | .String _ => true
  | .TemplateString _ => true
  | .ExtendsPrefixOp _ value => isClean value
  | .ExtendsBinOp lhs _ rhs => isClean lhs && isClean rhs
  | .ExtendsExpr lhs rhs then_branch else_branch =>
      isClean lhs && isClean rhs && isClean then_branch && isClean else_branch
  | .Error _ => true
  | .ObjectLiteral props => isCleanProps props
  | .Application _ args => isCleanList args
  | .Never => true
  | .Any => true
  | .Unknown => true
  | .Tuple xs => isCleanList xs
  | .Array inner => isClean inner
  | .Null => true
  | .Undefined => true
  | .False => true
  | .True => true
  | .IfExpr _ _ _ => false
  | .MatchExpr _ _ => false
  termination_by structural n => n

/-- Pointwise cleanliness of a node list. -/
def isCleanList : List Node → Bool
  | [] => true
  | x :: xs => isClean x && isCleanList xs
  termination_by structural xs => xs

/-- Pointwise cleanliness of object-literal property values. -/
def isCleanProps : List ObjectProperty → Bool
  | [] => true
  | .mk _ v :: rest => isClean v && isCleanProps rest
  termination_by structural props => props
end

/-- Cleanliness of an optional node (an absent else-branch is clean). -/
def optClean : Option Node → Bool
  | none => true
  | some v => isClean v

/-- Cleanliness of a match arm (pattern and body). -/
def armClean (arm : MatchArm) : Bool := isClean arm.pattern && isClean arm.body

/-- Cleanliness of a match-arm list. -/
def armsClean (arms : List MatchArm) : Bool := arms.all armClean

/-- Size-based strong induction for `Node`. -/
theorem node_strong_induction (P : Node → Prop)
    (h : ∀ n, (∀ m : Node, sizeOf m < sizeOf n → P m) → P n) : ∀ n, P n := by
  have key : ∀ k, ∀ m : Node, sizeOf m < k → P m := by
    intro k
    induction k with
    | zero => intro m hm; omega
    | succ k ih => exact fun m hm => h m (fun x hx => ih x (by omega))
  exact fun n => h n (fun m hm => key (sizeOf n) m hm)

/-- Conditional normalization builds a clean tree from clean inputs. -/
theorem simplify_conditional_clean :
    ∀ c t e r, isClean c = true → isClean t = true → isClean e = true →
      simplify_conditional c t e = .ok r → isClean r = true := by
  intro c
  induction c using node_strong_induction with
  | _ c ih =>
    intro t e r hc ht he h
    match c with
    | .ExtendsPrefixOp op value =>
        match op with
        | .Not =>
            simp only [simplify_conditional] at h
            simp only [isClean] at hc
            exact ih value (by simp) e t r hc he ht h
    | .ExtendsBinOp lhs op rhs =>
        simp only [isClean, Bool.and_eq_true] at hc
        obtain ⟨hl, hr⟩ := hc
        have hls : sizeOf lhs < sizeOf (Node.ExtendsBinOp lhs op rhs) := by simp; omega
        have hrs : sizeOf rhs < sizeOf (Node.ExtendsBinOp lhs op rhs) := by simp
        match op with
        | .Extends =>
            simp only [simplify_conditional, Except.ok.injEq] at h
            subst h
            simp [isClean, hl, hr, ht, he]
        | .NotExtends =>
            simp only [simplify_conditional, Except.ok.injEq] at h
            subst h
            simp [isClean, hl, hr, ht, he]
        | .Equals => simp [simplify_conditional] at h
        | .NotEquals => simp [simplify_conditional] at h
        | .StrictEquals => simp [simplify_conditional] at h
        | .StrictNotEquals => simp [simplify_conditional] at h
        | .And =>
            simp only [simplify_conditional, bind, Except.bind] at h
            cases hmid : simplify_conditional rhs t e with
            | error e' => rw [hmid] at h; cases h
            | ok mid =>
                rw [hmid] at h
                exact ih lhs hls mid e r hl (ih rhs hrs t e mid hr ht he hmid) he h
        | .Or =>
            simp only [simplify_conditional, bind, Except.bind] at h
            cases hmid : simplify_conditional rhs t e with
            | error e' => rw [hmid] at h; cases h
            | ok mid =>
                rw [hmid] at h
                exact ih lhs hls t mid r hl ht (ih rhs hrs t e mid hr ht he hmid) h
    | .Program xs => simp [simplify_conditional] at h
    | .TypeAlias a b d => simp [simplify_conditional] at h
    | .BinOp a o b => simp [simplify_conditional] at h
    | .Ident a => simp [simplify_conditional] at h
    | .Number a => simp [simplify_conditional] at h
    | .Primitive a => simp [simplify_conditional] at h
    | .String a => simp [simplify_conditional] at h
    | .TemplateString a => simp [simplify_conditional] at h
    | .ExtendsExpr a b d g => simp [simplify_conditional] at h
    | .Error a => simp [simplify_conditional] at h
    | .ObjectLiteral a => simp [simplify_conditional] at h
    | .Application a b => simp [simplify_conditional] at h
    | .Never => simp [simplify_conditional] at h
    | .Any => simp [simplify_conditional] at h
    | .Unknown => simp [simplify_conditional] at h
    | .Tuple a => simp [simplify_conditional] at h
    | .Array a => simp [simplify_conditional] at h
    | .Null => simp [simplify_conditional] at h
    | .Undefined => simp [simplify_conditional] at h
    | .False => simp [simplify_conditional] at h
    | .True => simp [simplify_conditional] at h
    | .IfExpr a b d => simp [simplify_conditional] at h
    | .MatchExpr a b => simp [simplify_conditional] at h

/-- Inversion for a successful `Except` bind. -/
theorem except_bind_ok {α β : Type} {x : Except Msg α} {g : α → Except Msg β} {r : β}
    (h : (x >>= g) = .ok r) : ∃ a, x = .ok a ∧ g a = .ok r := by
  cases x with
  | error e => simp [bind, Except.bind] at h
  | ok a => exact ⟨a, rfl, by simpa [bind, Except.bind] using h⟩

/-- The wildcard scan returns a clean default when the arms and the incoming
default are clean. -/
theorem wildcardScan_body_clean (arms : List MatchArm) :
    ∀ (i : Nat) (idx : Option Nat) (body : Node) (idx' : Option Nat) (body' : Node),
      armsClean arms = true → isClean body = true →
      wildcardScan arms i idx body = .ok (idx', body') → isClean body' = true := by
  induction arms with
  | nil =>
      intro i idx body idx' body' _ hb h
      simp only [wildcardScan, Except.ok.injEq, Prod.mk.injEq] at h
      obtain ⟨-, rfl⟩ := h
      exact hb
  | cons a rest ih =>
      intro i idx body idx' body' ha hb h
      simp only [armsClean, List.all_cons, Bool.and_eq_true] at ha
      obtain ⟨ha1, ha2⟩ := ha
      by_cases hw : isWildcardArm a = true
      · simp only [wildcardScan, hw, if_true] at h
        cases idx with
        | some j => simp at h
        | none =>
            simp only [Option.isSome_none, Bool.false_eq_true, if_false] at h
            have hab : isClean a.pattern = true ∧ isClean a.body = true := by
              simpa [armClean, Bool.and_eq_true] using ha1
            exact ih (i + 1) (some i) a.body idx' body' (by simpa [armsClean] using ha2)
              hab.2 h
      · have hw' : isWildcardArm a = false := by revert hw; cases isWildcardArm a <;> simp
        simp only [wildcardScan, hw', Bool.false_eq_true, if_false] at h
        exact ih (i + 1) idx body idx' body' (by simpa [armsClean] using ha2) hb h

/-- Removing an index keeps an arm list clean. -/
theorem eraseIdx_armsClean (arms : List MatchArm) :
    ∀ (i : Nat), armsClean arms = true → armsClean (arms.eraseIdx i) = true := by
  induction arms with
  | nil => intro i h; simpa using h
  | cons a rest ih =>
      intro i h
      simp only [armsClean, List.all_cons, Bool.and_eq_true] at h
      cases i with
      | zero => simpa [List.eraseIdx, armsClean] using h.2
      | succ j =>
          simp only [List.eraseIdx, armsClean, List.all_cons, Bool.and_eq_true]
          exact ⟨h.1, by simpa [armsClean] using ih j (by simpa [armsClean] using h.2)⟩

/-- Folding clean arms over a clean default builds a clean chain. -/
theorem foldr_extends_clean (v : Node) (arms : List MatchArm) (d : Node)
    (hv : isClean v = true) (ha : armsClean arms = true) (hd : isClean d = true) :
    isClean (arms.foldr
      (fun arm acc => .ExtendsExpr v arm.pattern arm.body acc) d) = true := by
  induction arms with
  | nil => simpa
  | cons a rest ih =>
      simp only [armsClean, List.all_cons, Bool.and_eq_true] at ha
      have hab : isClean a.pattern = true ∧ isClean a.body = true := by
        simpa [armClean, Bool.and_eq_true] using ha.1
      simp only [List.foldr_cons, isClean, Bool.and_eq_true]
      exact ⟨⟨⟨hv, hab.1⟩, hab.2⟩, ih (by simpa [armsClean] using ha.2)⟩

/-- Match compilation builds a clean tree from a clean scrutinee and clean
arms. -/
theorem simplify_match_expr_clean (v : Node) (arms : List MatchArm) (r : Node)
    (hv : isClean v = true) (ha : armsClean arms = true)
    (h : simplify_match_expr v arms = .ok r) : isClean r = true := by
  unfold simplify_match_expr at h
  obtain ⟨⟨idx', body'⟩, h1, h2⟩ := except_bind_ok h
  have hb' : isClean body' = true :=
    wildcardScan_body_clean arms 0 none .Never idx' body' ha rfl h1
  simp only [Except.ok.injEq] at h2
  subst h2
  cases idx' with
  | none => exact foldr_extends_clean v arms body' hv ha hb'
  | some idx =>
      exact foldr_extends_clean v _ body' hv (eraseIdx_armsClean arms idx ha) hb'

/-- List form of the output-cleanliness induction step. -/
theorem transformList_clean_aux (f : Node → Except Msg Node) (N : Nat)
    (ih : ∀ m : Node, sizeOf m < N → ∀ r, transform f m = .ok r → isClean r = true) :
    ∀ xs : List Node, sizeOf xs < N →
      ∀ rs, transformList f xs = .ok rs → isCleanList rs = true := by
  intro xs
  induction xs with
  | nil =>
      intro _ rs h
      simp only [transformList, pure, Except.pure, Except.ok.injEq] at h
      subst h; rfl
  | cons x tail ihl =>
      intro hs rs h
      simp only [transformList, bind, Except.bind] at h
      obtain ⟨x', h1, h2⟩ := except_bind_ok (by simpa [bind] using h)
      obtain ⟨tail', h3, h4⟩ := except_bind_ok h2
      simp only [pure, Except.pure, Except.ok.injEq] at h4
      subst h4
      simp only [isCleanList, Bool.and_eq_true]
      constructor
      · exact ih x (by simp at hs ⊢; omega) x' h1
      · exact ihl (by simp at hs ⊢; omega) tail' h3

/-- Arm-list form of the output-cleanliness induction step. -/
theorem transformArms_clean_aux (f : Node → Except Msg Node) (N : Nat)
    (ih : ∀ m : Node, sizeOf m < N → ∀ r, transform f m = .ok r → isClean r = true) :
    ∀ arms : List MatchArm, sizeOf arms < N →
      ∀ rs, transformArms f arms = .ok rs → armsClean rs = true := by
  intro arms
  induction arms with
  | nil =>
      intro _ rs h
      simp only [transformArms, pure, Except.pure, Except.ok.injEq] at h
      subst h; rfl
  | cons a tail ihl =>
      obtain ⟨p, b⟩ := a
      intro hs rs h
      simp only [transformArms, bind, Except.bind] at h
      obtain ⟨p', h1, h2⟩ := except_bind_ok (by simpa [bind] using h)
      obtain ⟨b', h3, h4⟩ := except_bind_ok h2
      obtain ⟨tail', h5, h6⟩ := except_bind_ok h4
      simp only [pure, Except.pure, Except.ok.injEq] at h6
      subst h6
      simp only [armsClean, List.all_cons, Bool.and_eq_true, armClean, MatchArm.pattern,
        MatchArm.body]
      refine ⟨⟨?_, ?_⟩, ?_⟩
      · exact ih p (by simp at hs ⊢; omega) p' h1
      · exact ih b (by simp at hs ⊢; omega) b' h3
      · simpa [armsClean] using ihl (by simp at hs ⊢; omega) tail' h5

/-- Property-list form of the output-cleanliness induction step. -/
theorem transformProps_clean_aux (f : Node → Except Msg Node) (N : Nat)
    (ih : ∀ m : Node, sizeOf m < N → ∀ r, transform f m = .ok r → isClean r = true) :
    ∀ props : List ObjectProperty, sizeOf props < N →
      ∀ rs, transformProps f props = .ok rs → isCleanProps rs = true := by
  intro props
  induction props with
  | nil =>
      intro _ rs h
      simp only [transformProps, pure, Except.pure, Except.ok.injEq] at h
      subst h; rfl
  | cons a tail ihl =>
      obtain ⟨k, v⟩ := a
      intro hs rs h
      simp only [transformProps, bind, Except.bind] at h
      obtain ⟨v', h1, h2⟩ := except_bind_ok (by simpa [bind] using h)
      obtain ⟨tail', h3, h4⟩ := except_bind_ok h2
      simp only [pure, Except.pure, Except.ok.injEq] at h4
      subst h4
      simp only [isCleanProps, Bool.and_eq_true]
      constructor
      · exact ih v (by simp at hs ⊢; omega) v' h1
      · exact ihl (by simp at hs ⊢; omega) tail' h3

/-- Every successful simplification of the flat generation yields a tree with
no surface `IfExpr` or `MatchExpr` node anywhere. -/
theorem transform_simplifyF_clean :
    ∀ n : Node, ∀ r, transform simplifyF n = .ok r → isClean r = true := by
  intro n
  induction n using node_strong_induction with
  | _ n ih =>
    intro r h
    match n with
    | .Error m =>
        simp only [transform, simplifyF, Except.ok.injEq] at h; subst h; rfl
    | .Never => simp only [transform, simplifyF, Except.ok.injEq] at h; subst h; rfl
    | .Any => simp only [transform, simplifyF, Except.ok.injEq] at h; subst h; rfl
    | .Unknown => simp only [transform, simplifyF, Except.ok.injEq] at h; subst h; rfl
    | .Null => simp only [transform, simplifyF, Except.ok.injEq] at h; subst h; rfl
    | .Undefined => simp only [transform, simplifyF, Except.ok.injEq] at h; subst h; rfl
    | .False => simp only [transform, simplifyF, Except.ok.injEq] at h; subst h; rfl
    | .True => simp only [transform, simplifyF, Except.ok.injEq] at h; subst h; rfl
    | .Ident s => simp only [transform, simplifyF, Except.ok.injEq] at h; subst h; rfl
    | .Number s => simp only [transform, simplifyF, Except.ok.injEq] at h; subst h; rfl
    | .Primitive s => simp only [transform, simplifyF, Except.ok.injEq] at h; subst h; rfl
    | .String s => simp only [transform, simplifyF, Except.ok.injEq] at h; subst h; rfl
    | .TemplateString s =>
        simp only [transform, simplifyF, Except.ok.injEq] at h; subst h; rfl
    | .Program xs =>
        simp only [transform] at h
        obtain ⟨xs', h1, h2⟩ := except_bind_ok h
        simp only [simplifyF, Except.ok.injEq] at h2
        subst h2
        simpa [isClean] using
          transformList_clean_aux simplifyF _ ih xs (by simp) xs' h1
    | .TypeAlias name params body =>
        simp only [transform] at h
        obtain ⟨params', h1, h2⟩ := except_bind_ok h
        obtain ⟨body', h3, h4⟩ := except_bind_ok h2
        simp only [simplifyF, Except.ok.injEq] at h4
        subst h4
        simp only [isClean, Bool.and_eq_true]
        exact ⟨transformList_clean_aux simplifyF _ ih params (by simp; omega) params' h1,
          ih body (by simp) body' h3⟩
    | .Tuple xs =>
        simp only [transform] at h
        obtain ⟨xs', h1, h2⟩ := except_bind_ok h
        simp only [simplifyF, Except.ok.injEq] at h2
        subst h2
        simpa [isClean] using
          transformList_clean_aux simplifyF _ ih xs (by simp) xs' h1
    | .Array inner =>
        simp only [transform] at h
        obtain ⟨inner', h1, h2⟩ := except_bind_ok h
        simp only [simplifyF, Except.ok.injEq] at h2
        subst h2
        simpa [isClean] using ih inner (by simp) inner' h1
    | .BinOp lhs op rhs =>
        simp only [transform] at h
        obtain ⟨lhs', h1, h2⟩ := except_bind_ok h
        obtain ⟨rhs', h3, h4⟩ := except_bind_ok h2
        simp only [simplifyF, Except.ok.injEq] at h4
        subst h4
        simp only [isClean, Bool.and_eq_true]
        exact ⟨ih lhs (by simp; omega) lhs' h1, ih rhs (by simp) rhs' h3⟩
    | .ExtendsBinOp lhs op rhs =>
        simp only [transform] at h
        obtain ⟨lhs', h1, h2⟩ := except_bind_ok h
        obtain ⟨rhs', h3, h4⟩ := except_bind_ok h2
        simp only [simplifyF, Except.ok.injEq] at h4
        subst h4
        simp only [isClean, Bool.and_eq_true]
        exact ⟨ih lhs (by simp; omega) lhs' h1, ih rhs (by simp) rhs' h3⟩
    | .ExtendsPrefixOp op value =>
        simp only [transform] at h
        obtain ⟨value', h1, h2⟩ := except_bind_ok h
        simp only [simplifyF, Except.ok.injEq] at h2
        subst h2
        simpa [isClean] using ih value (by simp) value' h1
    | .ExtendsExpr lhs rhs then_branch else_branch =>
        simp only [transform] at h
        obtain ⟨lhs', h1, h2⟩ := except_bind_ok h
        obtain ⟨rhs', h3, h4⟩ := except_bind_ok h2
        obtain ⟨t', h5, h6⟩ := except_bind_ok h4
        obtain ⟨e', h7, h8⟩ := except_bind_ok h6
        simp only [simplifyF, Except.ok.injEq] at h8
        subst h8
        simp only [isClean, Bool.and_eq_true]
        exact ⟨⟨⟨ih lhs (by simp; omega) lhs' h1, ih rhs (by simp; omega) rhs' h3⟩,
          ih then_branch (by simp; omega) t' h5⟩, ih else_branch (by simp) e' h7⟩
    | .ObjectLiteral props =>
        simp only [transform] at h
        obtain ⟨props', h1, h2⟩ := except_bind_ok h
        simp only [simplifyF, Except.ok.injEq] at h2
        subst h2
        simpa [isClean] using
          transformProps_clean_aux simplifyF _ ih props (by simp) props' h1
    | .Application name args =>
        simp only [transform] at h
        obtain ⟨args', h1, h2⟩ := except_bind_ok h
        simp only [simplifyF, Except.ok.injEq] at h2
        subst h2
        simpa [isClean] using
          transformList_clean_aux simplifyF _ ih args (by simp) args' h1
    | .IfExpr cond then_branch else_branch =>
        simp only [transform] at h
        obtain ⟨cond', h1, h2⟩ := except_bind_ok h
        obtain ⟨t', h3, h4⟩ := except_bind_ok h2
        obtain ⟨e', h5, h6⟩ := except_bind_ok h4
        have hcond : isClean cond' = true := ih cond (by simp; omega) cond' h1
        have hthen : isClean t' = true := ih then_branch (by simp; omega) t' h3
        simp only [simplifyF] at h6
        cases else_branch with
        | none =>
            simp only [transformOpt, pure, Except.pure, Except.ok.injEq] at h5
            subst h5
            exact simplify_conditional_clean cond' t' Node.Never r hcond hthen rfl h6
        | some v =>
            simp only [transformOpt] at h5
            obtain ⟨v', hv1, hv2⟩ := except_bind_ok h5
            simp only [pure, Except.pure, Except.ok.injEq] at hv2
            subst hv2
            exact simplify_conditional_clean cond' t' _ r hcond hthen
              (by simpa using ih v (by simp; omega) v' hv1) h6
    | .MatchExpr value arms =>
        simp only [transform] at h
        obtain ⟨value', h1, h2⟩ := except_bind_ok h
        obtain ⟨arms', h3, h4⟩ := except_bind_ok h2
        simp only [simplifyF] at h4
        exact simplify_match_expr_clean value' arms' r
          (ih value (by simp; omega) value' h1)
          (transformArms_clean_aux simplifyF _ ih arms (by simp) arms' h3) h4

/-- List form of the identity induction step. -/
theorem transformList_id_aux (f : Node → Except Msg Node) (N : Nat)
    (ih : ∀ m : Node, sizeOf m < N → isClean m = true → transform f m = .ok m) :
    ∀ xs : List Node, sizeOf xs < N → isCleanList xs = true →
      transformList f xs = .ok xs := by
  intro xs
  induction xs with
  | nil => intro _ _; rfl
  | cons x tail ihl =>
      intro hs hc
      simp only [isCleanList, Bool.and_eq_true] at hc
      simp only [transformList, bind, Except.bind,
        ih x (by simp at hs ⊢; omega) hc.1,
        ihl (by simp at hs ⊢; omega) hc.2]
      rfl

/-- Arm-list form of the identity induction step. -/
theorem transformArms_id_aux (f : Node → Except Msg Node) (N : Nat)
    (ih : ∀ m : Node, sizeOf m < N → isClean m = true → transform f m = .ok m) :
    ∀ arms : List MatchArm, sizeOf arms < N → armsClean arms = true →
      transformArms f arms = .ok arms := by
  intro arms
  induction arms with
  | nil => intro _ _; rfl
  | cons a tail ihl =>
      obtain ⟨p, b⟩ := a
      intro hs hc
      simp only [armsClean, List.all_cons, Bool.and_eq_true, armClean, MatchArm.pattern,
        MatchArm.body] at hc
      simp only [transformArms, bind, Except.bind,
        ih p (by simp at hs ⊢; omega) hc.1.1,
        ih b (by simp at hs ⊢; omega) hc.1.2,
        by simpa [armsClean] using ihl (by simp at hs ⊢; omega) hc.2]
      rfl

/-- Property-list form of the identity induction step. -/
theorem transformProps_id_aux (f : Node → Except Msg Node) (N : Nat)
    (ih : ∀ m : Node, sizeOf m < N → isClean m = true → transform f m = .ok m) :
    ∀ props : List ObjectProperty, sizeOf props < N → isCleanProps props = true →
      transformProps f props = .ok props := by
  intro props
  induction props with
  | nil => intro _ _; rfl
  | cons a tail ihl =>
      obtain ⟨k, v⟩ := a
      intro hs hc
      simp only [isCleanProps, Bool.and_eq_true] at hc
      simp only [transformProps, bind, Except.bind,
        ih v (by simp at hs ⊢; omega) hc.1,
        ihl (by simp at hs ⊢; omega) hc.2]
      rfl

/-- On a tree already in canonical form the simplification pass is the
identity. -/
theorem transform_simplifyF_id :
    ∀ n : Node, isClean n = true → transform simplifyF n = .ok n := by
  intro n
  induction n using node_strong_induction with
  | _ n ih =>
    intro hc
    match n with
    | .Error m => rfl
    | .Never => rfl
    | .Any => rfl
    | .Unknown => rfl
    | .Null => rfl
    | .Undefined => rfl
    | .False => rfl
    | .True => rfl
    | .Ident s => rfl
    | .Number s => rfl
    | .Primitive s => rfl
    | .String s => rfl
    | .TemplateString s => rfl
    | .Program xs =>
        simp only [isClean] at hc
        simp only [transform, bind, Except.bind,
          transformList_id_aux simplifyF _ ih xs (by simp) hc]
        rfl
    | .TypeAlias name params body =>
        simp only [isClean, Bool.and_eq_true] at hc
        simp only [transform, bind, Except.bind,
          transformList_id_aux simplifyF _ ih params (by simp; omega) hc.1,
          ih body (by simp) hc.2]
        rfl
    | .Tuple xs =>
        simp only [isClean] at hc
        simp only [transform, bind, Except.bind,
          transformList_id_aux simplifyF _ ih xs (by simp) hc]
        rfl
    | .Array inner =>
        simp only [isClean] at hc
        simp only [transform, bind, Except.bind, ih inner (by simp) hc]
        rfl
    | .BinOp lhs op rhs =>
        simp only [isClean, Bool.and_eq_true] at hc
        simp only [transform, bind, Except.bind,
          ih lhs (by simp; omega) hc.1, ih rhs (by simp) hc.2]
        rfl
    | .ExtendsBinOp lhs op rhs =>
        simp only [isClean, Bool.and_eq_true] at hc
        simp only [transform, bind, Except.bind,
          ih lhs (by simp; omega) hc.1, ih rhs (by simp) hc.2]
        rfl
    | .ExtendsPrefixOp op value =>
        simp only [isClean] at hc
        simp only [transform, bind, Except.bind, ih value (by simp) hc]
        rfl
    | .ExtendsExpr lhs rhs then_branch else_branch =>
        simp only [isClean, Bool.and_eq_true] at hc
        simp only [transform, bind, Except.bind,
          ih lhs (by simp; omega) hc.1.1.1, ih rhs (by simp; omega) hc.1.1.2,
          ih then_branch (by simp; omega) hc.1.2, ih else_branch (by simp) hc.2]
        rfl
    | .ObjectLiteral props =>
        simp only [isClean] at hc
        simp only [transform, bind, Except.bind,
          transformProps_id_aux simplifyF _ ih props (by simp) hc]
        rfl
    | .Application name args =>
        simp only [isClean] at hc
        simp only [transform, bind, Except.bind,
          transformList_id_aux simplifyF _ ih args (by simp) hc]
        rfl
    | .IfExpr cond then_branch else_branch => simp [isClean] at hc
    | .MatchExpr value arms => simp [isClean] at hc

/-- C5: idempotence.  Whenever the flat-generation `simplify` returns a tree,
running it again returns the same tree unchanged. -/
theorem simplify_idempotent (P Q : Node) (h : Node.simplify P = .ok Q) :
    Node.simplify Q = .ok Q :=
  transform_simplifyF_id Q (transform_simplifyF_clean P Q h)

/-- Witness for idempotence at a concrete conditional program. -/
theorem simplify_idempotent_witness :
    Node.simplify (.ExtendsExpr (.Ident "a") (.Ident "b") (.Ident "c") (.Ident "d")) =
      .ok (.ExtendsExpr (.Ident "a") (.Ident "b") (.Ident "c") (.Ident "d")) :=
  simplify_idempotent
    (.IfExpr (.ExtendsBinOp (.Ident "a") .Extends (.Ident "b"))
      (.Ident "c") (some (.Ident "d")))
    (.ExtendsExpr (.Ident "a") (.Ident "b") (.Ident "c") (.Ident "d"))
    (by rfl)

end Flat

namespace Spanned

/-- A source span.  The pest span's borrowed string data is irrelevant to
simplification; only its identity matters for the span-propagation behaviour,
so it is modelled as a pair of offsets. -/
structure Span where
  start : Nat
  stop : Nat
deriving DecidableEq, Repr

/-- Identifier names (`Identifier` in `crate::ast`; only its `name` string is
consulted by the code modelled here). -/
abbrev Identifier := String

/-! The span-carrying AST of `src/ast/node.rs`: a `Node` wraps an optional
span (generated nodes have none) around an `Ast` value.  The `Ast` variants
and their fields are those destructured by `Node::traverse`, `Node::simplify`,
`Node::eval` and `LetExpr::simplify`; leaf variants that the traversal passes
through untouched (literals, `NoOp`, the macro-call payload, the import
clause) are modelled with opaque `String` payloads. -/
mutual
/-- An AST value of the span-carrying generation. -/
inductive Ast where
  | Access (lhs rhs : Node) (is_dot : Bool)
  | Application (name : String) (args : List Node)
  | Array (inner : Node)
  | InfixOp (lhs : Node) (op : String) (rhs : Node)
  | Builtin (name : String) (argument : Node)
  | CondExpr (arms : List CondArm) (else_arm : Node)
  | ExtendsInfixOp (lhs : Node) (op : InfixOp) (rhs : Node)
  | ExtendsExpr (lhs rhs then_branch else_branch : Node)
  | ExtendsPrefixOp (op : PrefixOp) (value : Node)
  | IfExpr (condition : Node) (then_branch : Node) (else_branch : Option Node)
  | ImportStatement (import_clause : String) (module : String)
  | LetExpr (bindings : List (Identifier × Node)) (body : Node)
  | MappedType (index : String) (iterable : Node) (remapped_as : Option Node)
      (readonly_mod : Option String) (optional_mod : Option String) (body : Node)
  | MatchExpr (value : Node) (arms : List MatchArm) (else_arm : Node)
  | NamespaceAccess (lhs rhs : Node)
  | ObjectLiteral (properties : List ObjectProperty)
  | Program (statements : List Node)
  | Statement (inner : Node)
  | TemplateString (s : String)
  | Tuple (items : List Node)
  | TypeAlias (exported : Bool) (name : String) (params : List TypeParameter) (body : Node)
  | Ident (id : Identifier)
  | MacroCall (name : String)
  | NoOp
  | Number (raw : String)
  | String (s : String)
  | Primitive (name : String)
  | Never
  | Any
  | Unknown
  | Null
  | Undefined
  | True
  | False

/-- A tree node: optional source span plus owned value. -/
inductive Node where
  | mk (span : Option Span) (value : Ast)

/-- A match arm `{ pattern, body }`. -/
inductive MatchArm where
  | mk (pattern : Node) (body : Node)

/-- A conditional-expression arm `{ condition, body }`. -/
inductive CondArm where
  | mk (condition : Node) (body : Node)

/-- An object-literal property. -/
inductive ObjectProperty where
  | mk (key : String) (value : Node)

/-- A type parameter `{ name, constraint, default, rest }`. -/
inductive TypeParameter where
  | mk (name : String) (constraint : Option Node) (dflt : Option Node) (rest : Bool)
end

/-- The node's optional source span. -/
def Node.span : Node → Option Span
  | .mk s _ => s

/-- The node's wrapped AST value. -/
def Node.value : Node → Ast
  | .mk _ v => v

/-- `Node::replace`: install a new value, keep the span. -/
def Node.replace : Node → Ast → Node
  | .mk s _, v => .mk s v

/-- `Node::generate`: a generated node carries no span. -/
def Node.generate (v : Ast) : Node := .mk none v

def MatchArm.pattern : MatchArm → Node
  | .mk p _ => p

def MatchArm.body : MatchArm → Node
  | .mk _ b => b

def CondArm.condition : CondArm → Node
  | .mk c _ => c

def CondArm.body : CondArm → Node
  | .mk _ b => b

/-- The bindings map of a let expression,
`Bindings<'a> = HashMap<Identifier, Node<'a>>`.  The hash map is modelled as
an association list with unique keys; lookup returns the first match and the
code never depends on iteration order. -/
abbrev Bindings := List (Identifier × Node)

/-- `HashMap::get`, first-match lookup by identifier name. -/
def Bindings.get (b : Bindings) (name : Identifier) : Option Node :=
  (b.find? (fun p => p.1 == name)).map (fun p => p.2)

/-- The normalization of a surface conditional over the extends-expression
sub-grammar, recursing on the shape of the condition.  This is the algorithm
of spec section 4.3, which is the same algorithm as `simplify_conditional` in
`src/simplify.rs`, carried over to the span-carrying representation; the
canonical `ExtendsExpr` replacement node is generated (span-less).  A fatal
contract violation (non-extends condition, reserved equality operators) is
`none`. -/
def simplifyConditional : Node → Node → Node → Option Node
  | .mk _ (.ExtendsPrefixOp op value), then_, else_ =>
      match op with
      | .Not => simplifyConditional value else_ then_
  | .mk _ (.ExtendsInfixOp lhs op rhs), then_, else_ =>
      match op with
      | .Extends => some (Node.generate (.ExtendsExpr lhs rhs then_ else_))
      | .NotExtends => some (Node.generate (.ExtendsExpr lhs rhs else_ then_))
      | .Equals => none
      | .NotEquals => none
      | .StrictEquals => none
      | .StrictNotEquals => none
      | .And => do
          let then_ ← simplifyConditional rhs then_ else_
          simplifyConditional lhs then_ else_
      | .Or => do
          let else_ ← simplifyConditional rhs then_ else_
          simplifyConditional lhs then_ else_
  | _, _, _ => none
  termination_by structural condition _ _ => condition

/-- Modelled from the spec: `if_expr::Expr::simplify` is not under `src/`
(only its caller in `Node::simplify` is).  Spec section 4.3: a missing
else-branch stands for the bottom type `never`, and the conditional is
normalized over the condition's extends-expression shape. -/
def IfExpr.simplify (condition then_branch : Node) (else_branch : Option Node) :
    Option Node :=
  let else_ := match else_branch with
    | some v => v
    | none => Node.generate .Never
  simplifyConditional condition then_branch else_

/-- Modelled from the spec: `match_expr::Expr::simplify` is not under `src/`.
Spec section 4.4: the arms are folded right-to-left starting from the default
into canonical conditional nodes `(value, pattern, body, accumulator)`.  In
this representation the match node already carries its default in `else_arm`
(the "wildcard-or-synthesized else" of the spec's data model, section 3). -/
def MatchExpr.simplify (value : Node) (arms : List MatchArm) (else_arm : Node) : Node :=
  arms.foldr
    (fun arm acc => Node.generate (.ExtendsExpr value arm.pattern arm.body acc))
    else_arm

/-- Modelled from the spec: `cond_expr::Expr::simplify` is not under `src/`.
A cond expression is a multi-arm surface conditional; each arm carries an
extends-condition and a body, and the arms are folded right-to-left from the
else arm through the conditional normalization of spec section 4.3. -/
def CondExpr.simplify : List CondArm → Node → Option Node
  | [], else_arm => some else_arm
  | arm :: rest, else_arm => do
      let acc ← CondExpr.simplify rest else_arm
      simplifyConditional arm.condition arm.body acc

/-- The pre-order hook of `LetExpr::simplify` (`src/ast/let_expr.rs`): an
identifier node is replaced by its bound value when the name is bound in the
context, else kept; every other node passes through with the context
unchanged. -/
def substituteHook (node : Node) (bindings : Bindings) : Option (Node × Bindings) :=
  match node.value with
  | .Ident id => some ((Bindings.get bindings id).getD node, bindings)
  | _ => some (node, bindings)

/-! `Node::traverse` (`src/ast/node.rs`) and the functions built on it.

The traversal takes a pre-order and a post-order hook; hooks return `Option`
because the hooks used by `Node::simplify` can hit a fatal signal or run out
of fuel.  The `fuel` argument makes the genuinely possible divergence of the
Rust original (substitution descending into a self-referential binding) into
`none`; every recursive call into a child uses one unit less.  Context
handling follows the Rust case by case: most variants hand each child a clone
of the incoming context and return the incoming context; `Program` threads
the context through its statements, and `Statement` propagates its child's
context outward.  Rebuilt composite nodes keep the span of the node the
traversal was called on (`self.clone().replace(ast)`); the catch-all returns
the pre-hook's node unchanged. -/
mutual
/-- The shared recursive traversal; see the comment above. -/
def Node.traverse {Ctx : Type} (fuel : Nat) (n : Node) (ctx : Ctx)
    (pre post : Node → Ctx → Option (Node × Ctx)) : Option (Node × Ctx) :=
  match fuel with
  | 0 => none
  | fuel + 1 => do
    let (node, ctx) ← pre n ctx
    let (node, ctx) ← (match node.value with
      | .Access lhs rhs is_dot => do
          let (lhs, _) ← Node.traverse fuel lhs ctx pre post
          let (rhs, _) ← Node.traverse fuel rhs ctx pre post
          some (n.replace (.Access lhs rhs is_dot), ctx)
      | .Application name args => do
          let args ← traverseList fuel args ctx pre post
          some (n.replace (.Application name args), ctx)
      | .Array inner => do
          let (inner, _) ← Node.traverse fuel inner ctx pre post
          some (n.replace (.Array inner), ctx)
      | .InfixOp lhs op rhs => do
          let (lhs, _) ← Node.traverse fuel lhs ctx pre post
          let (rhs, _) ← Node.traverse fuel rhs ctx pre post
          some (n.replace (.InfixOp lhs op rhs), ctx)
      | .Builtin name argument => do
          let (argument, _) ← Node.traverse fuel argument ctx pre post
          some (n.replace (.Builtin name argument), ctx)
      | .CondExpr arms else_arm => do
          let arms ← traverseCondArms fuel arms ctx pre post
          let (else_arm, _) ← Node.traverse fuel else_arm ctx pre post
          some (n.replace (.CondExpr arms else_arm), ctx)
      | .ExtendsInfixOp lhs op rhs => do
          let (lhs, _) ← Node.traverse fuel lhs ctx pre post
          let (rhs, _) ← Node.traverse fuel rhs ctx pre post
          some (n.replace (.ExtendsInfixOp lhs op rhs), ctx)
      | .ExtendsExpr lhs rhs then_branch else_branch => do
          let (lhs, _) ← Node.traverse fuel lhs ctx pre post
          let (rhs, _) ← Node.traverse fuel rhs ctx pre post
          let (then_branch, _) ← Node.traverse fuel then_branch ctx pre post
          let (else_branch, _) ← Node.traverse fuel else_branch ctx pre post
          some (n.replace (.ExtendsExpr lhs rhs then_branch else_branch), ctx)
      | .ExtendsPrefixOp op value => do
          let (value, _) ← Node.traverse fuel value ctx pre post
          some (n.replace (.ExtendsPrefixOp op value), ctx)
      | .IfExpr condition then_branch else_branch => do
          let (condition, _) ← Node.traverse fuel condition ctx pre post
          let (then_branch, _) ← Node.traverse fuel then_branch ctx pre post
          let else_branch ← traverseOpt fuel else_branch ctx pre post
          some (n.replace (.IfExpr condition then_branch else_branch), ctx)
      | .ImportStatement import_clause module_name =>
          some (n.replace (.ImportStatement import_clause module_name), ctx)
      | .LetExpr bindings body => do
          let (body, _) ← Node.traverse fuel body ctx pre post
          some (n.replace (.LetExpr bindings body), ctx)
      | .MappedType index iterable remapped_as readonly_mod optional_mod body => do
          let (iterable, _) ← Node.traverse fuel iterable ctx pre post
          let remapped_as ← traverseOpt fuel remapped_as ctx pre post
          let (body, _) ← Node.traverse fuel body ctx pre post
          some (n.replace
            (.MappedType index iterable remapped_as readonly_mod optional_mod body), ctx)
      | .MatchExpr value arms else_arm => do
          let (value, _) ← Node.traverse fuel value ctx pre post
          let arms ← traverseArms fuel arms ctx pre post
          let (else_arm, _) ← Node.traverse fuel else_arm ctx pre post
          some (n.replace (.MatchExpr value arms else_arm), ctx)
      | .NamespaceAccess lhs rhs => do
          let (lhs, _) ← Node.traverse fuel lhs ctx pre post
          let (rhs, _) ← Node.traverse fuel rhs ctx pre post
          some (n.replace (.NamespaceAccess lhs rhs), ctx)
      | .ObjectLiteral properties => do
          let properties ← traverseProps fuel properties ctx pre post
          some (n.replace (.ObjectLiteral properties), ctx)
      | .Program statements => do
          let (statements, ctx) ← traverseStmts fuel statements ctx pre post
          some (n.replace (.Program statements), ctx)
      | .Statement inner => do
          let (inner, ctx) ← Node.traverse fuel inner ctx pre post
          some (n.replace (.Statement inner), ctx)
      | .TemplateString s => some (n.replace (.TemplateString s), ctx)
      | .Tuple items => do
          let items ← traverseList fuel items ctx pre post
          some (n.replace (.Tuple items), ctx)
      | .TypeAlias exported name params body => do
          let (body, _) ← Node.traverse fuel body ctx pre post
          let params ← traverseParams fuel params ctx pre post
          some (n.replace (.TypeAlias exported name params body), ctx)
      | _ => some (node, ctx))
    post node ctx
  termination_by structural fuel

/-- `red_items`: map the traversal over a node list, handing every element a
clone of the context and keeping only the nodes. -/
def traverseList {Ctx : Type} (fuel : Nat) (xs : List Node) (ctx : Ctx)
    (pre post : Node → Ctx → Option (Node × Ctx)) : Option (List Node) :=
  match fuel, xs with
  | _, [] => some []
  | 0, _ :: _ => none
  | fuel + 1, x :: rest => do
      let (x, _) ← Node.traverse fuel x ctx pre post
      let rest ← traverseList fuel rest ctx pre post
      some (x :: rest)
  termination_by structural fuel

/-- Traversal of an optional child (`.as_ref().map(fn_red_pick_node(...))`). -/
def traverseOpt {Ctx : Type} (fuel : Nat) (o : Option Node) (ctx : Ctx)
    (pre post : Node → Ctx → Option (Node × Ctx)) : Option (Option Node) :=
  match fuel, o with
  | _, none => some none
  | 0, some _ => none
  | fuel + 1, some v => do
      let (v, _) ← Node.traverse fuel v ctx pre post
      some (some v)
  termination_by structural fuel

/-- Traversal of match arms: pattern then body, each with a context clone. -/
def traverseArms {Ctx : Type} (fuel : Nat) (arms : List MatchArm) (ctx : Ctx)
    (pre post : Node → Ctx → Option (Node × Ctx)) : Option (List MatchArm) :=
  match fuel, arms with
  | _, [] => some []
  | 0, _ :: _ => none
  | fuel + 1, arm :: rest => do
      let (pattern, _) ← Node.traverse fuel arm.pattern ctx pre post
      let (body, _) ← Node.traverse fuel arm.body ctx pre post
      let rest ← traverseArms fuel rest ctx pre post
      some (MatchArm.mk pattern body :: rest)
  termination_by structural fuel

/-- Traversal of cond arms: condition then body, each with a context clone. -/
def traverseCondArms {Ctx : Type} (fuel : Nat) (arms : List CondArm) (ctx : Ctx)
    (pre post : Node → Ctx → Option (Node × Ctx)) : Option (List CondArm) :=
  match fuel, arms with
  | _, [] => some []
  | 0, _ :: _ => none
  | fuel + 1, arm :: rest => do
      let (condition, _) ← Node.traverse fuel arm.condition ctx pre post
      let (body, _) ← Node.traverse fuel arm.body ctx pre post
      let rest ← traverseCondArms fuel rest ctx pre post
      some (CondArm.mk condition body :: rest)
  termination_by structural fuel

/-- Traversal of object-literal properties (values only). -/
def traverseProps {Ctx : Type} (fuel : Nat) (props : List ObjectProperty) (ctx : Ctx)
    (pre post : Node → Ctx → Option (Node × Ctx)) : Option (List ObjectProperty) :=
  match fuel, props with
  | _, [] => some []
  | 0, _ :: _ => none
  | fuel + 1, .mk key value :: rest => do
      let (value, _) ← Node.traverse fuel value ctx pre post
      let rest ← traverseProps fuel rest ctx pre post
      some (ObjectProperty.mk key value :: rest)
  termination_by structural fuel

/-- Traversal of type parameters (constraint and default). -/
def traverseParams {Ctx : Type} (fuel : Nat) (params : List TypeParameter) (ctx : Ctx)
    (pre post : Node → Ctx → Option (Node × Ctx)) : Option (List TypeParameter) :=
  match fuel, params with
  | _, [] => some []
  | 0, _ :: _ => none
  | fuel + 1, .mk name constraint dflt rest_flag :: rest => do
      let constraint ← traverseOpt fuel constraint ctx pre post
      let dflt ← traverseOpt fuel dflt ctx pre post
      let rest ← traverseParams fuel rest ctx pre post
      some (TypeParameter.mk name constraint dflt rest_flag :: rest)
  termination_by structural fuel

/-- Statement-sequence traversal: the context is threaded from one statement
to the next (the one deliberate context leak across siblings). -/
def traverseStmts {Ctx : Type} (fuel : Nat) (stmts : List Node) (ctx : Ctx)
    (pre post : Node → Ctx → Option (Node × Ctx)) : Option (List Node × Ctx) :=
  match fuel, stmts with
  | _, [] => some ([], ctx)
  | 0, _ :: _ => none
  | fuel + 1, s :: rest => do
      let (s, ctx) ← Node.traverse fuel s ctx pre post
      let (rest, ctx) ← traverseStmts fuel rest ctx pre post
      some (s :: rest, ctx)
  termination_by structural fuel

/-- `LetExpr::simplify` step 1 (`src/ast/let_expr.rs`): every bound value is
simplified independently; the loop reads the original map and writes the
simplified values into a copy, which for unique keys is a map over the
values. -/
def simplifyBindings (fuel : Nat) (b : Bindings) : Option Bindings :=
  match fuel, b with
  | _, [] => some []
  | 0, _ :: _ => none
  | fuel + 1, (ident, value) :: rest => do
      let new_value ← Node.simplify fuel value
      let rest ← simplifyBindings fuel rest
      some ((ident, new_value) :: rest)
  termination_by structural fuel

/-- `LetExpr::simplify` (`src/ast/let_expr.rs`): simplify all bound values,
then prewalk the body replacing bound identifiers with their values. -/
def LetExpr.simplify (fuel : Nat) (bindings : Bindings) (body : Node) : Option Node :=
  match fuel with
  | 0 => none
  | fuel + 1 => do
    let bindings ← simplifyBindings fuel bindings
    let (tree, _) ← Node.traverse fuel body bindings substituteHook
      (fun n c => some (n, c))
    some tree
  termination_by structural fuel

/-- The post-order hook of `Node::simplify` (`src/ast/node.rs`): replace
surface conditionals, match expressions, cond expressions and let expressions
by their passes; leave every other node unchanged. -/
def simplifyHook (fuel : Nat) (node : Node) (ctx : Bindings) :
    Option (Node × Bindings) :=
  match fuel, node.value with
  | _, .IfExpr condition then_branch else_branch =>
      (IfExpr.simplify condition then_branch else_branch).map (fun t => (t, ctx))
  | _, .MatchExpr value arms else_arm =>
      some (MatchExpr.simplify value arms else_arm, ctx)
  | _, .CondExpr arms else_arm =>
      (CondExpr.simplify arms else_arm).map (fun t => (t, ctx))
  | 0, .LetExpr _ _ => none
  | fuel + 1, .LetExpr bindings body =>
      (LetExpr.simplify fuel bindings body).map (fun t => (t, ctx))
  | _, _ => some (node, ctx)
  termination_by structural fuel

/-- `Node::simplify` (`src/ast/node.rs`): a single post-order traversal with
an empty bindings context, rewriting the surface constructs via their
passes. -/
def Node.simplify (fuel : Nat) (n : Node) : Option Node :=
  match fuel with
  | 0 => none
  | fuel + 1 => do
    let (tree, _) ← Node.traverse fuel n ([] : Bindings)
      (fun node ctx => some (node, ctx)) (simplifyHook fuel)
    some tree
  termination_by structural fuel
end

/-- `Node::prewalk`: traversal with only a pre-order hook. -/
def Node.prewalk {Ctx : Type} (fuel : Nat) (n : Node) (ctx : Ctx)
    (pre : Node → Ctx → Option (Node × Ctx)) : Option (Node × Ctx) :=
  Node.traverse fuel n ctx pre (fun node c => some (node, c))

/-- `Node::postwalk`: traversal with only a post-order hook. -/
def Node.postwalk {Ctx : Type} (fuel : Nat) (n : Node) (ctx : Ctx)
    (post : Node → Ctx → Option (Node × Ctx)) : Option (Node × Ctx) :=
  Node.traverse fuel n ctx (fun node c => some (node, c)) post

/-- Inversion for a successful `Option` bind. -/
theorem option_bind_some {α β : Type} {x : Option α} {g : α → Option β} {r : β}
    (h : x.bind g = some r) : ∃ a, x = some a ∧ g a = some r := by
  cases x with
  | none => simp at h
  | some a => exact ⟨a, rfl, by simpa using h⟩

/-! A generic structural fold: `allNodes p n` checks `p` on every node of the
tree, including nested let-expression binding values.  All tree predicates
used by the theorems below are instances of it. -/
mutual
/-- Does `p` hold on this node and every node below it? -/
def allNodes (p : Node → Bool) : Node → Bool
  | .mk s a => p (.mk s a) && allNodesAst p a

/-- Child-wise fold over an AST value. -/
def allNodesAst (p : Node → Bool) : Ast → Bool
  | .Access lhs rhs _ => allNodes p lhs && allNodes p rhs
  | .Application _ args => allNodesList p args
  | .Array inner => allNodes p inner
  | .InfixOp lhs _ rhs => allNodes p lhs && allNodes p rhs
  | .Builtin _ argument => allNodes p argument
  | .CondExpr arms else_arm => allNodesCondArms p arms && allNodes p else_arm
  | .ExtendsInfixOp lhs _ rhs => allNodes p lhs && allNodes p rhs
  | .ExtendsExpr lhs rhs then_branch else_branch =>
      allNodes p lhs && allNodes p rhs && allNodes p then_branch && allNodes p else_branch
  | .ExtendsPrefixOp _ value => allNodes p value
  | .IfExpr condition then_branch else_branch =>
      allNodes p condition && allNodes p then_branch && allNodesOpt p else_branch
  | .ImportStatement _ _ => true
  | .LetExpr bindings body => allNodesBindings p bindings && allNodes p body
  | .MappedType _ iterable remapped_as _ _ body =>
      allNodes p iterable && allNodesOpt p remapped_as && allNodes p body
  | .MatchExpr value arms else_arm =>
      allNodes p value && allNodesArms p arms && allNodes p else_arm
  | .NamespaceAccess lhs rhs => allNodes p lhs && allNodes p rhs
  | .ObjectLiteral properties => allNodesProps p properties
  | .Program statements => allNodesList p statements
  | .Statement inner => allNodes p inner
  | .Tuple items => allNodesList p items
  | .TypeAlias _ _ params body => allNodesParams p params && allNodes p body
  | _ => true

def allNodesList (p : Node → Bool) : List Node → Bool
  | [] => true
  | x :: xs => allNodes p x && allNodesList p xs

def allNodesOpt (p : Node → Bool) : Option Node → Bool
  | none => true
  | some v => allNodes p v

def allNodesArms (p : Node → Bool) : List MatchArm → Bool
  | [] => true
  | .mk pattern body :: rest => allNodes p pattern && allNodes p body && allNodesArms p rest

def allNodesCondArms (p : Node → Bool) : List CondArm → Bool
  | [] => true
  | .mk condition body :: rest =>
      allNodes p condition && allNodes p body && allNodesCondArms p rest

def allNodesProps (p : Node → Bool) : List ObjectProperty → Bool
  | [] => true
  | .mk _ value :: rest => allNodes p value && allNodesProps p rest

def allNodesParams (p : Node → Bool) : List TypeParameter → Bool
  | [] => true
  | .mk _ constraint dflt _ :: rest =>
      allNodesOpt p constraint && allNodesOpt p dflt && allNodesParams p rest

def allNodesBindings (p : Node → Bool) : List (Identifier × Node) → Bool
  | [] => true
  | (_, v) :: rest => allNodes p v && allNodesBindings p rest
end

/-- Heads that the simplification pass of this generation eliminates. -/
def notSurface (n : Node) : Bool :=
  match n.value with
  | .IfExpr _ _ _ => false
  | .MatchExpr _ _ _ => false
  | .CondExpr _ _ => false
  | .LetExpr _ _ => false
  | _ => true

/-- Canonical form: no surface conditional, match, cond or let node anywhere. -/
def isClean (n : Node) : Bool := allNodes notSurface n

/-- No identifier-reference node anywhere. -/
def identFree (n : Node) : Bool :=
  allNodes (fun m => match m.value with | .Ident _ => false | _ => true) n

/-- Every node in the tree is generated (has no span). -/
def spanFree (n : Node) : Bool := allNodes (fun m => m.span.isNone) n

/-- No identifier-reference node anywhere that is bound in `b`. -/
def noBoundIdents (b : Bindings) (n : Node) : Bool :=
  allNodes (fun m => match m.value with
    | .Ident id => (Bindings.get b id).isNone
    | _ => true) n

/-- Does the tree contain an identifier-reference with this name? -/
def containsIdent (name : Identifier) (n : Node) : Bool :=
  ! allNodes (fun m => match m.value with
    | .Ident id => !(id == name)
    | _ => true) n

/-- Does `p` hold of every binding value? -/
def bindingsAll (p : Node → Bool) (b : Bindings) : Bool :=
  b.all (fun kv => p kv.2)

/-! The substitution function written from the spec's words, to be compared
with `LetExpr::simplify`'s walk.  Spec section 4.5: "whenever an
identifier-reference node is encountered, replace it with a deep copy of its
bound value if present in the current context, else leave it unchanged"; the
walk is the single pre-order walk of the traversal engine over the body, so
it recurses through every child the engine visits (and, like the engine, does
not descend into the binding maps of nested let expressions). -/
mutual
/-- Modelled from the spec: the one-pass identifier substitution of spec
section 4.5 (see the comment above). -/
def substSpec (b : Bindings) : Node → Node
  | .mk s (.Ident id) =>
      match Bindings.get b id with
      | some v => v
      | none => .mk s (.Ident id)
  | .mk s a => .mk s (substSpecAst b a)

def substSpecAst (b : Bindings) : Ast → Ast
  | .Access lhs rhs is_dot => .Access (substSpec b lhs) (substSpec b rhs) is_dot
  | .Application name args => .Application name (substSpecList b args)
  | .Array inner => .Array (substSpec b inner)
  | .InfixOp lhs op rhs => .InfixOp (substSpec b lhs) op (substSpec b rhs)
  | .Builtin name argument => .Builtin name (substSpec b argument)
  | .CondExpr arms else_arm => .CondExpr (substSpecCondArms b arms) (substSpec b else_arm)
  | .ExtendsInfixOp lhs op rhs => .ExtendsInfixOp (substSpec b lhs) op (substSpec b rhs)
  | .ExtendsExpr lhs rhs then_branch else_branch =>
      .ExtendsExpr (substSpec b lhs) (substSpec b rhs)
        (substSpec b then_branch) (substSpec b else_branch)
  | .ExtendsPrefixOp op value => .ExtendsPrefixOp op (substSpec b value)
  | .IfExpr condition then_branch else_branch =>
      .IfExpr (substSpec b condition) (substSpec b then_branch)
        (substSpecOpt b else_branch)
  | .LetExpr bindings body => .LetExpr bindings (substSpec b body)
  | .MappedType index iterable remapped_as readonly_mod optional_mod body =>
      .MappedType index (substSpec b iterable) (substSpecOpt b remapped_as)
        readonly_mod optional_mod (substSpec b body)
  | .MatchExpr value arms else_arm =>
      .MatchExpr (substSpec b value) (substSpecArms b arms) (substSpec b else_arm)
  | .NamespaceAccess lhs rhs => .NamespaceAccess (substSpec b lhs) (substSpec b rhs)
  | .ObjectLiteral properties => .ObjectLiteral (substSpecProps b properties)
  | .Program statements => .Program (substSpecList b statements)
  | .Statement inner => .Statement (substSpec b inner)
  | .Tuple items => .Tuple (substSpecList b items)
  | .TypeAlias exported name params body =>
      .TypeAlias exported name (substSpecParams b params) (substSpec b body)
  | a => a

def substSpecList (b : Bindings) : List Node → List Node
  | [] => []
  | x :: xs => substSpec b x :: substSpecList b xs

def substSpecOpt (b : Bindings) : Option Node → Option Node
  | none => none
  | some v => some (substSpec b v)

def substSpecArms (b : Bindings) : List MatchArm → List MatchArm
  | [] => []
  | .mk pattern body :: rest =>
      .mk (substSpec b pattern) (substSpec b body) :: substSpecArms b rest

def substSpecCondArms (b : Bindings) : List CondArm → List CondArm
  | [] => []
  | .mk condition body :: rest =>
      .mk (substSpec b condition) (substSpec b body) :: substSpecCondArms b rest

def substSpecProps (b : Bindings) : List ObjectProperty → List ObjectProperty
  | [] => []
  | .mk key value :: rest => .mk key (substSpec b value) :: substSpecProps b rest

def substSpecParams (b : Bindings) : List TypeParameter → List TypeParameter
  | [] => []
  | .mk name constraint dflt rest_flag :: rest =>
      .mk name (substSpecOpt b constraint) (substSpecOpt b dflt) rest_flag
        :: substSpecParams b rest
end

/-- Bind inversion stated on the monad operator, matching the form produced
by the traversal's equations. -/
theorem obind_eq_some {α β : Type} {x : Option α} {g : α → Option β} {r : β} :
    (x >>= g) = some r ↔ ∃ a, x = some a ∧ g a = some r := by
  cases x <;> simp

/-- Reduction of a bind whose first component is known. -/
theorem osome_bind {α β : Type} (a : α) (g : α → Option β) :
    ((some a : Option α) >>= g) = g a := rfl

/-- Generic identity property of the traversal: if both hooks behave as the
identity (at context `ctx0`) on every node satisfying `q`, then on a tree all
of whose nodes satisfy `q` the traversal returns the tree and the context
unchanged.  Stated simultaneously for the traversal and all its helpers and
proved by induction on the fuel. -/
theorem traverse_id_all {Ctx : Type} (q : Node → Bool)
    (pre post : Node → Ctx → Option (Node × Ctx)) (ctx0 : Ctx)
    (hpre : ∀ n, q n = true → pre n ctx0 = some (n, ctx0))
    (hpost : ∀ n, q n = true → post n ctx0 = some (n, ctx0)) :
    ∀ fuel : Nat,
      (∀ n r, allNodes q n = true →
        Node.traverse fuel n ctx0 pre post = some r → r = (n, ctx0)) ∧
      (∀ xs rs, allNodesList q xs = true →
        traverseList fuel xs ctx0 pre post = some rs → rs = xs) ∧
      (∀ o ro, allNodesOpt q o = true →
        traverseOpt fuel o ctx0 pre post = some ro → ro = o) ∧
      (∀ arms rs, allNodesArms q arms = true →
        traverseArms fuel arms ctx0 pre post = some rs → rs = arms) ∧
      (∀ arms rs, allNodesCondArms q arms = true →
        traverseCondArms fuel arms ctx0 pre post = some rs → rs = arms) ∧
      (∀ props rs, allNodesProps q props = true →
        traverseProps fuel props ctx0 pre post = some rs → rs = props) ∧
      (∀ params rs, allNodesParams q params = true →
        traverseParams fuel params ctx0 pre post = some rs → rs = params) ∧
      (∀ stmts rs, allNodesList q stmts = true →
        traverseStmts fuel stmts ctx0 pre post = some rs → rs = (stmts, ctx0)) := by
  intro fuel
  induction fuel with
  | zero =>
      refine ⟨?_, ?_, ?_, ?_, ?_, ?_, ?_, ?_⟩
      · intro n r _ h; simp [Node.traverse] at h
      · intro xs rs _ h; cases xs <;> simp [traverseList] at h <;> simp [h.symm]
      · intro o ro _ h; cases o <;> simp [traverseOpt] at h <;> simp [h.symm]
      · intro arms rs _ h; cases arms <;> simp [traverseArms] at h <;> simp [h.symm]
      · intro arms rs _ h; cases arms <;> simp [traverseCondArms] at h <;> simp [h.symm]
      · intro props rs _ h
        cases props with
        | nil => simp [traverseProps] at h; simp [h.symm]
        | cons a rest => obtain ⟨k, v⟩ := a; simp [traverseProps] at h
      · intro params rs _ h
        cases params with
        | nil => simp [traverseParams] at h; simp [h.symm]
        | cons a rest => obtain ⟨nm, c, d, rf⟩ := a; simp [traverseParams] at h
      · intro stmts rs _ h; cases stmts <;> simp [traverseStmts] at h <;> simp [h.symm]
  | succ fuel ih =>
      obtain ⟨ihT, ihL, ihO, ihA, ihC, ihP, ihPar, ihS⟩ := ih
      have main : ∀ n r, allNodes q n = true →
          Node.traverse (fuel + 1) n ctx0 pre post = some r → r = (n, ctx0) := by
        intro n r hq h
        obtain ⟨s, a⟩ := n
        simp only [allNodes, Bool.and_eq_true] at hq
        obtain ⟨hqn, hqa⟩ := hq
        rw [Node.traverse, hpre _ hqn] at h
        simp only [osome_bind, obind_eq_some] at h
        obtain ⟨⟨node1, ctxA⟩, hin, hpostEq⟩ := h
        cases a with
        | Access lhs rhs is_dot =>
            simp only [allNodesAst, Bool.and_eq_true] at hqa
            simp only [Node.value, obind_eq_some] at hin
            obtain ⟨⟨l', c1⟩, h1, ⟨r', c2⟩, h2, hin⟩ := hin
            cases ihT lhs (l', c1) hqa.1 h1
            cases ihT rhs (r', c2) hqa.2 h2
            simp only [Node.replace, Option.some.injEq, Prod.mk.injEq] at hin
            obtain ⟨rfl, rfl⟩ := hin
            rw [hpost _ hqn] at hpostEq
            exact (Option.some.inj hpostEq).symm
        | Application name args =>
            simp only [allNodesAst] at hqa
            simp only [Node.value, obind_eq_some] at hin
            obtain ⟨args', h1, hin⟩ := hin
            cases ihL args args' hqa h1
            simp only [Node.replace, Option.some.injEq, Prod.mk.injEq] at hin
            obtain ⟨rfl, rfl⟩ := hin
            rw [hpost _ hqn] at hpostEq
            exact (Option.some.inj hpostEq).symm
        | Array inner =>
            simp only [allNodesAst] at hqa
            simp only [Node.value, obind_eq_some] at hin
            obtain ⟨⟨i', c1⟩, h1, hin⟩ := hin
            cases ihT inner (i', c1) hqa h1
            simp only [Node.replace, Option.some.injEq, Prod.mk.injEq] at hin
            obtain ⟨rfl, rfl⟩ := hin
            rw [hpost _ hqn] at hpostEq
            exact (Option.some.inj hpostEq).symm
        | InfixOp lhs op rhs =>
            simp only [allNodesAst, Bool.and_eq_true] at hqa
            simp only [Node.value, obind_eq_some] at hin
            obtain ⟨⟨l', c1⟩, h1, ⟨r', c2⟩, h2, hin⟩ := hin
            cases ihT lhs (l', c1) hqa.1 h1
            cases ihT rhs (r', c2) hqa.2 h2
            simp only [Node.replace, Option.some.injEq, Prod.mk.injEq] at hin
            obtain ⟨rfl, rfl⟩ := hin
            rw [hpost _ hqn] at hpostEq
            exact (Option.some.inj hpostEq).symm
        | Builtin name argument =>
            simp only [allNodesAst] at hqa
            simp only [Node.value, obind_eq_some] at hin
            obtain ⟨⟨a', c1⟩, h1, hin⟩ := hin
            cases ihT argument (a', c1) hqa h1
            simp only [Node.replace, Option.some.injEq, Prod.mk.injEq] at hin
            obtain ⟨rfl, rfl⟩ := hin
            rw [hpost _ hqn] at hpostEq
            exact (Option.some.inj hpostEq).symm
        | CondExpr arms else_arm =>
            simp only [allNodesAst, Bool.and_eq_true] at hqa
            simp only [Node.value, obind_eq_some] at hin
            obtain ⟨arms', h1, ⟨e', c1⟩, h2, hin⟩ := hin
            cases ihC arms arms' hqa.1 h1
            cases ihT else_arm (e', c1) hqa.2 h2
            simp only [Node.replace, Option.some.injEq, Prod.mk.injEq] at hin
            obtain ⟨rfl, rfl⟩ := hin
            rw [hpost _ hqn] at hpostEq
            exact (Option.some.inj hpostEq).symm
        | ExtendsInfixOp lhs op rhs =>
            simp only [allNodesAst, Bool.and_eq_true] at hqa
            simp only [Node.value, obind_eq_some] at hin
            obtain ⟨⟨l', c1⟩, h1, ⟨r', c2⟩, h2, hin⟩ := hin
            cases ihT lhs (l', c1) hqa.1 h1
            cases ihT rhs (r', c2) hqa.2 h2
            simp only [Node.replace, Option.some.injEq, Prod.mk.injEq] at hin
            obtain ⟨rfl, rfl⟩ := hin
            rw [hpost _ hqn] at hpostEq
            exact (Option.some.inj hpostEq).symm
        | ExtendsExpr lhs rhs then_branch else_branch =>
            simp only [allNodesAst, Bool.and_eq_true] at hqa
            simp only [Node.value, obind_eq_some] at hin
            obtain ⟨⟨l', c1⟩, h1, ⟨r', c2⟩, h2, ⟨t', c3⟩, h3, ⟨e', c4⟩, h4, hin⟩ := hin
            cases ihT lhs (l', c1) hqa.1.1.1 h1
            cases ihT rhs (r', c2) hqa.1.1.2 h2
            cases ihT then_branch (t', c3) hqa.1.2 h3
            cases ihT else_branch (e', c4) hqa.2 h4
            simp only [Node.replace, Option.some.injEq, Prod.mk.injEq] at hin
            obtain ⟨rfl, rfl⟩ := hin
            rw [hpost _ hqn] at hpostEq
            exact (Option.some.inj hpostEq).symm
        | ExtendsPrefixOp op value =>
            simp only [allNodesAst] at hqa
            simp only [Node.value, obind_eq_some] at hin
            obtain ⟨⟨v', c1⟩, h1, hin⟩ := hin
            cases ihT value (v', c1) hqa h1
            simp only [Node.replace, Option.some.injEq, Prod.mk.injEq] at hin
            obtain ⟨rfl, rfl⟩ := hin
            rw [hpost _ hqn] at hpostEq
            exact (Option.some.inj hpostEq).symm
        | IfExpr condition then_branch else_branch =>
            simp only [allNodesAst, Bool.and_eq_true] at hqa
            simp only [Node.value, obind_eq_some] at hin
            obtain ⟨⟨c', c1⟩, h1, ⟨t', c2⟩, h2, e', h3, hin⟩ := hin
            cases ihT condition (c', c1) hqa.1.1 h1
            cases ihT then_branch (t', c2) hqa.1.2 h2
            cases ihO else_branch e' hqa.2 h3
            simp only [Node.replace, Option.some.injEq, Prod.mk.injEq] at hin
            obtain ⟨rfl, rfl⟩ := hin
            rw [hpost _ hqn] at hpostEq
            exact (Option.some.inj hpostEq).symm
        | ImportStatement ic m =>
            simp only [Node.value, Node.replace, Option.some.injEq, Prod.mk.injEq] at hin
            obtain ⟨rfl, rfl⟩ := hin
            rw [hpost _ hqn] at hpostEq
            exact (Option.some.inj hpostEq).symm
        | LetExpr bindings body =>
            simp only [allNodesAst, Bool.and_eq_true] at hqa
            simp only [Node.value, obind_eq_some] at hin
            obtain ⟨⟨b', c1⟩, h1, hin⟩ := hin
            cases ihT body (b', c1) hqa.2 h1
            simp only [Node.replace, Option.some.injEq, Prod.mk.injEq] at hin
            obtain ⟨rfl, rfl⟩ := hin
            rw [hpost _ hqn] at hpostEq
            exact (Option.some.inj hpostEq).symm
        | MappedType index iterable remapped_as rm om body =>
            simp only [allNodesAst, Bool.and_eq_true] at hqa
            simp only [Node.value, obind_eq_some] at hin
            obtain ⟨⟨i', c1⟩, h1, ra', h2, ⟨b', c2⟩, h3, hin⟩ := hin
            cases ihT iterable (i', c1) hqa.1.1 h1
            cases ihO remapped_as ra' hqa.1.2 h2
            cases ihT body (b', c2) hqa.2 h3
            simp only [Node.replace, Option.some.injEq, Prod.mk.injEq] at hin
            obtain ⟨rfl, rfl⟩ := hin
            rw [hpost _ hqn] at hpostEq
            exact (Option.some.inj hpostEq).symm
        | MatchExpr value arms else_arm =>
            simp only [allNodesAst, Bool.and_eq_true] at hqa
            simp only [Node.value, obind_eq_some] at hin
            obtain ⟨⟨v', c1⟩, h1, arms', h2, ⟨e', c2⟩, h3, hin⟩ := hin
            cases ihT value (v', c1) hqa.1.1 h1
            cases ihA arms arms' hqa.1.2 h2
            cases ihT else_arm (e', c2) hqa.2 h3
            simp only [Node.replace, Option.some.injEq, Prod.mk.injEq] at hin
            obtain ⟨rfl, rfl⟩ := hin
            rw [hpost _ hqn] at hpostEq
            exact (Option.some.inj hpostEq).symm
        | NamespaceAccess lhs rhs =>
            simp only [allNodesAst, Bool.and_eq_true] at hqa
            simp only [Node.value, obind_eq_some] at hin
            obtain ⟨⟨l', c1⟩, h1, ⟨r', c2⟩, h2, hin⟩ := hin
            cases ihT lhs (l', c1) hqa.1 h1
            cases ihT rhs (r', c2) hqa.2 h2
            simp only [Node.replace, Option.some.injEq, Prod.mk.injEq] at hin
            obtain ⟨rfl, rfl⟩ := hin
            rw [hpost _ hqn] at hpostEq
            exact (Option.some.inj hpostEq).symm
        | ObjectLiteral properties =>
            simp only [allNodesAst] at hqa
            simp only [Node.value, obind_eq_some] at hin
            obtain ⟨props', h1, hin⟩ := hin
            cases ihP properties props' hqa h1
            simp only [Node.replace, Option.some.injEq, Prod.mk.injEq] at hin
            obtain ⟨rfl, rfl⟩ := hin
            rw [hpost _ hqn] at hpostEq
            exact (Option.some.inj hpostEq).symm
        | Program statements =>
            simp only [allNodesAst] at hqa
            simp only [Node.value, obind_eq_some] at hin
            obtain ⟨⟨stmts', c1⟩, h1, hin⟩ := hin
            cases ihS statements (stmts', c1) hqa h1
            simp only [Node.replace, Option.some.injEq, Prod.mk.injEq] at hin
            obtain ⟨rfl, rfl⟩ := hin
            rw [hpost _ hqn] at hpostEq
            exact (Option.some.inj hpostEq).symm
        | Statement inner =>
            simp only [allNodesAst] at hqa
            simp only [Node.value, obind_eq_some] at hin
            obtain ⟨⟨i', c1⟩, h1, hin⟩ := hin
            cases ihT inner (i', c1) hqa h1
            simp only [Node.replace, Option.some.injEq, Prod.mk.injEq] at hin
            obtain ⟨rfl, rfl⟩ := hin
            rw [hpost _ hqn] at hpostEq
            exact (Option.some.inj hpostEq).symm
        | TemplateString str =>
            simp only [Node.value, Node.replace, Option.some.injEq, Prod.mk.injEq] at hin
            obtain ⟨rfl, rfl⟩ := hin
            rw [hpost _ hqn] at hpostEq
            exact (Option.some.inj hpostEq).symm
        | Tuple items =>
            simp only [allNodesAst] at hqa
            simp only [Node.value, obind_eq_some] at hin
            obtain ⟨items', h1, hin⟩ := hin
            cases ihL items items' hqa h1
            simp only [Node.replace, Option.some.injEq, Prod.mk.injEq] at hin
            obtain ⟨rfl, rfl⟩ := hin
            rw [hpost _ hqn] at hpostEq
            exact (Option.some.inj hpostEq).symm
        | TypeAlias exported name params body =>
            simp only [allNodesAst, Bool.and_eq_true] at hqa
            simp only [Node.value, obind_eq_some] at hin
            obtain ⟨⟨b', c1⟩, h1, params', h2, hin⟩ := hin
            cases ihT body (b', c1) hqa.2 h1
            cases ihPar params params' hqa.1 h2
            simp only [Node.replace, Option.some.injEq, Prod.mk.injEq] at hin
            obtain ⟨rfl, rfl⟩ := hin
            rw [hpost _ hqn] at hpostEq
            exact (Option.some.inj hpostEq).symm
        | Ident id =>
            simp only [Node.value, Option.some.injEq, Prod.mk.injEq] at hin
            obtain ⟨rfl, rfl⟩ := hin
            rw [hpost _ hqn] at hpostEq
            exact (Option.some.inj hpostEq).symm
        | MacroCall name =>
            simp only [Node.value, Option.some.injEq, Prod.mk.injEq] at hin
            obtain ⟨rfl, rfl⟩ := hin
            rw [hpost _ hqn] at hpostEq
            exact (Option.some.inj hpostEq).symm
        | NoOp =>
            simp only [Node.value, Option.some.injEq, Prod.mk.injEq] at hin
            obtain ⟨rfl, rfl⟩ := hin
            rw [hpost _ hqn] at hpostEq
            exact (Option.some.inj hpostEq).symm
        | Number raw =>
            simp only [Node.value, Option.some.injEq, Prod.mk.injEq] at hin
            obtain ⟨rfl, rfl⟩ := hin
            rw [hpost _ hqn] at hpostEq
            exact (Option.some.inj hpostEq).symm
        | String str =>
            simp only [Node.value, Option.some.injEq, Prod.mk.injEq] at hin
            obtain ⟨rfl, rfl⟩ := hin
            rw [hpost _ hqn] at hpostEq
            exact (Option.some.inj hpostEq).symm
        | Primitive name =>
            simp only [Node.value, Option.some.injEq, Prod.mk.injEq] at hin
            obtain ⟨rfl, rfl⟩ := hin
            rw [hpost _ hqn] at hpostEq
            exact (Option.some.inj hpostEq).symm
        | Never =>
            simp only [Node.value, Option.some.injEq, Prod.mk.injEq] at hin
            obtain ⟨rfl, rfl⟩ := hin
            rw [hpost _ hqn] at hpostEq
            exact (Option.some.inj hpostEq).symm
        | Any =>
            simp only [Node.value, Option.some.injEq, Prod.mk.injEq] at hin
            obtain ⟨rfl, rfl⟩ := hin
            rw [hpost _ hqn] at hpostEq
            exact (Option.some.inj hpostEq).symm
        | Unknown =>
            simp only [Node.value, Option.some.injEq, Prod.mk.injEq] at hin
            obtain ⟨rfl, rfl⟩ := hin
            rw [hpost _ hqn] at hpostEq
            exact (Option.some.inj hpostEq).symm
        | Null =>
            simp only [Node.value, Option.some.injEq, Prod.mk.injEq] at hin
            obtain ⟨rfl, rfl⟩ := hin
            rw [hpost _ hqn] at hpostEq
            exact (Option.some.inj hpostEq).symm
        | Undefined =>
            simp only [Node.value, Option.some.injEq, Prod.mk.injEq] at hin
            obtain ⟨rfl, rfl⟩ := hin
            rw [hpost _ hqn] at hpostEq
            exact (Option.some.inj hpostEq).symm
        | True =>
            simp only [Node.value, Option.some.injEq, Prod.mk.injEq] at hin
            obtain ⟨rfl, rfl⟩ := hin
            rw [hpost _ hqn] at hpostEq
            exact (Option.some.inj hpostEq).symm
        | False =>
            simp only [Node.value, Option.some.injEq, Prod.mk.injEq] at hin
            obtain ⟨rfl, rfl⟩ := hin
            rw [hpost _ hqn] at hpostEq
            exact (Option.some.inj hpostEq).symm
      refine ⟨main, ?_, ?_, ?_, ?_, ?_, ?_, ?_⟩
      · intro xs rs hq h
        cases xs with
        | nil =>
            simp only [traverseList, Option.some.injEq] at h
            exact h.symm
        | cons x rest =>
            simp only [allNodesList, Bool.and_eq_true] at hq
            simp only [traverseList, obind_eq_some] at h
            obtain ⟨⟨x', c1⟩, h1, rest', h2, h⟩ := h
            cases ihT x (x', c1) hq.1 h1
            cases ihL rest rest' hq.2 h2
            simp only [Option.some.injEq] at h
            exact h.symm
      · intro o ro hq h
        cases o with
        | none =>
            simp only [traverseOpt, Option.some.injEq] at h
            exact h.symm
        | some v =>
            simp only [allNodesOpt] at hq
            simp only [traverseOpt, obind_eq_some] at h
            obtain ⟨⟨v', c1⟩, h1, h⟩ := h
            cases ihT v (v', c1) hq h1
            simp only [Option.some.injEq] at h
            exact h.symm
      · intro arms rs hq h
        cases arms with
        | nil =>
            simp only [traverseArms, Option.some.injEq] at h
            exact h.symm
        | cons arm rest =>
            obtain ⟨pattern, body⟩ := arm
            simp only [allNodesArms, Bool.and_eq_true] at hq
            simp only [traverseArms, MatchArm.pattern, MatchArm.body, obind_eq_some] at h
            obtain ⟨⟨p', c1⟩, h1, ⟨b', c2⟩, h2, rest', h3, h⟩ := h
            cases ihT pattern (p', c1) hq.1.1 h1
            cases ihT body (b', c2) hq.1.2 h2
            cases ihA rest rest' hq.2 h3
            simp only [Option.some.injEq] at h
            exact h.symm
      · intro arms rs hq h
        cases arms with
        | nil =>
            simp only [traverseCondArms, Option.some.injEq] at h
            exact h.symm
        | cons arm rest =>
            obtain ⟨condition, body⟩ := arm
            simp only [allNodesCondArms, Bool.and_eq_true] at hq
            simp only [traverseCondArms, CondArm.condition, CondArm.body,
              obind_eq_some] at h
            obtain ⟨⟨c', c1⟩, h1, ⟨b', c2⟩, h2, rest', h3, h⟩ := h
            cases ihT condition (c', c1) hq.1.1 h1
            cases ihT body (b', c2) hq.1.2 h2
            cases ihC rest rest' hq.2 h3
            simp only [Option.some.injEq] at h
            exact h.symm
      · intro props rs hq h
        cases props with
        | nil =>
            simp only [traverseProps, Option.some.injEq] at h
            exact h.symm
        | cons prop rest =>
            obtain ⟨key, value⟩ := prop
            simp only [allNodesProps, Bool.and_eq_true] at hq
            simp only [traverseProps, obind_eq_some] at h
            obtain ⟨⟨v', c1⟩, h1, rest', h2, h⟩ := h
            cases ihT value (v', c1) hq.1 h1
            cases ihP rest rest' hq.2 h2
            simp only [Option.some.injEq] at h
            exact h.symm
      · intro params rs hq h
        cases params with
        | nil =>
            simp only [traverseParams, Option.some.injEq] at h
            exact h.symm
        | cons param rest =>
            obtain ⟨name, constraint, dflt, rest_flag⟩ := param
            simp only [allNodesParams, Bool.and_eq_true] at hq
            simp only [traverseParams, obind_eq_some] at h
            obtain ⟨c', h1, d', h2, rest', h3, h⟩ := h
            cases ihO constraint c' hq.1.1 h1
            cases ihO dflt d' hq.1.2 h2
            cases ihPar rest rest' hq.2 h3
            simp only [Option.some.injEq] at h
            exact h.symm
      · intro stmts rs hq h
        cases stmts with
        | nil =>
            simp only [traverseStmts, Option.some.injEq] at h
            exact h.symm
        | cons st rest =>
            simp only [allNodesList, Bool.and_eq_true] at hq
            simp only [traverseStmts, obind_eq_some] at h
            obtain ⟨⟨s', c1⟩, h1, ⟨rest', c2⟩, h2, h⟩ := h
            cases ihT st (s', c1) hq.1 h1
            cases ihS rest (rest', c2) hq.2 h2
            simp only [Option.some.injEq] at h
            exact h.symm

/-- The substitution walk leaves a tree without bound identifiers untouched
and returns the bindings unchanged. -/
theorem subst_id_of_noBoundIdents (b : Bindings) (fuel : Nat) (n : Node)
    (r : Node × Bindings) (hq : noBoundIdents b n = true)
    (h : Node.traverse fuel n b substituteHook (fun m c => some (m, c)) = some r) :
    r = (n, b) := by
  refine (traverse_id_all
    (fun m => match m.value with
      | .Ident id => (Bindings.get b id).isNone
      | _ => true)
    substituteHook (fun m c => some (m, c)) b ?_ ?_ fuel).1 n r hq h
  · intro m hm
    obtain ⟨s, a⟩ := m
    cases a <;> simp_all [substituteHook, Node.value, Option.isNone_iff_eq_none]
  · intro m _
    rfl

/-- A tree with no identifier nodes at all is untouched by the substitution
walk, whatever the bindings. -/
theorem subst_id_of_identFree (b : Bindings) (fuel : Nat) (n : Node)
    (r : Node × Bindings) (hq : identFree n = true)
    (h : Node.traverse fuel n b substituteHook (fun m c => some (m, c)) = some r) :
    r = (n, b) := by
  refine (traverse_id_all
    (fun m => match m.value with
      | .Ident _ => false
      | _ => true)
    substituteHook (fun m c => some (m, c)) b ?_ ?_ fuel).1 n r hq h
  · intro m hm
    obtain ⟨s, a⟩ := m
    cases a <;> simp_all [substituteHook, Node.value]
  · intro m _
    rfl

/-- The simplification hook is the identity on non-surface nodes. -/
theorem simplifyHook_id (f : Nat) (ctx : Bindings) (m : Node)
    (hm : notSurface m = true) : simplifyHook f m ctx = some (m, ctx) := by
  obtain ⟨s, a⟩ := m
  cases a <;> first
    | (cases f <;> rfl)
    | simp_all [notSurface, Node.value]

/-- The simplification traversal leaves an already-canonical tree unchanged
(with the context it was given). -/
theorem simp_traverse_id (f : Nat) (ctx0 : Bindings) (fuel : Nat) (n : Node)
    (r : Node × Bindings) (hq : isClean n = true)
    (h : Node.traverse fuel n ctx0 (fun m c => some (m, c)) (simplifyHook f)
      = some r) : r = (n, ctx0) := by
  refine (traverse_id_all notSurface
    (fun m c => some (m, c)) (simplifyHook f) ctx0 ?_ ?_ fuel).1 n r hq h
  · intro m _
    rfl
  · intro m hm
    exact simplifyHook_id f ctx0 m hm

/-- `Node::simplify` is the identity on canonical trees. -/
theorem simplify_id_of_clean (fuel : Nat) (n m : Node) (hq : isClean n = true)
    (h : Node.simplify fuel n = some m) : m = n := by
  cases fuel with
  | zero => simp [Node.simplify] at h
  | succ fuel =>
      rw [Node.simplify] at h
      simp only [obind_eq_some] at h
      obtain ⟨⟨tree, c⟩, h1, h2⟩ := h
      cases simp_traverse_id fuel [] fuel n (tree, c) hq h1
      simpa using h2.symm

/-- Generic preservation property of the traversal: if both hooks (at fixed
context `ctx0`) map clean nodes to clean nodes without touching the context,
then the traversal maps clean trees to clean trees and returns the context
unchanged. -/
theorem traverse_preserve_clean (pre post : Node → Bindings → Option (Node × Bindings))
    (ctx0 : Bindings)
    (hpre : ∀ n, allNodes notSurface n = true →
      ∃ m, pre n ctx0 = some (m, ctx0) ∧ allNodes notSurface m = true)
    (hpost : ∀ n, allNodes notSurface n = true →
      ∃ m, post n ctx0 = some (m, ctx0) ∧ allNodes notSurface m = true) :
    ∀ fuel : Nat,
      (∀ n r, allNodes notSurface n = true →
        Node.traverse fuel n ctx0 pre post = some r →
        allNodes notSurface r.1 = true ∧ r.2 = ctx0) ∧
      (∀ xs rs, allNodesList notSurface xs = true →
        traverseList fuel xs ctx0 pre post = some rs →
        allNodesList notSurface rs = true) ∧
      (∀ o ro, allNodesOpt notSurface o = true →
        traverseOpt fuel o ctx0 pre post = some ro →
        allNodesOpt notSurface ro = true) ∧
      (∀ arms rs, allNodesArms notSurface arms = true →
        traverseArms fuel arms ctx0 pre post = some rs →
        allNodesArms notSurface rs = true) ∧
      (∀ arms rs, allNodesCondArms notSurface arms = true →
        traverseCondArms fuel arms ctx0 pre post = some rs →
        allNodesCondArms notSurface rs = true) ∧
      (∀ props rs, allNodesProps notSurface props = true →
        traverseProps fuel props ctx0 pre post = some rs →
        allNodesProps notSurface rs = true) ∧
      (∀ params rs, allNodesParams notSurface params = true →
        traverseParams fuel params ctx0 pre post = some rs →
        allNodesParams notSurface rs = true) ∧
      (∀ stmts rs, allNodesList notSurface stmts = true →
        traverseStmts fuel stmts ctx0 pre post = some rs →
        allNodesList notSurface rs.1 = true ∧ rs.2 = ctx0) := by
  intro fuel
  induction fuel with
  | zero =>
      refine ⟨?_, ?_, ?_, ?_, ?_, ?_, ?_, ?_⟩
      · intro n r _ h; simp [Node.traverse] at h
      · intro xs rs hq h
        cases xs with
        | nil => simp only [traverseList, Option.some.injEq] at h; subst h; rfl
        | cons x rest => simp [traverseList] at h
      · intro o ro hq h
        cases o with
        | none => simp only [traverseOpt, Option.some.injEq] at h; subst h; rfl
        | some v => simp [traverseOpt] at h
      · intro arms rs hq h
        cases arms with
        | nil => simp only [traverseArms, Option.some.injEq] at h; subst h; rfl
        | cons a rest => simp [traverseArms] at h
      · intro arms rs hq h
        cases arms with
        | nil => simp only [traverseCondArms, Option.some.injEq] at h; subst h; rfl
        | cons a rest => simp [traverseCondArms] at h
      · intro props rs hq h
        cases props with
        | nil => simp only [traverseProps, Option.some.injEq] at h; subst h; rfl
        | cons a rest => obtain ⟨k, v⟩ := a; simp [traverseProps] at h
      · intro params rs hq h
        cases params with
        | nil => simp only [traverseParams, Option.some.injEq] at h; subst h; rfl
        | cons a rest => obtain ⟨nm, c, d, rf⟩ := a; simp [traverseParams] at h
      · intro stmts rs hq h
        cases stmts with
        | nil =>
            simp only [traverseStmts, Option.some.injEq] at h
            subst h; exact ⟨rfl, rfl⟩
        | cons s rest => simp [traverseStmts] at h
  | succ fuel ih =>
      obtain ⟨ihT, ihL, ihO, ihA, ihC, ihP, ihPar, ihS⟩ := ih
      have main : ∀ n r, allNodes notSurface n = true →
          Node.traverse (fuel + 1) n ctx0 pre post = some r →
          allNodes notSurface r.1 = true ∧ r.2 = ctx0 := by
        intro n r hq h
        obtain ⟨m0, hpreEq, hm0⟩ := hpre n hq
        obtain ⟨sN, aN⟩ := n
        rw [Node.traverse, hpreEq] at h
        simp only [osome_bind, obind_eq_some] at h
        obtain ⟨⟨node1, ctxA⟩, hin, hpostEq⟩ := h
        obtain ⟨s2, a2⟩ := m0
        cases a2 with
        | Access lhs rhs is_dot =>
            simp only [allNodes, allNodesAst, notSurface, Node.value, Bool.and_eq_true,
              Bool.true_and, eq_self_iff_true, true_and] at hm0
            simp only [Node.value, osome_bind, obind_eq_some] at hin
            obtain ⟨⟨lhs2, clhs⟩, hlhs, ⟨rhs2, crhs⟩, hrhs, hin⟩ := hin
            obtain ⟨hclhs, hxlhs⟩ := ihT lhs (lhs2, clhs) hm0.1 hlhs
            obtain ⟨hcrhs, hxrhs⟩ := ihT rhs (rhs2, crhs) hm0.2 hrhs
            simp only [Node.replace, Option.some.injEq, Prod.mk.injEq] at hin
            obtain ⟨rfl, rfl⟩ := hin
            have hrebuild : allNodes notSurface (Node.mk sN (.Access lhs2 rhs2 is_dot)) = true := by
              simp [allNodes, allNodesAst, notSurface, Node.value, Node.replace, Bool.and_eq_true, Bool.true_and, hclhs, hcrhs]
            obtain ⟨m2, hp2, hm2⟩ := hpost _ hrebuild
            rw [hp2] at hpostEq
            obtain ⟨rfl, rfl⟩ : r = (m2, ctx0) := (Option.some.inj hpostEq).symm
            exact ⟨hm2, rfl⟩
        | Application name args =>
            simp only [allNodes, allNodesAst, notSurface, Node.value, Bool.and_eq_true,
              Bool.true_and, eq_self_iff_true, true_and] at hm0
            simp only [Node.value, osome_bind, obind_eq_some] at hin
            obtain ⟨args2, hargs, hin⟩ := hin
            have hcargs := ihL args args2 hm0 hargs
            simp only [Node.replace, Option.some.injEq, Prod.mk.injEq] at hin
            obtain ⟨rfl, rfl⟩ := hin
            have hrebuild : allNodes notSurface (Node.mk sN (.Application name args2)) = true := by
              simp [allNodes, allNodesAst, notSurface, Node.value, Node.replace, Bool.and_eq_true, Bool.true_and, hcargs]
            obtain ⟨m2, hp2, hm2⟩ := hpost _ hrebuild
            rw [hp2] at hpostEq
            obtain ⟨rfl, rfl⟩ : r = (m2, ctx0) := (Option.some.inj hpostEq).symm
            exact ⟨hm2, rfl⟩
        | Array inner =>
            simp only [allNodes, allNodesAst, notSurface, Node.value, Bool.and_eq_true,
              Bool.true_and, eq_self_iff_true, true_and] at hm0
            simp only [Node.value, osome_bind, obind_eq_some] at hin
            obtain ⟨⟨inner2, cinner⟩, hinner, hin⟩ := hin
            obtain ⟨hcinner, hxinner⟩ := ihT inner (inner2, cinner) hm0 hinner
            simp only [Node.replace, Option.some.injEq, Prod.mk.injEq] at hin
            obtain ⟨rfl, rfl⟩ := hin
            have hrebuild : allNodes notSurface (Node.mk sN (.Array inner2)) = true := by
              simp [allNodes, allNodesAst, notSurface, Node.value, Node.replace, Bool.and_eq_true, Bool.true_and, hcinner]
            obtain ⟨m2, hp2, hm2⟩ := hpost _ hrebuild
            rw [hp2] at hpostEq
            obtain ⟨rfl, rfl⟩ : r = (m2, ctx0) := (Option.some.inj hpostEq).symm
            exact ⟨hm2, rfl⟩
        | InfixOp lhs op rhs =>
            simp only [allNodes, allNodesAst, notSurface, Node.value, Bool.and_eq_true,
              Bool.true_and, eq_self_iff_true, true_and] at hm0
            simp only [Node.value, osome_bind, obind_eq_some] at hin
            obtain ⟨⟨lhs2, clhs⟩, hlhs, ⟨rhs2, crhs⟩, hrhs, hin⟩ := hin
            obtain ⟨hclhs, hxlhs⟩ := ihT lhs (lhs2, clhs) hm0.1 hlhs
            obtain ⟨hcrhs, hxrhs⟩ := ihT rhs (rhs2, crhs) hm0.2 hrhs
            simp only [Node.replace, Option.some.injEq, Prod.mk.injEq] at hin
            obtain ⟨rfl, rfl⟩ := hin
            have hrebuild : allNodes notSurface (Node.mk sN (.InfixOp lhs2 op rhs2)) = true := by
              simp [allNodes, allNodesAst, notSurface, Node.value, Node.replace, Bool.and_eq_true, Bool.true_and, hclhs, hcrhs]
            obtain ⟨m2, hp2, hm2⟩ := hpost _ hrebuild
            rw [hp2] at hpostEq
            obtain ⟨rfl, rfl⟩ : r = (m2, ctx0) := (Option.some.inj hpostEq).symm
            exact ⟨hm2, rfl⟩
        | Builtin name argument =>
            simp only [allNodes, allNodesAst, notSurface, Node.value, Bool.and_eq_true,
              Bool.true_and, eq_self_iff_true, true_and] at hm0
            simp only [Node.value, osome_bind, obind_eq_some] at hin
            obtain ⟨⟨argument2, cargument⟩, hargument, hin⟩ := hin
            obtain ⟨hcargument, hxargument⟩ := ihT argument (argument2, cargument) hm0 hargument
            simp only [Node.replace, Option.some.injEq, Prod.mk.injEq] at hin
            obtain ⟨rfl, rfl⟩ := hin
            have hrebuild : allNodes notSurface (Node.mk sN (.Builtin name argument2)) = true := by
              simp [allNodes, allNodesAst, notSurface, Node.value, Node.replace, Bool.and_eq_true, Bool.true_and, hcargument]
            obtain ⟨m2, hp2, hm2⟩ := hpost _ hrebuild
            rw [hp2] at hpostEq
            obtain ⟨rfl, rfl⟩ : r = (m2, ctx0) := (Option.some.inj hpostEq).symm
            exact ⟨hm2, rfl⟩
        | CondExpr arms else_arm =>
            simp [allNodes, allNodesAst, notSurface, Node.value] at hm0
        | ExtendsInfixOp lhs op rhs =>
            simp only [allNodes, allNodesAst, notSurface, Node.value, Bool.and_eq_true,
              Bool.true_and, eq_self_iff_true, true_and] at hm0
            simp only [Node.value, osome_bind, obind_eq_some] at hin
            obtain ⟨⟨lhs2, clhs⟩, hlhs, ⟨rhs2, crhs⟩, hrhs, hin⟩ := hin
            obtain ⟨hclhs, hxlhs⟩ := ihT lhs (lhs2, clhs) hm0.1 hlhs
            obtain ⟨hcrhs, hxrhs⟩ := ihT rhs (rhs2, crhs) hm0.2 hrhs
            simp only [Node.replace, Option.some.injEq, Prod.mk.injEq] at hin
            obtain ⟨rfl, rfl⟩ := hin
            have hrebuild : allNodes notSurface (Node.mk sN (.ExtendsInfixOp lhs2 op rhs2)) = true := by
              simp [allNodes, allNodesAst, notSurface, Node.value, Node.replace, Bool.and_eq_true, Bool.true_and, hclhs, hcrhs]
            obtain ⟨m2, hp2, hm2⟩ := hpost _ hrebuild
            rw [hp2] at hpostEq
            obtain ⟨rfl, rfl⟩ : r = (m2, ctx0) := (Option.some.inj hpostEq).symm
            exact ⟨hm2, rfl⟩
        | ExtendsExpr lhs rhs then_branch else_branch =>
            simp only [allNodes, allNodesAst, notSurface, Node.value, Bool.and_eq_true,
              Bool.true_and, eq_self_iff_true, true_and] at hm0
            simp only [Node.value, osome_bind, obind_eq_some] at hin
            obtain ⟨⟨lhs2, clhs⟩, hlhs, ⟨rhs2, crhs⟩, hrhs, ⟨then_branch2, cthen_branch⟩, hthen_branch, ⟨else_branch2, celse_branch⟩, helse_branch, hin⟩ := hin
            obtain ⟨hclhs, hxlhs⟩ := ihT lhs (lhs2, clhs) hm0.1.1.1 hlhs
            obtain ⟨hcrhs, hxrhs⟩ := ihT rhs (rhs2, crhs) hm0.1.1.2 hrhs
            obtain ⟨hcthen_branch, hxthen_branch⟩ := ihT then_branch (then_branch2, cthen_branch) hm0.1.2 hthen_branch
            obtain ⟨hcelse_branch, hxelse_branch⟩ := ihT else_branch (else_branch2, celse_branch) hm0.2 helse_branch
            simp only [Node.replace, Option.some.injEq, Prod.mk.injEq] at hin
            obtain ⟨rfl, rfl⟩ := hin
            have hrebuild : allNodes notSurface (Node.mk sN (.ExtendsExpr lhs2 rhs2 then_branch2 else_branch2)) = true := by
              simp [allNodes, allNodesAst, notSurface, Node.value, Node.replace, Bool.and_eq_true, Bool.true_and, hclhs, hcrhs, hcthen_branch, hcelse_branch]
            obtain ⟨m2, hp2, hm2⟩ := hpost _ hrebuild
            rw [hp2] at hpostEq
            obtain ⟨rfl, rfl⟩ : r = (m2, ctx0) := (Option.some.inj hpostEq).symm
            exact ⟨hm2, rfl⟩
        | ExtendsPrefixOp op value =>
            simp only [allNodes, allNodesAst, notSurface, Node.value, Bool.and_eq_true,
              Bool.true_and, eq_self_iff_true, true_and] at hm0
            simp only [Node.value, osome_bind, obind_eq_some] at hin
            obtain ⟨⟨value2, cvalue⟩, hvalue, hin⟩ := hin
            obtain ⟨hcvalue, hxvalue⟩ := ihT value (value2, cvalue) hm0 hvalue
            simp only [Node.replace, Option.some.injEq, Prod.mk.injEq] at hin
            obtain ⟨rfl, rfl⟩ := hin
            have hrebuild : allNodes notSurface (Node.mk sN (.ExtendsPrefixOp op value2)) = true := by
              simp [allNodes, allNodesAst, notSurface, Node.value, Node.replace, Bool.and_eq_true, Bool.true_and, hcvalue]
            obtain ⟨m2, hp2, hm2⟩ := hpost _ hrebuild
            rw [hp2] at hpostEq
            obtain ⟨rfl, rfl⟩ : r = (m2, ctx0) := (Option.some.inj hpostEq).symm
            exact ⟨hm2, rfl⟩
        | IfExpr condition then_branch else_branch =>
            simp [allNodes, allNodesAst, notSurface, Node.value] at hm0
        | ImportStatement ic mo =>
            simp only [Node.value, Node.replace, Option.some.injEq, Prod.mk.injEq] at hin
            obtain ⟨rfl, rfl⟩ := hin
            have hrebuild : allNodes notSurface (Node.mk sN (.ImportStatement ic mo)) = true := by
              simp [allNodes, allNodesAst, notSurface, Node.value, Node.replace, Bool.and_eq_true, Bool.true_and]
            obtain ⟨m2, hp2, hm2⟩ := hpost _ hrebuild
            rw [hp2] at hpostEq
            obtain ⟨rfl, rfl⟩ : r = (m2, ctx0) := (Option.some.inj hpostEq).symm
            exact ⟨hm2, rfl⟩
        | LetExpr bindings body =>
            simp [allNodes, allNodesAst, notSurface, Node.value] at hm0
        | MappedType index iterable remapped_as rm om body =>
            simp only [allNodes, allNodesAst, notSurface, Node.value, Bool.and_eq_true,
              Bool.true_and, eq_self_iff_true, true_and] at hm0
            simp only [Node.value, osome_bind, obind_eq_some] at hin
            obtain ⟨⟨iterable2, citerable⟩, hiterable, remapped_as2, hremapped_as, ⟨body2, cbody⟩, hbody, hin⟩ := hin
            obtain ⟨hciterable, hxiterable⟩ := ihT iterable (iterable2, citerable) hm0.1.1 hiterable
            have hcremapped_as := ihO remapped_as remapped_as2 hm0.1.2 hremapped_as
            obtain ⟨hcbody, hxbody⟩ := ihT body (body2, cbody) hm0.2 hbody
            simp only [Node.replace, Option.some.injEq, Prod.mk.injEq] at hin
            obtain ⟨rfl, rfl⟩ := hin
            have hrebuild : allNodes notSurface (Node.mk sN (.MappedType index iterable2 remapped_as2 rm om body2)) = true := by
              simp [allNodes, allNodesAst, notSurface, Node.value, Node.replace, Bool.and_eq_true, Bool.true_and, hciterable, hcremapped_as, hcbody]
            obtain ⟨m2, hp2, hm2⟩ := hpost _ hrebuild
            rw [hp2] at hpostEq
            obtain ⟨rfl, rfl⟩ : r = (m2, ctx0) := (Option.some.inj hpostEq).symm
            exact ⟨hm2, rfl⟩
        | MatchExpr value arms else_arm =>
            simp [allNodes, allNodesAst, notSurface, Node.value] at hm0
        | NamespaceAccess lhs rhs =>
            simp only [allNodes, allNodesAst, notSurface, Node.value, Bool.and_eq_true,
              Bool.true_and, eq_self_iff_true, true_and] at hm0
            simp only [Node.value, osome_bind, obind_eq_some] at hin
            obtain ⟨⟨lhs2, clhs⟩, hlhs, ⟨rhs2, crhs⟩, hrhs, hin⟩ := hin
            obtain ⟨hclhs, hxlhs⟩ := ihT lhs (lhs2, clhs) hm0.1 hlhs
            obtain ⟨hcrhs, hxrhs⟩ := ihT rhs (rhs2, crhs) hm0.2 hrhs
            simp only [Node.replace, Option.some.injEq, Prod.mk.injEq] at hin
            obtain ⟨rfl, rfl⟩ := hin
            have hrebuild : allNodes notSurface (Node.mk sN (.NamespaceAccess lhs2 rhs2)) = true := by
              simp [allNodes, allNodesAst, notSurface, Node.value, Node.replace, Bool.and_eq_true, Bool.true_and, hclhs, hcrhs]
            obtain ⟨m2, hp2, hm2⟩ := hpost _ hrebuild
            rw [hp2] at hpostEq
            obtain ⟨rfl, rfl⟩ : r = (m2, ctx0) := (Option.some.inj hpostEq).symm
            exact ⟨hm2, rfl⟩
        | ObjectLiteral properties =>
            simp only [allNodes, allNodesAst, notSurface, Node.value, Bool.and_eq_true,
              Bool.true_and, eq_self_iff_true, true_and] at hm0
            simp only [Node.value, osome_bind, obind_eq_some] at hin
            obtain ⟨properties2, hproperties, hin⟩ := hin
            have hcproperties := ihP properties properties2 hm0 hproperties
            simp only [Node.replace, Option.some.injEq, Prod.mk.injEq] at hin
            obtain ⟨rfl, rfl⟩ := hin
            have hrebuild : allNodes notSurface (Node.mk sN (.ObjectLiteral properties2)) = true := by
              simp [allNodes, allNodesAst, notSurface, Node.value, Node.replace, Bool.and_eq_true, Bool.true_and, hcproperties]
            obtain ⟨m2, hp2, hm2⟩ := hpost _ hrebuild
            rw [hp2] at hpostEq
            obtain ⟨rfl, rfl⟩ : r = (m2, ctx0) := (Option.some.inj hpostEq).symm
            exact ⟨hm2, rfl⟩
        | Program statements =>
            simp only [allNodes, allNodesAst, notSurface, Node.value, Bool.and_eq_true,
              Bool.true_and, eq_self_iff_true, true_and] at hm0
            simp only [Node.value, osome_bind, obind_eq_some] at hin
            obtain ⟨⟨stmts2, cS⟩, hS, hin⟩ := hin
            obtain ⟨hcS, hxS⟩ := ihS statements (stmts2, cS) hm0 hS
            simp only [Node.replace, Option.some.injEq, Prod.mk.injEq] at hin
            obtain ⟨rfl, rfl⟩ := hin
            have hxS2 : ctx0 = cS := hxS.symm
            subst hxS2
            have hrebuild : allNodes notSurface (Node.mk sN (.Program stmts2)) = true := by
              simp [allNodes, allNodesAst, notSurface, Node.value, Node.replace, Bool.and_eq_true, Bool.true_and, hcS]
            obtain ⟨m2, hp2, hm2⟩ := hpost _ hrebuild
            rw [hp2] at hpostEq
            obtain ⟨rfl, rfl⟩ : r = (m2, ctx0) := (Option.some.inj hpostEq).symm
            exact ⟨hm2, rfl⟩
        | Statement inner =>
            simp only [allNodes, allNodesAst, notSurface, Node.value, Bool.and_eq_true,
              Bool.true_and, eq_self_iff_true, true_and] at hm0
            simp only [Node.value, osome_bind, obind_eq_some] at hin
            obtain ⟨⟨inner2, cI⟩, hI, hin⟩ := hin
            obtain ⟨hcI, hxI⟩ := ihT inner (inner2, cI) hm0 hI
            simp only [Node.replace, Option.some.injEq, Prod.mk.injEq] at hin
            obtain ⟨rfl, rfl⟩ := hin
            have hxI2 : ctx0 = cI := hxI.symm
            subst hxI2
            have hrebuild : allNodes notSurface (Node.mk sN (.Statement inner2)) = true := by
              simp [allNodes, allNodesAst, notSurface, Node.value, Node.replace, Bool.and_eq_true, Bool.true_and, hcI]
            obtain ⟨m2, hp2, hm2⟩ := hpost _ hrebuild
            rw [hp2] at hpostEq
            obtain ⟨rfl, rfl⟩ : r = (m2, ctx0) := (Option.some.inj hpostEq).symm
            exact ⟨hm2, rfl⟩
        | TemplateString str =>
            simp only [Node.value, Node.replace, Option.some.injEq, Prod.mk.injEq] at hin
            obtain ⟨rfl, rfl⟩ := hin
            have hrebuild : allNodes notSurface (Node.mk sN (.TemplateString str)) = true := by
              simp [allNodes, allNodesAst, notSurface, Node.value, Node.replace, Bool.and_eq_true, Bool.true_and]
            obtain ⟨m2, hp2, hm2⟩ := hpost _ hrebuild
            rw [hp2] at hpostEq
            obtain ⟨rfl, rfl⟩ : r = (m2, ctx0) := (Option.some.inj hpostEq).symm
            exact ⟨hm2, rfl⟩
        | Tuple items =>
            simp only [allNodes, allNodesAst, notSurface, Node.value, Bool.and_eq_true,
              Bool.true_and, eq_self_iff_true, true_and] at hm0
            simp only [Node.value, osome_bind, obind_eq_some] at hin
            obtain ⟨items2, hitems, hin⟩ := hin
            have hcitems := ihL items items2 hm0 hitems
            simp only [Node.replace, Option.some.injEq, Prod.mk.injEq] at hin
            obtain ⟨rfl, rfl⟩ := hin
            have hrebuild : allNodes notSurface (Node.mk sN (.Tuple items2)) = true := by
              simp [allNodes, allNodesAst, notSurface, Node.value, Node.replace, Bool.and_eq_true, Bool.true_and, hcitems]
            obtain ⟨m2, hp2, hm2⟩ := hpost _ hrebuild
            rw [hp2] at hpostEq
            obtain ⟨rfl, rfl⟩ : r = (m2, ctx0) := (Option.some.inj hpostEq).symm
            exact ⟨hm2, rfl⟩
        | TypeAlias exported name params body =>
            simp only [allNodes, allNodesAst, notSurface, Node.value, Bool.and_eq_true,
              Bool.true_and, eq_self_iff_true, true_and] at hm0
            simp only [Node.value, osome_bind, obind_eq_some] at hin
            obtain ⟨⟨body2, cbody⟩, hbody, params2, hparams, hin⟩ := hin
            obtain ⟨hcbody, hxbody⟩ := ihT body (body2, cbody) hm0.2 hbody
            have hcparams := ihPar params params2 hm0.1 hparams
            simp only [Node.replace, Option.some.injEq, Prod.mk.injEq] at hin
            obtain ⟨rfl, rfl⟩ := hin
            have hrebuild : allNodes notSurface (Node.mk sN (.TypeAlias exported name params2 body2)) = true := by
              simp [allNodes, allNodesAst, notSurface, Node.value, Node.replace, Bool.and_eq_true, Bool.true_and, hcbody, hcparams]
            obtain ⟨m2, hp2, hm2⟩ := hpost _ hrebuild
            rw [hp2] at hpostEq
            obtain ⟨rfl, rfl⟩ : r = (m2, ctx0) := (Option.some.inj hpostEq).symm
            exact ⟨hm2, rfl⟩
        | Ident id =>
            simp only [Node.value, Option.some.injEq, Prod.mk.injEq] at hin
            obtain ⟨rfl, rfl⟩ := hin
            have hrebuild : allNodes notSurface (Node.mk s2 (.Ident id)) = true := by
              simp [allNodes, allNodesAst, notSurface, Node.value, Node.replace, Bool.and_eq_true, Bool.true_and]
            obtain ⟨m2, hp2, hm2⟩ := hpost _ hrebuild
            rw [hp2] at hpostEq
            obtain ⟨rfl, rfl⟩ : r = (m2, ctx0) := (Option.some.inj hpostEq).symm
            exact ⟨hm2, rfl⟩
        | MacroCall name =>
            simp only [Node.value, Option.some.injEq, Prod.mk.injEq] at hin
            obtain ⟨rfl, rfl⟩ := hin
            have hrebuild : allNodes notSurface (Node.mk s2 (.MacroCall name)) = true := by
              simp [allNodes, allNodesAst, notSurface, Node.value, Node.replace, Bool.and_eq_true, Bool.true_and]
            obtain ⟨m2, hp2, hm2⟩ := hpost _ hrebuild
            rw [hp2] at hpostEq
            obtain ⟨rfl, rfl⟩ : r = (m2, ctx0) := (Option.some.inj hpostEq).symm
            exact ⟨hm2, rfl⟩
        | NoOp =>
            simp only [Node.value, Option.some.injEq, Prod.mk.injEq] at hin
            obtain ⟨rfl, rfl⟩ := hin
            have hrebuild : allNodes notSurface (Node.mk s2 (.NoOp)) = true := by
              simp [allNodes, allNodesAst, notSurface, Node.value, Node.replace, Bool.and_eq_true, Bool.true_and]
            obtain ⟨m2, hp2, hm2⟩ := hpost _ hrebuild
            rw [hp2] at hpostEq
            obtain ⟨rfl, rfl⟩ : r = (m2, ctx0) := (Option.some.inj hpostEq).symm
            exact ⟨hm2, rfl⟩
        | Number raw =>
            simp only [Node.value, Option.some.injEq, Prod.mk.injEq] at hin
            obtain ⟨rfl, rfl⟩ := hin
            have hrebuild : allNodes notSurface (Node.mk s2 (.Number raw)) = true := by
              simp [allNodes, allNodesAst, notSurface, Node.value, Node.replace, Bool.and_eq_true, Bool.true_and]
            obtain ⟨m2, hp2, hm2⟩ := hpost _ hrebuild
            rw [hp2] at hpostEq
            obtain ⟨rfl, rfl⟩ : r = (m2, ctx0) := (Option.some.inj hpostEq).symm
            exact ⟨hm2, rfl⟩
        | String str =>
            simp only [Node.value, Option.some.injEq, Prod.mk.injEq] at hin
            obtain ⟨rfl, rfl⟩ := hin
            have hrebuild : allNodes notSurface (Node.mk s2 (.String str)) = true := by
              simp [allNodes, allNodesAst, notSurface, Node.value, Node.replace, Bool.and_eq_true, Bool.true_and]
            obtain ⟨m2, hp2, hm2⟩ := hpost _ hrebuild
            rw [hp2] at hpostEq
            obtain ⟨rfl, rfl⟩ : r = (m2, ctx0) := (Option.some.inj hpostEq).symm
            exact ⟨hm2, rfl⟩
        | Primitive name =>
            simp only [Node.value, Option.some.injEq, Prod.mk.injEq] at hin
            obtain ⟨rfl, rfl⟩ := hin
            have hrebuild : allNodes notSurface (Node.mk s2 (.Primitive name)) = true := by
              simp [allNodes, allNodesAst, notSurface, Node.value, Node.replace, Bool.and_eq_true, Bool.true_and]
            obtain ⟨m2, hp2, hm2⟩ := hpost _ hrebuild
            rw [hp2] at hpostEq
            obtain ⟨rfl, rfl⟩ : r = (m2, ctx0) := (Option.some.inj hpostEq).symm
            exact ⟨hm2, rfl⟩
        | Never =>
            simp only [Node.value, Option.some.injEq, Prod.mk.injEq] at hin
            obtain ⟨rfl, rfl⟩ := hin
            have hrebuild : allNodes notSurface (Node.mk s2 (.Never)) = true := by
              simp [allNodes, allNodesAst, notSurface, Node.value, Node.replace, Bool.and_eq_true, Bool.true_and]
            obtain ⟨m2, hp2, hm2⟩ := hpost _ hrebuild
            rw [hp2] at hpostEq
            obtain ⟨rfl, rfl⟩ : r = (m2, ctx0) := (Option.some.inj hpostEq).symm
            exact ⟨hm2, rfl⟩
        | Any =>
            simp only [Node.value, Option.some.injEq, Prod.mk.injEq] at hin
            obtain ⟨rfl, rfl⟩ := hin
            have hrebuild : allNodes notSurface (Node.mk s2 (.Any)) = true := by
              simp [allNodes, allNodesAst, notSurface, Node.value, Node.replace, Bool.and_eq_true, Bool.true_and]
            obtain ⟨m2, hp2, hm2⟩ := hpost _ hrebuild
            rw [hp2] at hpostEq
            obtain ⟨rfl, rfl⟩ : r = (m2, ctx0) := (Option.some.inj hpostEq).symm
            exact ⟨hm2, rfl⟩
        | Unknown =>
            simp only [Node.value, Option.some.injEq, Prod.mk.injEq] at hin
            obtain ⟨rfl, rfl⟩ := hin
            have hrebuild : allNodes notSurface (Node.mk s2 (.Unknown)) = true := by
              simp [allNodes, allNodesAst, notSurface, Node.value, Node.replace, Bool.and_eq_true, Bool.true_and]
            obtain ⟨m2, hp2, hm2⟩ := hpost _ hrebuild
            rw [hp2] at hpostEq
            obtain ⟨rfl, rfl⟩ : r = (m2, ctx0) := (Option.some.inj hpostEq).symm
            exact ⟨hm2, rfl⟩
        | Null =>
            simp only [Node.value, Option.some.injEq, Prod.mk.injEq] at hin
            obtain ⟨rfl, rfl⟩ := hin
            have hrebuild : allNodes notSurface (Node.mk s2 (.Null)) = true := by
              simp [allNodes, allNodesAst, notSurface, Node.value, Node.replace, Bool.and_eq_true, Bool.true_and]
            obtain ⟨m2, hp2, hm2⟩ := hpost _ hrebuild
            rw [hp2] at hpostEq
            obtain ⟨rfl, rfl⟩ : r = (m2, ctx0) := (Option.some.inj hpostEq).symm
            exact ⟨hm2, rfl⟩
        | Undefined =>
            simp only [Node.value, Option.some.injEq, Prod.mk.injEq] at hin
            obtain ⟨rfl, rfl⟩ := hin
            have hrebuild : allNodes notSurface (Node.mk s2 (.Undefined)) = true := by
              simp [allNodes, allNodesAst, notSurface, Node.value, Node.replace, Bool.and_eq_true, Bool.true_and]
            obtain ⟨m2, hp2, hm2⟩ := hpost _ hrebuild
            rw [hp2] at hpostEq
            obtain ⟨rfl, rfl⟩ : r = (m2, ctx0) := (Option.some.inj hpostEq).symm
            exact ⟨hm2, rfl⟩
        | True =>
            simp only [Node.value, Option.some.injEq, Prod.mk.injEq] at hin
            obtain ⟨rfl, rfl⟩ := hin
            have hrebuild : allNodes notSurface (Node.mk s2 (.True)) = true := by
              simp [allNodes, allNodesAst, notSurface, Node.value, Node.replace, Bool.and_eq_true, Bool.true_and]
            obtain ⟨m2, hp2, hm2⟩ := hpost _ hrebuild
            rw [hp2] at hpostEq
            obtain ⟨rfl, rfl⟩ : r = (m2, ctx0) := (Option.some.inj hpostEq).symm
            exact ⟨hm2, rfl⟩
        | False =>
            simp only [Node.value, Option.some.injEq, Prod.mk.injEq] at hin
            obtain ⟨rfl, rfl⟩ := hin
            have hrebuild : allNodes notSurface (Node.mk s2 (.False)) = true := by
              simp [allNodes, allNodesAst, notSurface, Node.value, Node.replace, Bool.and_eq_true, Bool.true_and]
            obtain ⟨m2, hp2, hm2⟩ := hpost _ hrebuild
            rw [hp2] at hpostEq
            obtain ⟨rfl, rfl⟩ : r = (m2, ctx0) := (Option.some.inj hpostEq).symm
            exact ⟨hm2, rfl⟩
      refine ⟨main, ?_, ?_, ?_, ?_, ?_, ?_, ?_⟩
      · intro xs rs hq h
        cases xs with
        | nil =>
            simp only [traverseList, Option.some.injEq] at h
            subst h; rfl
        | cons x rest =>
            simp only [allNodesList, Bool.and_eq_true] at hq
            simp only [traverseList, osome_bind, obind_eq_some] at h
            obtain ⟨⟨x2, c1⟩, h1, rest2, h2, h⟩ := h
            obtain ⟨hcx, -⟩ := ihT x (x2, c1) hq.1 h1
            have hcr := ihL rest rest2 hq.2 h2
            obtain rfl := Option.some.inj h
            simp only [allNodesList, Bool.and_eq_true]
            exact ⟨hcx, hcr⟩
      · intro o ro hq h
        cases o with
        | none =>
            simp only [traverseOpt, Option.some.injEq] at h
            subst h; rfl
        | some v =>
            simp only [allNodesOpt] at hq
            simp only [traverseOpt, osome_bind, obind_eq_some] at h
            obtain ⟨⟨v2, c1⟩, h1, h⟩ := h
            obtain ⟨hcv, -⟩ := ihT v (v2, c1) hq h1
            obtain rfl := Option.some.inj h
            simpa [allNodesOpt] using hcv
      · intro arms rs hq h
        cases arms with
        | nil =>
            simp only [traverseArms, Option.some.injEq] at h
            subst h; rfl
        | cons arm rest =>
            obtain ⟨pattern, body⟩ := arm
            simp only [allNodesArms, Bool.and_eq_true] at hq
            simp only [traverseArms, MatchArm.pattern, MatchArm.body, osome_bind,
              obind_eq_some] at h
            obtain ⟨⟨p2, c1⟩, h1, ⟨b2, c2⟩, h2, rest2, h3, h⟩ := h
            obtain ⟨hcp, -⟩ := ihT pattern (p2, c1) hq.1.1 h1
            obtain ⟨hcb, -⟩ := ihT body (b2, c2) hq.1.2 h2
            have hcr := ihA rest rest2 hq.2 h3
            obtain rfl := Option.some.inj h
            simp only [allNodesArms, MatchArm.pattern, MatchArm.body, Bool.and_eq_true]
            exact ⟨⟨hcp, hcb⟩, hcr⟩
      · intro arms rs hq h
        cases arms with
        | nil =>
            simp only [traverseCondArms, Option.some.injEq] at h
            subst h; rfl
        | cons arm rest =>
            obtain ⟨condition, body⟩ := arm
            simp only [allNodesCondArms, Bool.and_eq_true] at hq
            simp only [traverseCondArms, CondArm.condition, CondArm.body, osome_bind,
              obind_eq_some] at h
            obtain ⟨⟨c2, cx1⟩, h1, ⟨b2, cx2⟩, h2, rest2, h3, h⟩ := h
            obtain ⟨hcc, -⟩ := ihT condition (c2, cx1) hq.1.1 h1
            obtain ⟨hcb, -⟩ := ihT body (b2, cx2) hq.1.2 h2
            have hcr := ihC rest rest2 hq.2 h3
            obtain rfl := Option.some.inj h
            simp only [allNodesCondArms, CondArm.condition, CondArm.body, Bool.and_eq_true]
            exact ⟨⟨hcc, hcb⟩, hcr⟩
      · intro props rs hq h
        cases props with
        | nil =>
            simp only [traverseProps, Option.some.injEq] at h
            subst h; rfl
        | cons prop rest =>
            obtain ⟨key, value⟩ := prop
            simp only [allNodesProps, Bool.and_eq_true] at hq
            simp only [traverseProps, osome_bind, obind_eq_some] at h
            obtain ⟨⟨v2, c1⟩, h1, rest2, h2, h⟩ := h
            obtain ⟨hcv, -⟩ := ihT value (v2, c1) hq.1 h1
            have hcr := ihP rest rest2 hq.2 h2
            obtain rfl := Option.some.inj h
            simp only [allNodesProps, Bool.and_eq_true]
            exact ⟨hcv, hcr⟩
      · intro params rs hq h
        cases params with
        | nil =>
            simp only [traverseParams, Option.some.injEq] at h
            subst h; rfl
        | cons param rest =>
            obtain ⟨name, constraint, dflt, rest_flag⟩ := param
            simp only [allNodesParams, Bool.and_eq_true] at hq
            simp only [traverseParams, osome_bind, obind_eq_some] at h
            obtain ⟨c2, h1, d2, h2, rest2, h3, h⟩ := h
            have hcc := ihO constraint c2 hq.1.1 h1
            have hcd := ihO dflt d2 hq.1.2 h2
            have hcr := ihPar rest rest2 hq.2 h3
            obtain rfl := Option.some.inj h
            simp only [allNodesParams, Bool.and_eq_true]
            exact ⟨⟨hcc, hcd⟩, hcr⟩
      · intro stmts rs hq h
        cases stmts with
        | nil =>
            simp only [traverseStmts, Option.some.injEq] at h
            subst h; exact ⟨rfl, rfl⟩
        | cons st rest =>
            simp only [allNodesList, Bool.and_eq_true] at hq
            simp only [traverseStmts, osome_bind, obind_eq_some] at h
            obtain ⟨⟨s2, c1⟩, h1, ⟨rest2, c2⟩, h2, h⟩ := h
            obtain ⟨hcs, hxs⟩ := ihT st (s2, c1) hq.1 h1
            have hxs2 : ctx0 = c1 := hxs.symm
            subst hxs2
            obtain ⟨hcr, hxr⟩ := ihS rest (rest2, c2) hq.2 h2
            have hxr2 : ctx0 = c2 := hxr.symm
            subst hxr2
            obtain rfl := Option.some.inj h
            refine ⟨?_, rfl⟩
            simp only [allNodesList, Bool.and_eq_true]
            exact ⟨hcs, hcr⟩


/-- The shape the post-order hook of `Node::simplify` sees: all children that
the traversal descends into are already clean.  For a let expression only the
body is traversed (the binding map is left to the let pass itself), so only
the body is required clean; every other variant requires exactly its
traversed children. -/
def traversedClean : Ast → Bool
  | .IfExpr condition then_branch else_branch =>
      allNodes notSurface condition && allNodes notSurface then_branch &&
        allNodesOpt notSurface else_branch
  | .MatchExpr value arms else_arm =>
      allNodes notSurface value && allNodesArms notSurface arms &&
        allNodes notSurface else_arm
  | .CondExpr arms else_arm =>
      allNodesCondArms notSurface arms && allNodes notSurface else_arm
  | .LetExpr _ body => allNodes notSurface body
  | a => allNodesAst notSurface a

/-- Generic establishment property of the post-order pass: with the identity
pre-hook, if the post-hook turns every node whose traversed children are
clean into a clean node (keeping the context), then the traversal always
returns a clean tree and the incoming context. -/
theorem traverse_establish_clean (post : Node → Bindings → Option (Node × Bindings))
    (hpost : ∀ n r ctx, traversedClean n.value = true → post n ctx = some r →
      allNodes notSurface r.1 = true ∧ r.2 = ctx) :
    ∀ fuel : Nat,
      (∀ n (ctx : Bindings) r,
        Node.traverse fuel n ctx (fun node c => some (node, c)) post = some r →
        allNodes notSurface r.1 = true ∧ r.2 = ctx) ∧
      (∀ xs (ctx : Bindings) rs,
        traverseList fuel xs ctx (fun node c => some (node, c)) post = some rs →
        allNodesList notSurface rs = true) ∧
      (∀ o (ctx : Bindings) ro,
        traverseOpt fuel o ctx (fun node c => some (node, c)) post = some ro →
        allNodesOpt notSurface ro = true) ∧
      (∀ arms (ctx : Bindings) rs,
        traverseArms fuel arms ctx (fun node c => some (node, c)) post = some rs →
        allNodesArms notSurface rs = true) ∧
      (∀ arms (ctx : Bindings) rs,
        traverseCondArms fuel arms ctx (fun node c => some (node, c)) post = some rs →
        allNodesCondArms notSurface rs = true) ∧
      (∀ props (ctx : Bindings) rs,
        traverseProps fuel props ctx (fun node c => some (node, c)) post = some rs →
        allNodesProps notSurface rs = true) ∧
      (∀ params (ctx : Bindings) rs,
        traverseParams fuel params ctx (fun node c => some (node, c)) post = some rs →
        allNodesParams notSurface rs = true) ∧
      (∀ stmts (ctx : Bindings) rs,
        traverseStmts fuel stmts ctx (fun node c => some (node, c)) post = some rs →
        allNodesList notSurface rs.1 = true ∧ rs.2 = ctx) := by
  intro fuel
  induction fuel with
  | zero =>
      refine ⟨?_, ?_, ?_, ?_, ?_, ?_, ?_, ?_⟩
      · intro n ctx r h; simp [Node.traverse] at h
      · intro xs ctx rs h
        cases xs with
        | nil => simp only [traverseList, Option.some.injEq] at h; subst h; rfl
        | cons x rest => simp [traverseList] at h
      · intro o ctx ro h
        cases o with
        | none => simp only [traverseOpt, Option.some.injEq] at h; subst h; rfl
        | some v => simp [traverseOpt] at h
      · intro arms ctx rs h
        cases arms with
        | nil => simp only [traverseArms, Option.some.injEq] at h; subst h; rfl
        | cons a rest => simp [traverseArms] at h
      · intro arms ctx rs h
        cases arms with
        | nil => simp only [traverseCondArms, Option.some.injEq] at h; subst h; rfl
        | cons a rest => simp [traverseCondArms] at h
      · intro props ctx rs h
        cases props with
        | nil => simp only [traverseProps, Option.some.injEq] at h; subst h; rfl
        | cons a rest => obtain ⟨k, v⟩ := a; simp [traverseProps] at h
      · intro params ctx rs h
        cases params with
        | nil => simp only [traverseParams, Option.some.injEq] at h; subst h; rfl
        | cons a rest => obtain ⟨nm, c, d, rf⟩ := a; simp [traverseParams] at h
      · intro stmts ctx rs h
        cases stmts with
        | nil =>
            simp only [traverseStmts, Option.some.injEq] at h
            subst h; exact ⟨rfl, rfl⟩
        | cons s rest => simp [traverseStmts] at h
  | succ fuel ih =>
      obtain ⟨ihT, ihL, ihO, ihA, ihC, ihP, ihPar, ihS⟩ := ih
      have main : ∀ n (ctx : Bindings) r,
          Node.traverse (fuel + 1) n ctx (fun node c => some (node, c)) post = some r →
          allNodes notSurface r.1 = true ∧ r.2 = ctx := by
        intro n ctx r h
        obtain ⟨sN, aN⟩ := n
        rw [Node.traverse] at h
        simp only [osome_bind, obind_eq_some] at h
        obtain ⟨⟨node1, ctxA⟩, hin, hpostEq⟩ := h
        cases aN with
        | Access lhs rhs is_dot =>
            simp only [Node.value, osome_bind, obind_eq_some] at hin
            obtain ⟨⟨lhs2, clhs⟩, hlhs, ⟨rhs2, crhs⟩, hrhs, hin⟩ := hin
            obtain ⟨hclhs, hxlhs⟩ := ihT lhs ctx (lhs2, clhs) hlhs
            obtain ⟨hcrhs, hxrhs⟩ := ihT rhs ctx (rhs2, crhs) hrhs
            simp only [Node.replace, Option.some.injEq, Prod.mk.injEq] at hin
            obtain ⟨rfl, rfl⟩ := hin
            have htc : traversedClean (Node.mk sN (.Access lhs2 rhs2 is_dot)).value = true := by
              simp [traversedClean, allNodes, allNodesAst, notSurface, Node.value, Bool.and_eq_true, Bool.true_and, allNodesOpt, hclhs, hcrhs]
            exact hpost _ _ _ htc hpostEq
        | Application name args =>
            simp only [Node.value, osome_bind, obind_eq_some] at hin
            obtain ⟨args2, hargs, hin⟩ := hin
            have hcargs := ihL args ctx args2 hargs
            simp only [Node.replace, Option.some.injEq, Prod.mk.injEq] at hin
            obtain ⟨rfl, rfl⟩ := hin
            have htc : traversedClean (Node.mk sN (.Application name args2)).value = true := by
              simp [traversedClean, allNodes, allNodesAst, notSurface, Node.value, Bool.and_eq_true, Bool.true_and, allNodesOpt, hcargs]
            exact hpost _ _ _ htc hpostEq
        | Array inner =>
            simp only [Node.value, osome_bind, obind_eq_some] at hin
            obtain ⟨⟨inner2, cinner⟩, hinner, hin⟩ := hin
            obtain ⟨hcinner, hxinner⟩ := ihT inner ctx (inner2, cinner) hinner
            simp only [Node.replace, Option.some.injEq, Prod.mk.injEq] at hin
            obtain ⟨rfl, rfl⟩ := hin
            have htc : traversedClean (Node.mk sN (.Array inner2)).value = true := by
              simp [traversedClean, allNodes, allNodesAst, notSurface, Node.value, Bool.and_eq_true, Bool.true_and, allNodesOpt, hcinner]
            exact hpost _ _ _ htc hpostEq
        | InfixOp lhs op rhs =>
            simp only [Node.value, osome_bind, obind_eq_some] at hin
            obtain ⟨⟨lhs2, clhs⟩, hlhs, ⟨rhs2, crhs⟩, hrhs, hin⟩ := hin
            obtain ⟨hclhs, hxlhs⟩ := ihT lhs ctx (lhs2, clhs) hlhs
            obtain ⟨hcrhs, hxrhs⟩ := ihT rhs ctx (rhs2, crhs) hrhs
            simp only [Node.replace, Option.some.injEq, Prod.mk.injEq] at hin
            obtain ⟨rfl, rfl⟩ := hin
            have htc : traversedClean (Node.mk sN (.InfixOp lhs2 op rhs2)).value = true := by
              simp [traversedClean, allNodes, allNodesAst, notSurface, Node.value, Bool.and_eq_true, Bool.true_and, allNodesOpt, hclhs, hcrhs]
            exact hpost _ _ _ htc hpostEq
        | Builtin name argument =>
            simp only [Node.value, osome_bind, obind_eq_some] at hin
            obtain ⟨⟨argument2, cargument⟩, hargument, hin⟩ := hin
            obtain ⟨hcargument, hxargument⟩ := ihT argument ctx (argument2, cargument) hargument
            simp only [Node.replace, Option.some.injEq, Prod.mk.injEq] at hin
            obtain ⟨rfl, rfl⟩ := hin
            have htc : traversedClean (Node.mk sN (.Builtin name argument2)).value = true := by
              simp [traversedClean, allNodes, allNodesAst, notSurface, Node.value, Bool.and_eq_true, Bool.true_and, allNodesOpt, hcargument]
            exact hpost _ _ _ htc hpostEq
        | CondExpr arms else_arm =>
            simp only [Node.value, osome_bind, obind_eq_some] at hin
            obtain ⟨arms2, harms, ⟨else_arm2, celse_arm⟩, helse_arm, hin⟩ := hin
            have hcarms := ihC arms ctx arms2 harms
            obtain ⟨hcelse_arm, hxelse_arm⟩ := ihT else_arm ctx (else_arm2, celse_arm) helse_arm
            simp only [Node.replace, Option.some.injEq, Prod.mk.injEq] at hin
            obtain ⟨rfl, rfl⟩ := hin
            have htc : traversedClean (Node.mk sN (.CondExpr arms2 else_arm2)).value = true := by
              simp [traversedClean, allNodes, allNodesAst, notSurface, Node.value, Bool.and_eq_true, Bool.true_and, allNodesOpt, hcarms, hcelse_arm]
            exact hpost _ _ _ htc hpostEq
        | ExtendsInfixOp lhs op rhs =>
            simp only [Node.value, osome_bind, obind_eq_some] at hin
            obtain ⟨⟨lhs2, clhs⟩, hlhs, ⟨rhs2, crhs⟩, hrhs, hin⟩ := hin
            obtain ⟨hclhs, hxlhs⟩ := ihT lhs ctx (lhs2, clhs) hlhs
            obtain ⟨hcrhs, hxrhs⟩ := ihT rhs ctx (rhs2, crhs) hrhs
            simp only [Node.replace, Option.some.injEq, Prod.mk.injEq] at hin
            obtain ⟨rfl, rfl⟩ := hin
            have htc : traversedClean (Node.mk sN (.ExtendsInfixOp lhs2 op rhs2)).value = true := by
              simp [traversedClean, allNodes, allNodesAst, notSurface, Node.value, Bool.and_eq_true, Bool.true_and, allNodesOpt, hclhs, hcrhs]
            exact hpost _ _ _ htc hpostEq
        | ExtendsExpr lhs rhs then_branch else_branch =>
            simp only [Node.value, osome_bind, obind_eq_some] at hin
            obtain ⟨⟨lhs2, clhs⟩, hlhs, ⟨rhs2, crhs⟩, hrhs, ⟨then_branch2, cthen_branch⟩, hthen_branch, ⟨else_branch2, celse_branch⟩, helse_branch, hin⟩ := hin
            obtain ⟨hclhs, hxlhs⟩ := ihT lhs ctx (lhs2, clhs) hlhs
            obtain ⟨hcrhs, hxrhs⟩ := ihT rhs ctx (rhs2, crhs) hrhs
            obtain ⟨hcthen_branch, hxthen_branch⟩ := ihT then_branch ctx (then_branch2, cthen_branch) hthen_branch
            obtain ⟨hcelse_branch, hxelse_branch⟩ := ihT else_branch ctx (else_branch2, celse_branch) helse_branch
            simp only [Node.replace, Option.some.injEq, Prod.mk.injEq] at hin
            obtain ⟨rfl, rfl⟩ := hin
            have htc : traversedClean (Node.mk sN (.ExtendsExpr lhs2 rhs2 then_branch2 else_branch2)).value = true := by
              simp [traversedClean, allNodes, allNodesAst, notSurface, Node.value, Bool.and_eq_true, Bool.true_and, allNodesOpt, hclhs, hcrhs, hcthen_branch, hcelse_branch]
            exact hpost _ _ _ htc hpostEq
        | ExtendsPrefixOp op value =>
            simp only [Node.value, osome_bind, obind_eq_some] at hin
            obtain ⟨⟨value2, cvalue⟩, hvalue, hin⟩ := hin
            obtain ⟨hcvalue, hxvalue⟩ := ihT value ctx (value2, cvalue) hvalue
            simp only [Node.replace, Option.some.injEq, Prod.mk.injEq] at hin
            obtain ⟨rfl, rfl⟩ := hin
            have htc : traversedClean (Node.mk sN (.ExtendsPrefixOp op value2)).value = true := by
              simp [traversedClean, allNodes, allNodesAst, notSurface, Node.value, Bool.and_eq_true, Bool.true_and, allNodesOpt, hcvalue]
            exact hpost _ _ _ htc hpostEq
        | IfExpr condition then_branch else_branch =>
            simp only [Node.value, osome_bind, obind_eq_some] at hin
            obtain ⟨⟨condition2, ccondition⟩, hcondition, ⟨then_branch2, cthen_branch⟩, hthen_branch, else_branch2, helse_branch, hin⟩ := hin
            obtain ⟨hccondition, hxcondition⟩ := ihT condition ctx (condition2, ccondition) hcondition
            obtain ⟨hcthen_branch, hxthen_branch⟩ := ihT then_branch ctx (then_branch2, cthen_branch) hthen_branch
            have hcelse_branch := ihO else_branch ctx else_branch2 helse_branch
            simp only [Node.replace, Option.some.injEq, Prod.mk.injEq] at hin
            obtain ⟨rfl, rfl⟩ := hin
            have htc : traversedClean (Node.mk sN (.IfExpr condition2 then_branch2 else_branch2)).value = true := by
              simp [traversedClean, allNodes, allNodesAst, notSurface, Node.value, Bool.and_eq_true, Bool.true_and, allNodesOpt, hccondition, hcthen_branch, hcelse_branch]
            exact hpost _ _ _ htc hpostEq
        | ImportStatement ic mo =>
            simp only [Node.value, Node.replace, Option.some.injEq, Prod.mk.injEq] at hin
            obtain ⟨rfl, rfl⟩ := hin
            have htc : traversedClean (Node.mk sN (.ImportStatement ic mo)).value = true := by
              simp [traversedClean, allNodesAst, Node.value]
            exact hpost _ _ _ htc hpostEq
        | LetExpr bindings body =>
            simp only [Node.value, osome_bind, obind_eq_some] at hin
            obtain ⟨⟨body2, cbody⟩, hbody, hin⟩ := hin
            obtain ⟨hcbody, hxbody⟩ := ihT body ctx (body2, cbody) hbody
            simp only [Node.replace, Option.some.injEq, Prod.mk.injEq] at hin
            obtain ⟨rfl, rfl⟩ := hin
            have htc : traversedClean (Node.mk sN (.LetExpr bindings body2)).value = true := by
              simp [traversedClean, allNodes, allNodesAst, notSurface, Node.value, Bool.and_eq_true, Bool.true_and, allNodesOpt, hcbody]
            exact hpost _ _ _ htc hpostEq
        | MappedType index iterable remapped_as rm om body =>
            simp only [Node.value, osome_bind, obind_eq_some] at hin
            obtain ⟨⟨iterable2, citerable⟩, hiterable, remapped_as2, hremapped_as, ⟨body2, cbody⟩, hbody, hin⟩ := hin
            obtain ⟨hciterable, hxiterable⟩ := ihT iterable ctx (iterable2, citerable) hiterable
            have hcremapped_as := ihO remapped_as ctx remapped_as2 hremapped_as
            obtain ⟨hcbody, hxbody⟩ := ihT body ctx (body2, cbody) hbody
            simp only [Node.replace, Option.some.injEq, Prod.mk.injEq] at hin
            obtain ⟨rfl, rfl⟩ := hin
            have htc : traversedClean (Node.mk sN (.MappedType index iterable2 remapped_as2 rm om body2)).value = true := by
              simp [traversedClean, allNodes, allNodesAst, notSurface, Node.value, Bool.and_eq_true, Bool.true_and, allNodesOpt, hciterable, hcremapped_as, hcbody]
            exact hpost _ _ _ htc hpostEq
        | MatchExpr value arms else_arm =>
            simp only [Node.value, osome_bind, obind_eq_some] at hin
            obtain ⟨⟨value2, cvalue⟩, hvalue, arms2, harms, ⟨else_arm2, celse_arm⟩, helse_arm, hin⟩ := hin
            obtain ⟨hcvalue, hxvalue⟩ := ihT value ctx (value2, cvalue) hvalue
            have hcarms := ihA arms ctx arms2 harms
            obtain ⟨hcelse_arm, hxelse_arm⟩ := ihT else_arm ctx (else_arm2, celse_arm) helse_arm
            simp only [Node.replace, Option.some.injEq, Prod.mk.injEq] at hin
            obtain ⟨rfl, rfl⟩ := hin
            have htc : traversedClean (Node.mk sN (.MatchExpr value2 arms2 else_arm2)).value = true := by
              simp [traversedClean, allNodes, allNodesAst, notSurface, Node.value, Bool.and_eq_true, Bool.true_and, allNodesOpt, hcvalue, hcarms, hcelse_arm]
            exact hpost _ _ _ htc hpostEq
        | NamespaceAccess lhs rhs =>
            simp only [Node.value, osome_bind, obind_eq_some] at hin
            obtain ⟨⟨lhs2, clhs⟩, hlhs, ⟨rhs2, crhs⟩, hrhs, hin⟩ := hin
            obtain ⟨hclhs, hxlhs⟩ := ihT lhs ctx (lhs2, clhs) hlhs
            obtain ⟨hcrhs, hxrhs⟩ := ihT rhs ctx (rhs2, crhs) hrhs
            simp only [Node.replace, Option.some.injEq, Prod.mk.injEq] at hin
            obtain ⟨rfl, rfl⟩ := hin
            have htc : traversedClean (Node.mk sN (.NamespaceAccess lhs2 rhs2)).value = true := by
              simp [traversedClean, allNodes, allNodesAst, notSurface, Node.value, Bool.and_eq_true, Bool.true_and, allNodesOpt, hclhs, hcrhs]
            exact hpost _ _ _ htc hpostEq
        | ObjectLiteral properties =>
            simp only [Node.value, osome_bind, obind_eq_some] at hin
            obtain ⟨properties2, hproperties, hin⟩ := hin
            have hcproperties := ihP properties ctx properties2 hproperties
            simp only [Node.replace, Option.some.injEq, Prod.mk.injEq] at hin
            obtain ⟨rfl, rfl⟩ := hin
            have htc : traversedClean (Node.mk sN (.ObjectLiteral properties2)).value = true := by
              simp [traversedClean, allNodes, allNodesAst, notSurface, Node.value, Bool.and_eq_true, Bool.true_and, allNodesOpt, hcproperties]
            exact hpost _ _ _ htc hpostEq
        | Program statements =>
            simp only [Node.value, osome_bind, obind_eq_some] at hin
            obtain ⟨⟨stmts2, cS⟩, hS, hin⟩ := hin
            obtain ⟨hcS, hxS⟩ := ihS statements ctx (stmts2, cS) hS
            simp only [Node.replace, Option.some.injEq, Prod.mk.injEq] at hin
            obtain ⟨rfl, rfl⟩ := hin
            have hxS2 : ctx = cS := hxS.symm
            subst hxS2
            have htc : traversedClean (Node.mk sN (.Program stmts2)).value = true := by
              simp [traversedClean, allNodes, allNodesAst, notSurface, Node.value, Bool.and_eq_true, Bool.true_and, hcS]
            exact hpost _ _ _ htc hpostEq
        | Statement inner =>
            simp only [Node.value, osome_bind, obind_eq_some] at hin
            obtain ⟨⟨inner2, cI⟩, hI, hin⟩ := hin
            obtain ⟨hcI, hxI⟩ := ihT inner ctx (inner2, cI) hI
            simp only [Node.replace, Option.some.injEq, Prod.mk.injEq] at hin
            obtain ⟨rfl, rfl⟩ := hin
            have hxI2 : ctx = cI := hxI.symm
            subst hxI2
            have htc : traversedClean (Node.mk sN (.Statement inner2)).value = true := by
              simp [traversedClean, allNodes, allNodesAst, notSurface, Node.value, Bool.and_eq_true, Bool.true_and, hcI]
            exact hpost _ _ _ htc hpostEq
        | TemplateString str =>
            simp only [Node.value, Node.replace, Option.some.injEq, Prod.mk.injEq] at hin
            obtain ⟨rfl, rfl⟩ := hin
            have htc : traversedClean (Node.mk sN (.TemplateString str)).value = true := by
              simp [traversedClean, allNodesAst, Node.value]
            exact hpost _ _ _ htc hpostEq
        | Tuple items =>
            simp only [Node.value, osome_bind, obind_eq_some] at hin
            obtain ⟨items2, hitems, hin⟩ := hin
            have hcitems := ihL items ctx items2 hitems
            simp only [Node.replace, Option.some.injEq, Prod.mk.injEq] at hin
            obtain ⟨rfl, rfl⟩ := hin
            have htc : traversedClean (Node.mk sN (.Tuple items2)).value = true := by
              simp [traversedClean, allNodes, allNodesAst, notSurface, Node.value, Bool.and_eq_true, Bool.true_and, allNodesOpt, hcitems]
            exact hpost _ _ _ htc hpostEq
        | TypeAlias exported name params body =>
            simp only [Node.value, osome_bind, obind_eq_some] at hin
            obtain ⟨⟨body2, cbody⟩, hbody, params2, hparams, hin⟩ := hin
            obtain ⟨hcbody, hxbody⟩ := ihT body ctx (body2, cbody) hbody
            have hcparams := ihPar params ctx params2 hparams
            simp only [Node.replace, Option.some.injEq, Prod.mk.injEq] at hin
            obtain ⟨rfl, rfl⟩ := hin
            have htc : traversedClean (Node.mk sN (.TypeAlias exported name params2 body2)).value = true := by
              simp [traversedClean, allNodes, allNodesAst, notSurface, Node.value, Bool.and_eq_true, Bool.true_and, allNodesOpt, hcbody, hcparams]
            exact hpost _ _ _ htc hpostEq
        | Ident id =>
            simp only [Node.value, Option.some.injEq, Prod.mk.injEq] at hin
            obtain ⟨rfl, rfl⟩ := hin
            have htc : traversedClean (Node.mk sN (.Ident id)).value = true := by
              simp [traversedClean, allNodesAst, Node.value]
            exact hpost _ _ _ htc hpostEq
        | MacroCall name =>
            simp only [Node.value, Option.some.injEq, Prod.mk.injEq] at hin
            obtain ⟨rfl, rfl⟩ := hin
            have htc : traversedClean (Node.mk sN (.MacroCall name)).value = true := by
              simp [traversedClean, allNodesAst, Node.value]
            exact hpost _ _ _ htc hpostEq
        | NoOp =>
            simp only [Node.value, Option.some.injEq, Prod.mk.injEq] at hin
            obtain ⟨rfl, rfl⟩ := hin
            have htc : traversedClean (Node.mk sN (.NoOp)).value = true := by
              simp [traversedClean, allNodesAst, Node.value]
            exact hpost _ _ _ htc hpostEq
        | Number raw =>
            simp only [Node.value, Option.some.injEq, Prod.mk.injEq] at hin
            obtain ⟨rfl, rfl⟩ := hin
            have htc : traversedClean (Node.mk sN (.Number raw)).value = true := by
              simp [traversedClean, allNodesAst, Node.value]
            exact hpost _ _ _ htc hpostEq
        | String str =>
            simp only [Node.value, Option.some.injEq, Prod.mk.injEq] at hin
            obtain ⟨rfl, rfl⟩ := hin
            have htc : traversedClean (Node.mk sN (.String str)).value = true := by
              simp [traversedClean, allNodesAst, Node.value]
            exact hpost _ _ _ htc hpostEq
        | Primitive name =>
            simp only [Node.value, Option.some.injEq, Prod.mk.injEq] at hin
            obtain ⟨rfl, rfl⟩ := hin
            have htc : traversedClean (Node.mk sN (.Primitive name)).value = true := by
              simp [traversedClean, allNodesAst, Node.value]
            exact hpost _ _ _ htc hpostEq
        | Never =>
            simp only [Node.value, Option.some.injEq, Prod.mk.injEq] at hin
            obtain ⟨rfl, rfl⟩ := hin
            have htc : traversedClean (Node.mk sN (.Never)).value = true := by
              simp [traversedClean, allNodesAst, Node.value]
            exact hpost _ _ _ htc hpostEq
        | Any =>
            simp only [Node.value, Option.some.injEq, Prod.mk.injEq] at hin
            obtain ⟨rfl, rfl⟩ := hin
            have htc : traversedClean (Node.mk sN (.Any)).value = true := by
              simp [traversedClean, allNodesAst, Node.value]
            exact hpost _ _ _ htc hpostEq
        | Unknown =>
            simp only [Node.value, Option.some.injEq, Prod.mk.injEq] at hin
            obtain ⟨rfl, rfl⟩ := hin
            have htc : traversedClean (Node.mk sN (.Unknown)).value = true := by
              simp [traversedClean, allNodesAst, Node.value]
            exact hpost _ _ _ htc hpostEq
        | Null =>
            simp only [Node.value, Option.some.injEq, Prod.mk.injEq] at hin
            obtain ⟨rfl, rfl⟩ := hin
            have htc : traversedClean (Node.mk sN (.Null)).value = true := by
              simp [traversedClean, allNodesAst, Node.value]
            exact hpost _ _ _ htc hpostEq
        | Undefined =>
            simp only [Node.value, Option.some.injEq, Prod.mk.injEq] at hin
            obtain ⟨rfl, rfl⟩ := hin
            have htc : traversedClean (Node.mk sN (.Undefined)).value = true := by
              simp [traversedClean, allNodesAst, Node.value]
            exact hpost _ _ _ htc hpostEq
        | True =>
            simp only [Node.value, Option.some.injEq, Prod.mk.injEq] at hin
            obtain ⟨rfl, rfl⟩ := hin
            have htc : traversedClean (Node.mk sN (.True)).value = true := by
              simp [traversedClean, allNodesAst, Node.value]
            exact hpost _ _ _ htc hpostEq
        | False =>
            simp only [Node.value, Option.some.injEq, Prod.mk.injEq] at hin
            obtain ⟨rfl, rfl⟩ := hin
            have htc : traversedClean (Node.mk sN (.False)).value = true := by
              simp [traversedClean, allNodesAst, Node.value]
            exact hpost _ _ _ htc hpostEq
      refine ⟨main, ?_, ?_, ?_, ?_, ?_, ?_, ?_⟩
      · intro xs ctx rs h
        cases xs with
        | nil =>
            simp only [traverseList, Option.some.injEq] at h
            subst h; rfl
        | cons x rest =>
            simp only [traverseList, osome_bind, obind_eq_some] at h
            obtain ⟨⟨x2, c1⟩, h1, rest2, h2, h⟩ := h
            obtain ⟨hcx, -⟩ := ihT x ctx (x2, c1) h1
            have hcr := ihL rest ctx rest2 h2
            obtain rfl := Option.some.inj h
            simp only [allNodesList, Bool.and_eq_true]
            exact ⟨hcx, hcr⟩
      · intro o ctx ro h
        cases o with
        | none =>
            simp only [traverseOpt, Option.some.injEq] at h
            subst h; rfl
        | some v =>
            simp only [traverseOpt, osome_bind, obind_eq_some] at h
            obtain ⟨⟨v2, c1⟩, h1, h⟩ := h
            obtain ⟨hcv, -⟩ := ihT v ctx (v2, c1) h1
            obtain rfl := Option.some.inj h
            simpa [allNodesOpt] using hcv
      · intro arms ctx rs h
        cases arms with
        | nil =>
            simp only [traverseArms, Option.some.injEq] at h
            subst h; rfl
        | cons arm rest =>
            obtain ⟨pattern, body⟩ := arm
            simp only [traverseArms, MatchArm.pattern, MatchArm.body, osome_bind,
              obind_eq_some] at h
            obtain ⟨⟨p2, c1⟩, h1, ⟨b2, c2⟩, h2, rest2, h3, h⟩ := h
            obtain ⟨hcp, -⟩ := ihT pattern ctx (p2, c1) h1
            obtain ⟨hcb, -⟩ := ihT body ctx (b2, c2) h2
            have hcr := ihA rest ctx rest2 h3
            obtain rfl := Option.some.inj h
            simp only [allNodesArms, Bool.and_eq_true]
            exact ⟨⟨hcp, hcb⟩, hcr⟩
      · intro arms ctx rs h
        cases arms with
        | nil =>
            simp only [traverseCondArms, Option.some.injEq] at h
            subst h; rfl
        | cons arm rest =>
            obtain ⟨condition, body⟩ := arm
            simp only [traverseCondArms, CondArm.condition, CondArm.body, osome_bind,
              obind_eq_some] at h
            obtain ⟨⟨c2, cx1⟩, h1, ⟨b2, cx2⟩, h2, rest2, h3, h⟩ := h
            obtain ⟨hcc, -⟩ := ihT condition ctx (c2, cx1) h1
            obtain ⟨hcb, -⟩ := ihT body ctx (b2, cx2) h2
            have hcr := ihC rest ctx rest2 h3
            obtain rfl := Option.some.inj h
            simp only [allNodesCondArms, Bool.and_eq_true]
            exact ⟨⟨hcc, hcb⟩, hcr⟩
      · intro props ctx rs h
        cases props with
        | nil =>
            simp only [traverseProps, Option.some.injEq] at h
            subst h; rfl
        | cons prop rest =>
            obtain ⟨key, value⟩ := prop
            simp only [traverseProps, osome_bind, obind_eq_some] at h
            obtain ⟨⟨v2, c1⟩, h1, rest2, h2, h⟩ := h
            obtain ⟨hcv, -⟩ := ihT value ctx (v2, c1) h1
            have hcr := ihP rest ctx rest2 h2
            obtain rfl := Option.some.inj h
            simp only [allNodesProps, Bool.and_eq_true]
            exact ⟨hcv, hcr⟩
      · intro params ctx rs h
        cases params with
        | nil =>
            simp only [traverseParams, Option.some.injEq] at h
            subst h; rfl
        | cons param rest =>
            obtain ⟨name, constraint, dflt, rest_flag⟩ := param
            simp only [traverseParams, osome_bind, obind_eq_some] at h
            obtain ⟨c2, h1, d2, h2, rest2, h3, h⟩ := h
            have hcc := ihO constraint ctx c2 h1
            have hcd := ihO dflt ctx d2 h2
            have hcr := ihPar rest ctx rest2 h3
            obtain rfl := Option.some.inj h
            simp only [allNodesParams, Bool.and_eq_true]
            exact ⟨⟨hcc, hcd⟩, hcr⟩
      · intro stmts ctx rs h
        cases stmts with
        | nil =>
            simp only [traverseStmts, Option.some.injEq] at h
            subst h; exact ⟨rfl, rfl⟩
        | cons st rest =>
            simp only [traverseStmts, osome_bind, obind_eq_some] at h
            obtain ⟨⟨s2, c1⟩, h1, ⟨rest2, c2⟩, h2, h⟩ := h
            obtain ⟨hcs, hxs⟩ := ihT st ctx (s2, c1) h1
            have hxs2 : ctx = c1 := hxs.symm
            subst hxs2
            obtain ⟨hcr, hxr⟩ := ihS rest ctx (rest2, c2) h2
            have hxr2 : ctx = c2 := hxr.symm
            subst hxr2
            obtain rfl := Option.some.inj h
            refine ⟨?_, rfl⟩
            simp only [allNodesList, Bool.and_eq_true]
            exact ⟨hcs, hcr⟩


/-- A successful map lookup on a map of which every value satisfies `p`
returns a value satisfying `p`. -/
theorem Bindings.get_all {p : Node → Bool} {b : Bindings} {id : Identifier}
    {v : Node} (hall : bindingsAll p b = true) (hget : Bindings.get b id = some v) :
    p v = true := by
  induction b with
  | nil => simp [Bindings.get] at hget
  | cons kv rest ih =>
      obtain ⟨k, w⟩ := kv
      simp only [bindingsAll, List.all_cons, Bool.and_eq_true] at hall
      by_cases hk : ((k, w).1 == id) = true
      · rw [Bindings.get] at hget
        simp only [List.find?_cons, hk, Option.map_some', Option.some.injEq] at hget
        subst hget
        exact hall.1
      · rw [Bindings.get] at hget
        rw [Bool.not_eq_true] at hk
        simp only [List.find?_cons, hk] at hget
        exact ih hall.2 hget

/-- The substitution pre-hook keeps clean trees clean when every bound value
is clean, and never changes the context. -/
theorem substituteHook_clean {ctx0 : Bindings}
    (hb : bindingsAll (allNodes notSurface) ctx0 = true) :
    ∀ n, allNodes notSurface n = true →
      ∃ m, substituteHook n ctx0 = some (m, ctx0) ∧ allNodes notSurface m = true := by
  intro n hn
  obtain ⟨s, a⟩ := n
  cases a
  case Ident id =>
      cases hget : Bindings.get ctx0 id with
      | none =>
          refine ⟨Node.mk s (.Ident id), ?_, hn⟩
          simp [substituteHook, Node.value, hget]
      | some v =>
          refine ⟨v, ?_, Bindings.get_all hb hget⟩
          simp [substituteHook, Node.value, hget]
  all_goals exact ⟨_, rfl, hn⟩

/-- The conditional normalization never invents a surface node: on clean
inputs every tree it returns is clean. -/
theorem simplifyConditional_clean :
    ∀ c t e, allNodes notSurface c = true → allNodes notSurface t = true →
      allNodes notSurface e = true → ∀ r, simplifyConditional c t e = some r →
      allNodes notSurface r = true := by
  intro c t e
  induction c, t, e using simplifyConditional.induct with
  | @case1 span value then_ else_ ih =>
      intro hc ht he r h
      rw [simplifyConditional] at h
      simp only [allNodes, allNodesAst, notSurface, Node.value, Bool.and_eq_true,
        Bool.true_and] at hc
      exact ih hc he ht r h
  | @case2 span lhs rhs then_ else_ =>
      intro hc ht he r h
      rw [simplifyConditional] at h
      obtain rfl := Option.some.inj h
      simp only [allNodes, allNodesAst, notSurface, Node.value, Bool.and_eq_true,
        Bool.true_and] at hc
      simp [Node.generate, allNodes, allNodesAst, notSurface, Node.value,
        hc.1, hc.2, ht, he]
  | @case3 span lhs rhs then_ else_ =>
      intro hc ht he r h
      rw [simplifyConditional] at h
      obtain rfl := Option.some.inj h
      simp only [allNodes, allNodesAst, notSurface, Node.value, Bool.and_eq_true,
        Bool.true_and] at hc
      simp [Node.generate, allNodes, allNodesAst, notSurface, Node.value,
        hc.1, hc.2, ht, he]
  | @case4 span lhs rhs then_ else_ =>
      intro _ _ _ r h
      rw [simplifyConditional] at h
      exact absurd h (by simp)
  | @case5 span lhs rhs then_ else_ =>
      intro _ _ _ r h
      rw [simplifyConditional] at h
      exact absurd h (by simp)
  | @case6 span lhs rhs then_ else_ =>
      intro _ _ _ r h
      rw [simplifyConditional] at h
      exact absurd h (by simp)
  | @case7 span lhs rhs then_ else_ =>
      intro _ _ _ r h
      rw [simplifyConditional] at h
      exact absurd h (by simp)
  | @case8 span lhs rhs then_ else_ ihr ihl =>
      intro hc ht he r h
      rw [simplifyConditional] at h
      simp only [obind_eq_some] at h
      obtain ⟨then2, h1, h2⟩ := h
      simp only [allNodes, allNodesAst, notSurface, Node.value, Bool.and_eq_true,
        Bool.true_and] at hc
      have hthen2 := ihr hc.2 ht he then2 h1
      exact ihl then2 hc.1 hthen2 he r h2
  | @case9 span lhs rhs then_ else_ ihr ihl =>
      intro hc ht he r h
      rw [simplifyConditional] at h
      simp only [obind_eq_some] at h
      obtain ⟨else2, h1, h2⟩ := h
      simp only [allNodes, allNodesAst, notSurface, Node.value, Bool.and_eq_true,
        Bool.true_and] at hc
      have helse2 := ihr hc.2 ht he else2 h1
      exact ihl else2 hc.1 ht helse2 r h2
  | @case10 t x x1 hnp hni =>
      intro _ _ _ r h
      obtain ⟨s, a⟩ := t
      cases a
      case ExtendsPrefixOp a b => exact (hnp _ _ _ rfl).elim
      case ExtendsInfixOp a b c => exact (hni _ _ _ _ rfl).elim
      all_goals simp [simplifyConditional] at h

/-- The conditional pass on an if expression returns clean trees on clean
inputs (a missing else branch becomes the generated `never` literal). -/
theorem ifExpr_simplify_clean (condition then_branch : Node)
    (else_branch : Option Node) (r : Node)
    (hc : allNodes notSurface condition = true)
    (ht : allNodes notSurface then_branch = true)
    (he : allNodesOpt notSurface else_branch = true)
    (h : IfExpr.simplify condition then_branch else_branch = some r) :
    allNodes notSurface r = true := by
  cases else_branch with
  | none =>
      refine simplifyConditional_clean condition then_branch (Node.generate .Never)
        hc ht ?_ r ?_
      · simp [Node.generate, allNodes, allNodesAst, notSurface, Node.value]
      · simpa [IfExpr.simplify] using h
  | some v =>
      refine simplifyConditional_clean condition then_branch v hc ht ?_ r ?_
      · simpa [allNodesOpt] using he
      · simpa [IfExpr.simplify] using h

/-- The match pass returns clean trees on clean inputs. -/
theorem matchExpr_simplify_clean (value : Node) (arms : List MatchArm)
    (else_arm : Node)
    (hv : allNodes notSurface value = true)
    (ha : allNodesArms notSurface arms = true)
    (he : allNodes notSurface else_arm = true) :
    allNodes notSurface (MatchExpr.simplify value arms else_arm) = true := by
  induction arms with
  | nil => simpa [MatchExpr.simplify] using he
  | cons arm rest ih =>
      obtain ⟨pattern, body⟩ := arm
      simp only [allNodesArms, Bool.and_eq_true] at ha
      have hrest := ih ha.2
      simp only [MatchExpr.simplify] at hrest ⊢
      rw [List.foldr_cons]
      simp only [Node.generate, allNodes, allNodesAst, notSurface, Node.value,
        MatchArm.pattern, MatchArm.body, Bool.and_eq_true, Bool.true_and]
      exact ⟨⟨⟨hv, ha.1.1⟩, ha.1.2⟩, hrest⟩

/-- The cond pass returns clean trees on clean inputs. -/
theorem condExpr_simplify_clean :
    ∀ (arms : List CondArm) (else_arm r : Node),
      allNodesCondArms notSurface arms = true →
      allNodes notSurface else_arm = true →
      CondExpr.simplify arms else_arm = some r →
      allNodes notSurface r = true := by
  intro arms
  induction arms with
  | nil =>
      intro e r _ he h
      rw [CondExpr.simplify] at h
      obtain rfl := Option.some.inj h
      exact he
  | cons arm rest ih =>
      intro e r ha he h
      obtain ⟨condition, body⟩ := arm
      simp only [allNodesCondArms, Bool.and_eq_true] at ha
      rw [CondExpr.simplify] at h
      simp only [obind_eq_some] at h
      obtain ⟨acc, h1, h2⟩ := h
      have hacc := ih e acc ha.2 he h1
      exact simplifyConditional_clean condition body acc ha.1.1 ha.1.2 hacc r
        (by simpa [CondArm.condition, CondArm.body] using h2)


/-- The hook of `Node::simplify` on an if expression, for any fuel. -/
theorem simplifyHook_if_eq (F : Nat) (s : Option Span) (c t : Node)
    (e : Option Node) (ctx : Bindings) :
    simplifyHook F (.mk s (.IfExpr c t e)) ctx =
      (IfExpr.simplify c t e).map (fun u => (u, ctx)) := by
  cases F <;> rfl

/-- The hook of `Node::simplify` on a match expression, for any fuel. -/
theorem simplifyHook_match_eq (F : Nat) (s : Option Span) (v : Node)
    (arms : List MatchArm) (e : Node) (ctx : Bindings) :
    simplifyHook F (.mk s (.MatchExpr v arms e)) ctx =
      some (MatchExpr.simplify v arms e, ctx) := by
  cases F <;> rfl

/-- The hook of `Node::simplify` on a cond expression, for any fuel. -/
theorem simplifyHook_cond_eq (F : Nat) (s : Option Span)
    (arms : List CondArm) (e : Node) (ctx : Bindings) :
    simplifyHook F (.mk s (.CondExpr arms e)) ctx =
      (CondExpr.simplify arms e).map (fun u => (u, ctx)) := by
  cases F <;> rfl

/-- The hook of `Node::simplify` passes every non-surface node through
unchanged, for any fuel. -/
theorem simplifyHook_passthrough (F : Nat) (s : Option Span) (a : Ast)
    (ctx : Bindings) (hns : notSurface (.mk s a) = true) :
    simplifyHook F (.mk s a) ctx = some (.mk s a, ctx) := by
  cases F <;> cases a <;> first
    | rfl
    | simp [notSurface, Node.value] at hns

/-- The post-order hook of `Node::simplify` on every non-let node: a node
whose traversed children are clean is mapped to a clean node, and the context
is untouched.  (The let arm is handled separately in the fuel induction,
because it recurses into the whole pipeline.) -/
theorem simplifyHook_clean_core (F : Nat) (s : Option Span) (a : Ast)
    (ctx : Bindings) (r : Node × Bindings)
    (hnl : ∀ bindings body, a ≠ .LetExpr bindings body)
    (htc : traversedClean a = true)
    (h : simplifyHook F (.mk s a) ctx = some r) :
    allNodes notSurface r.1 = true ∧ r.2 = ctx := by
  cases a
  case IfExpr condition then_branch else_branch =>
      rw [simplifyHook_if_eq] at h
      simp only [Option.map_eq_some'] at h
      obtain ⟨t2, h1, h2⟩ := h
      subst h2
      simp only [traversedClean, Bool.and_eq_true] at htc
      exact ⟨ifExpr_simplify_clean condition then_branch else_branch t2
        htc.1.1 htc.1.2 htc.2 h1, rfl⟩
  case MatchExpr value arms else_arm =>
      rw [simplifyHook_match_eq] at h
      obtain rfl := Option.some.inj h
      simp only [traversedClean, Bool.and_eq_true] at htc
      exact ⟨matchExpr_simplify_clean value arms else_arm htc.1.1 htc.1.2 htc.2, rfl⟩
  case CondExpr arms else_arm =>
      rw [simplifyHook_cond_eq] at h
      simp only [Option.map_eq_some'] at h
      obtain ⟨t2, h1, h2⟩ := h
      subst h2
      simp only [traversedClean, Bool.and_eq_true] at htc
      exact ⟨condExpr_simplify_clean arms else_arm t2 htc.1 htc.2 h1, rfl⟩
  case LetExpr bindings body => exact (hnl bindings body rfl).elim
  all_goals
    rw [simplifyHook_passthrough F s _ ctx (by simp [notSurface, Node.value])] at h
  all_goals
    obtain rfl := Option.some.inj h
  all_goals
    refine ⟨?_, rfl⟩
  all_goals
    simp only [traversedClean] at htc
  all_goals
    simp [allNodes, notSurface, Node.value, htc]

/-- The full cleanliness induction over the fuel: everything `Node::simplify`
returns is clean, every simplified binding map has only clean values, the let
pass returns clean trees on clean bodies, and the post-order hook maps
traversed-clean nodes to clean nodes. -/
theorem simplify_clean_family : ∀ F : Nat,
    (∀ n Q, Node.simplify F n = some Q → allNodes notSurface Q = true) ∧
    (∀ b b', simplifyBindings F b = some b' →
      bindingsAll (allNodes notSurface) b' = true) ∧
    (∀ bindings body t, allNodes notSurface body = true →
      LetExpr.simplify F bindings body = some t → allNodes notSurface t = true) ∧
    (∀ node ctx r, traversedClean node.value = true →
      simplifyHook F node ctx = some r →
      allNodes notSurface r.1 = true ∧ r.2 = ctx) := by
  intro F
  induction F with
  | zero =>
      refine ⟨?_, ?_, ?_, ?_⟩
      · intro n Q h; simp [Node.simplify] at h
      · intro b b' h
        cases b with
        | nil => simp only [simplifyBindings, Option.some.injEq] at h; subst h; rfl
        | cons kv rest => obtain ⟨k, v⟩ := kv; simp [simplifyBindings] at h
      · intro bindings body t _ h; simp [LetExpr.simplify] at h
      · intro node ctx r htc h
        obtain ⟨s, a⟩ := node
        simp only [Node.value] at htc
        cases hla : a
        case LetExpr bindings body =>
            subst hla
            simp [simplifyHook, Node.value] at h
        all_goals subst hla
        all_goals
          exact simplifyHook_clean_core 0 s _ ctx r
            (fun bi bo hab => Ast.noConfusion hab) htc h
  | succ f ih =>
      obtain ⟨ihS, ihB, ihL, ihH⟩ := ih
      refine ⟨?_, ?_, ?_, ?_⟩
      · intro n Q h
        rw [Node.simplify] at h
        simp only [osome_bind, obind_eq_some] at h
        obtain ⟨⟨tree, c⟩, h1, h2⟩ := h
        have hm := (traverse_establish_clean (simplifyHook f)
          (fun n r ctx htc hh => ihH n ctx r htc hh) f).1 n [] (tree, c) h1
        obtain rfl := Option.some.inj h2
        exact hm.1
      · intro b b' h
        cases b with
        | nil => simp only [simplifyBindings, Option.some.injEq] at h; subst h; rfl
        | cons kv rest =>
            obtain ⟨k, v⟩ := kv
            simp only [simplifyBindings, osome_bind, obind_eq_some] at h
            obtain ⟨nv, h1, rest2, h2, h3⟩ := h
            have hnv := ihS v nv h1
            have hrest := ihB rest rest2 h2
            obtain rfl := Option.some.inj h3
            simp only [bindingsAll, List.all_cons, Bool.and_eq_true]
            exact ⟨hnv, hrest⟩
      · intro bindings body t hbody h
        rw [LetExpr.simplify] at h
        simp only [osome_bind, obind_eq_some] at h
        obtain ⟨bs2, h1, ⟨tree, c⟩, h2, h3⟩ := h
        have hbs := ihB bindings bs2 h1
        have hm := (traverse_preserve_clean substituteHook (fun n c => some (n, c))
          bs2 (substituteHook_clean hbs) (fun n hq => ⟨n, rfl, hq⟩) f).1
          body (tree, c) hbody h2
        obtain rfl := Option.some.inj h3
        exact hm.1
      · intro node ctx r htc h
        obtain ⟨s, a⟩ := node
        simp only [Node.value] at htc
        cases hla : a
        case LetExpr bindings body =>
            subst hla
            simp only [simplifyHook, Node.value, Option.map_eq_some'] at h
            obtain ⟨t2, h1, h2⟩ := h
            subst h2
            simp only [traversedClean] at htc
            exact ⟨ihL bindings body t2 htc h1, rfl⟩
        all_goals subst hla
        all_goals
          exact simplifyHook_clean_core (f + 1) s _ ctx r
            (fun bi bo hab => Ast.noConfusion hab) htc h


/-- C1: for every syntactically valid program node, whenever `Node::simplify`
returns a tree, the returned tree contains no surface if-expression node, no
match-expression node, no cond-expression node and no let-expression node
anywhere: only canonical conditional nodes and the remaining
literal/structural variants survive the pass. -/
theorem simplify_no_surface_nodes (fuel : Nat) (P Q : Node)
    (h : Node.simplify fuel P = some Q) : isClean Q = true :=
  (simplify_clean_family fuel).1 P Q h

/-- The spec's own let example, `let x = 1 in x + x`. -/
def c1prog : Node :=
  Node.mk none (.LetExpr [("x", Node.mk none (.Number "1"))]
    (Node.mk none (.InfixOp (Node.mk none (.Ident "x")) "+"
      (Node.mk none (.Ident "x")))))

/-- What the pipeline returns for `c1prog`. -/
def c1res : Node :=
  Node.mk none (.InfixOp (Node.mk none (.Number "1")) "+"
    (Node.mk none (.Number "1")))

/-- C1 witness: the pipeline on the spec's let example returns a tree, and
that tree is clean. -/
theorem simplify_no_surface_nodes_witness :
    Node.simplify 10 c1prog = some c1res ∧ isClean c1res = true :=
  ⟨by rfl, simplify_no_surface_nodes 10 c1prog c1res (by rfl)⟩

/-- The substitution walk of the let pass computes exactly the spec's
one-pass substitution, provided the tree is span-free and every bound value
is span-free and mentions no bound key (so that the walk's continued descent
into substituted values finds nothing to do and the span kept by the rebuild
is the span the value already had). -/
theorem traverse_subst_spec (bs : Bindings)
    (hvals : bindingsAll (fun v => noBoundIdents bs v && spanFree v) bs = true) :
    ∀ fuel : Nat,
      (∀ n r, spanFree n = true →
        Node.traverse fuel n bs substituteHook (fun m c => some (m, c)) = some r →
        r = (substSpec bs n, bs)) ∧
      (∀ xs rs, allNodesList (fun m => m.span.isNone) xs = true →
        traverseList fuel xs bs substituteHook (fun m c => some (m, c)) = some rs →
        rs = substSpecList bs xs) ∧
      (∀ o ro, allNodesOpt (fun m => m.span.isNone) o = true →
        traverseOpt fuel o bs substituteHook (fun m c => some (m, c)) = some ro →
        ro = substSpecOpt bs o) ∧
      (∀ arms rs, allNodesArms (fun m => m.span.isNone) arms = true →
        traverseArms fuel arms bs substituteHook (fun m c => some (m, c)) = some rs →
        rs = substSpecArms bs arms) ∧
      (∀ arms rs, allNodesCondArms (fun m => m.span.isNone) arms = true →
        traverseCondArms fuel arms bs substituteHook (fun m c => some (m, c)) = some rs →
        rs = substSpecCondArms bs arms) ∧
      (∀ props rs, allNodesProps (fun m => m.span.isNone) props = true →
        traverseProps fuel props bs substituteHook (fun m c => some (m, c)) = some rs →
        rs = substSpecProps bs props) ∧
      (∀ params rs, allNodesParams (fun m => m.span.isNone) params = true →
        traverseParams fuel params bs substituteHook (fun m c => some (m, c)) = some rs →
        rs = substSpecParams bs params) ∧
      (∀ stmts rs, allNodesList (fun m => m.span.isNone) stmts = true →
        traverseStmts fuel stmts bs substituteHook (fun m c => some (m, c)) = some rs →
        rs = (substSpecList bs stmts, bs)) := by
  intro fuel
  induction fuel with
  | zero =>
      refine ⟨?_, ?_, ?_, ?_, ?_, ?_, ?_, ?_⟩
      · intro n r _ h; simp [Node.traverse] at h
      · intro xs rs hq h
        cases xs with
        | nil => simp only [traverseList, Option.some.injEq] at h; subst h; rfl
        | cons x rest => simp [traverseList] at h
      · intro o ro hq h
        cases o with
        | none => simp only [traverseOpt, Option.some.injEq] at h; subst h; rfl
        | some v => simp [traverseOpt] at h
      · intro arms rs hq h
        cases arms with
        | nil => simp only [traverseArms, Option.some.injEq] at h; subst h; rfl
        | cons a rest => simp [traverseArms] at h
      · intro arms rs hq h
        cases arms with
        | nil => simp only [traverseCondArms, Option.some.injEq] at h; subst h; rfl
        | cons a rest => simp [traverseCondArms] at h
      · intro props rs hq h
        cases props with
        | nil => simp only [traverseProps, Option.some.injEq] at h; subst h; rfl
        | cons a rest => obtain ⟨k, v⟩ := a; simp [traverseProps] at h
      · intro params rs hq h
        cases params with
        | nil => simp only [traverseParams, Option.some.injEq] at h; subst h; rfl
        | cons a rest => obtain ⟨nm, c, d, rf⟩ := a; simp [traverseParams] at h
      · intro stmts rs hq h
        cases stmts with
        | nil =>
            simp only [traverseStmts, Option.some.injEq] at h
            subst h; rfl
        | cons s rest => simp [traverseStmts] at h
  | succ fuel ih =>
      obtain ⟨ihT, ihL, ihO, ihA, ihC, ihP, ihPar, ihS⟩ := ih
      have main : ∀ n r, spanFree n = true →
          Node.traverse (fuel + 1) n bs substituteHook (fun m c => some (m, c))
            = some r →
          r = (substSpec bs n, bs) := by
        intro n r hsp h
        obtain ⟨sN, aN⟩ := n
        simp only [spanFree, allNodes, Node.span, Bool.and_eq_true] at hsp
        obtain ⟨hsN, hspa⟩ := hsp
        rw [Node.traverse] at h
        cases aN with
        | Ident id =>
            rw [Option.isNone_iff_eq_none] at hsN
            subst hsN
            simp only [substituteHook, Node.value] at h
            cases hget : Bindings.get bs id with
            | none =>
                rw [hget] at h
                simp only [Option.getD_none, osome_bind, Node.value] at h
                obtain rfl := Option.some.inj h
                simp [substSpec, hget]
            | some v =>
                rw [hget] at h
                simp only [Option.getD_some, osome_bind] at h
                obtain ⟨sv, av⟩ := v
                have hv := Bindings.get_all hvals hget
                simp only [Bool.and_eq_true] at hv
                obtain ⟨hnb, hspv⟩ := hv
                have hsv : sv = none := by
                  have := hspv
                  simp only [spanFree, allNodes, Node.span, Bool.and_eq_true,
                    Option.isNone_iff_eq_none] at this
                  exact this.1
                subst hsv
                have hpre_v : substituteHook (Node.mk none av) bs
                    = some (Node.mk none av, bs) := by
                  have hroot : (fun m => match m.value with
                      | .Ident z => (Bindings.get bs z).isNone
                      | _ => true) (Node.mk none av) = true := by
                    have := hnb
                    simp only [noBoundIdents, allNodes, Bool.and_eq_true] at this
                    exact this.1
                  cases av
                  case Ident z =>
                      simp only [Node.value] at hroot
                      rw [Option.isNone_iff_eq_none] at hroot
                      simp [substituteHook, Node.value, hroot]
                  all_goals rfl
                have hrepl : Node.replace (Node.mk none (Ast.Ident id))
                    = Node.replace (Node.mk none av) := rfl
                simp only [hrepl] at h
                have hmain : Node.traverse (fuel + 1) (Node.mk none av) bs
                    substituteHook (fun m c => some (m, c)) = some r := by
                  rw [Node.traverse, hpre_v]
                  simp only [osome_bind]
                  exact h
                have hres := subst_id_of_noBoundIdents bs (fuel + 1)
                  (Node.mk none av) r hnb hmain
                subst hres
                simp [substSpec, hget]
        | Access lhs rhs is_dot =>
            simp only [substituteHook, Node.value, osome_bind, obind_eq_some] at h
            simp only [allNodesAst, Bool.and_eq_true] at hspa
            obtain ⟨⟨node1, ctxA⟩, ⟨⟨lhs2, clhs⟩, hlhs, ⟨rhs2, crhs⟩, hrhs, hin⟩, hpostEq⟩ := h
            cases ihT lhs (lhs2, clhs) hspa.1 hlhs
            cases ihT rhs (rhs2, crhs) hspa.2 hrhs
            simp only [Node.replace, Option.some.injEq, Prod.mk.injEq] at hin
            obtain ⟨rfl, rfl⟩ := hin
            obtain rfl := Option.some.inj hpostEq
            rfl
        | Application name args =>
            simp only [substituteHook, Node.value, osome_bind, obind_eq_some] at h
            simp only [allNodesAst] at hspa
            obtain ⟨⟨node1, ctxA⟩, ⟨args2, hargs, hin⟩, hpostEq⟩ := h
            cases ihL args args2 hspa hargs
            simp only [Node.replace, Option.some.injEq, Prod.mk.injEq] at hin
            obtain ⟨rfl, rfl⟩ := hin
            obtain rfl := Option.some.inj hpostEq
            rfl
        | Array inner =>
            simp only [substituteHook, Node.value, osome_bind, obind_eq_some] at h
            simp only [allNodesAst] at hspa
            obtain ⟨⟨node1, ctxA⟩, ⟨⟨inner2, cinner⟩, hinner, hin⟩, hpostEq⟩ := h
            cases ihT inner (inner2, cinner) hspa hinner
            simp only [Node.replace, Option.some.injEq, Prod.mk.injEq] at hin
            obtain ⟨rfl, rfl⟩ := hin
            obtain rfl := Option.some.inj hpostEq
            rfl
        | InfixOp lhs op rhs =>
            simp only [substituteHook, Node.value, osome_bind, obind_eq_some] at h
            simp only [allNodesAst, Bool.and_eq_true] at hspa
            obtain ⟨⟨node1, ctxA⟩, ⟨⟨lhs2, clhs⟩, hlhs, ⟨rhs2, crhs⟩, hrhs, hin⟩, hpostEq⟩ := h
            cases ihT lhs (lhs2, clhs) hspa.1 hlhs
            cases ihT rhs (rhs2, crhs) hspa.2 hrhs
            simp only [Node.replace, Option.some.injEq, Prod.mk.injEq] at hin
            obtain ⟨rfl, rfl⟩ := hin
            obtain rfl := Option.some.inj hpostEq
            rfl
        | Builtin name argument =>
            simp only [substituteHook, Node.value, osome_bind, obind_eq_some] at h
            simp only [allNodesAst] at hspa
            obtain ⟨⟨node1, ctxA⟩, ⟨⟨argument2, cargument⟩, hargument, hin⟩, hpostEq⟩ := h
            cases ihT argument (argument2, cargument) hspa hargument
            simp only [Node.replace, Option.some.injEq, Prod.mk.injEq] at hin
            obtain ⟨rfl, rfl⟩ := hin
            obtain rfl := Option.some.inj hpostEq
            rfl
        | CondExpr arms else_arm =>
            simp only [substituteHook, Node.value, osome_bind, obind_eq_some] at h
            simp only [allNodesAst, Bool.and_eq_true] at hspa
            obtain ⟨⟨node1, ctxA⟩, ⟨arms2, harms, ⟨else_arm2, celse_arm⟩, helse_arm, hin⟩, hpostEq⟩ := h
            cases ihC arms arms2 hspa.1 harms
            cases ihT else_arm (else_arm2, celse_arm) hspa.2 helse_arm
            simp only [Node.replace, Option.some.injEq, Prod.mk.injEq] at hin
            obtain ⟨rfl, rfl⟩ := hin
            obtain rfl := Option.some.inj hpostEq
            rfl
        | ExtendsInfixOp lhs op rhs =>
            simp only [substituteHook, Node.value, osome_bind, obind_eq_some] at h
            simp only [allNodesAst, Bool.and_eq_true] at hspa
            obtain ⟨⟨node1, ctxA⟩, ⟨⟨lhs2, clhs⟩, hlhs, ⟨rhs2, crhs⟩, hrhs, hin⟩, hpostEq⟩ := h
            cases ihT lhs (lhs2, clhs) hspa.1 hlhs
            cases ihT rhs (rhs2, crhs) hspa.2 hrhs
            simp only [Node.replace, Option.some.injEq, Prod.mk.injEq] at hin
            obtain ⟨rfl, rfl⟩ := hin
            obtain rfl := Option.some.inj hpostEq
            rfl
        | ExtendsExpr lhs rhs then_branch else_branch =>
            simp only [substituteHook, Node.value, osome_bind, obind_eq_some] at h
            simp only [allNodesAst, Bool.and_eq_true] at hspa
            obtain ⟨⟨node1, ctxA⟩, ⟨⟨lhs2, clhs⟩, hlhs, ⟨rhs2, crhs⟩, hrhs, ⟨then_branch2, cthen_branch⟩, hthen_branch, ⟨else_branch2, celse_branch⟩, helse_branch, hin⟩, hpostEq⟩ := h
            cases ihT lhs (lhs2, clhs) hspa.1.1.1 hlhs
            cases ihT rhs (rhs2, crhs) hspa.1.1.2 hrhs
            cases ihT then_branch (then_branch2, cthen_branch) hspa.1.2 hthen_branch
            cases ihT else_branch (else_branch2, celse_branch) hspa.2 helse_branch
            simp only [Node.replace, Option.some.injEq, Prod.mk.injEq] at hin
            obtain ⟨rfl, rfl⟩ := hin
            obtain rfl := Option.some.inj hpostEq
            rfl
        | ExtendsPrefixOp op value =>
            simp only [substituteHook, Node.value, osome_bind, obind_eq_some] at h
            simp only [allNodesAst] at hspa
            obtain ⟨⟨node1, ctxA⟩, ⟨⟨value2, cvalue⟩, hvalue, hin⟩, hpostEq⟩ := h
            cases ihT value (value2, cvalue) hspa hvalue
            simp only [Node.replace, Option.some.injEq, Prod.mk.injEq] at hin
            obtain ⟨rfl, rfl⟩ := hin
            obtain rfl := Option.some.inj hpostEq
            rfl
        | IfExpr condition then_branch else_branch =>
            simp only [substituteHook, Node.value, osome_bind, obind_eq_some] at h
            simp only [allNodesAst, Bool.and_eq_true] at hspa
            obtain ⟨⟨node1, ctxA⟩, ⟨⟨condition2, ccondition⟩, hcondition, ⟨then_branch2, cthen_branch⟩, hthen_branch, else_branch2, helse_branch, hin⟩, hpostEq⟩ := h
            cases ihT condition (condition2, ccondition) hspa.1.1 hcondition
            cases ihT then_branch (then_branch2, cthen_branch) hspa.1.2 hthen_branch
            cases ihO else_branch else_branch2 hspa.2 helse_branch
            simp only [Node.replace, Option.some.injEq, Prod.mk.injEq] at hin
            obtain ⟨rfl, rfl⟩ := hin
            obtain rfl := Option.some.inj hpostEq
            rfl
        | ImportStatement ic mo =>
            simp only [substituteHook, Node.value, Node.replace, osome_bind] at h
            obtain rfl := Option.some.inj h
            rfl
        | LetExpr bindings body =>
            simp only [substituteHook, Node.value, osome_bind, obind_eq_some] at h
            simp only [allNodesAst, Bool.and_eq_true] at hspa
            obtain ⟨⟨node1, ctxA⟩, ⟨⟨body2, cbody⟩, hbody, hin⟩, hpostEq⟩ := h
            cases ihT body (body2, cbody) hspa.2 hbody
            simp only [Node.replace, Option.some.injEq, Prod.mk.injEq] at hin
            obtain ⟨rfl, rfl⟩ := hin
            obtain rfl := Option.some.inj hpostEq
            rfl
        | MappedType index iterable remapped_as rm om body =>
            simp only [substituteHook, Node.value, osome_bind, obind_eq_some] at h
            simp only [allNodesAst, Bool.and_eq_true] at hspa
            obtain ⟨⟨node1, ctxA⟩, ⟨⟨iterable2, citerable⟩, hiterable, remapped_as2, hremapped_as, ⟨body2, cbody⟩, hbody, hin⟩, hpostEq⟩ := h
            cases ihT iterable (iterable2, citerable) hspa.1.1 hiterable
            cases ihO remapped_as remapped_as2 hspa.1.2 hremapped_as
            cases ihT body (body2, cbody) hspa.2 hbody
            simp only [Node.replace, Option.some.injEq, Prod.mk.injEq] at hin
            obtain ⟨rfl, rfl⟩ := hin
            obtain rfl := Option.some.inj hpostEq
            rfl
        | MatchExpr value arms else_arm =>
            simp only [substituteHook, Node.value, osome_bind, obind_eq_some] at h
            simp only [allNodesAst, Bool.and_eq_true] at hspa
            obtain ⟨⟨node1, ctxA⟩, ⟨⟨value2, cvalue⟩, hvalue, arms2, harms, ⟨else_arm2, celse_arm⟩, helse_arm, hin⟩, hpostEq⟩ := h
            cases ihT value (value2, cvalue) hspa.1.1 hvalue
            cases ihA arms arms2 hspa.1.2 harms
            cases ihT else_arm (else_arm2, celse_arm) hspa.2 helse_arm
            simp only [Node.replace, Option.some.injEq, Prod.mk.injEq] at hin
            obtain ⟨rfl, rfl⟩ := hin
            obtain rfl := Option.some.inj hpostEq
            rfl
        | NamespaceAccess lhs rhs =>
            simp only [substituteHook, Node.value, osome_bind, obind_eq_some] at h
            simp only [allNodesAst, Bool.and_eq_true] at hspa
            obtain ⟨⟨node1, ctxA⟩, ⟨⟨lhs2, clhs⟩, hlhs, ⟨rhs2, crhs⟩, hrhs, hin⟩, hpostEq⟩ := h
            cases ihT lhs (lhs2, clhs) hspa.1 hlhs
            cases ihT rhs (rhs2, crhs) hspa.2 hrhs
            simp only [Node.replace, Option.some.injEq, Prod.mk.injEq] at hin
            obtain ⟨rfl, rfl⟩ := hin
            obtain rfl := Option.some.inj hpostEq
            rfl
        | ObjectLiteral properties =>
            simp only [substituteHook, Node.value, osome_bind, obind_eq_some] at h
            simp only [allNodesAst] at hspa
            obtain ⟨⟨node1, ctxA⟩, ⟨properties2, hproperties, hin⟩, hpostEq⟩ := h
            cases ihP properties properties2 hspa hproperties
            simp only [Node.replace, Option.some.injEq, Prod.mk.injEq] at hin
            obtain ⟨rfl, rfl⟩ := hin
            obtain rfl := Option.some.inj hpostEq
            rfl
        | Program statements =>
            simp only [substituteHook, Node.value, osome_bind, obind_eq_some] at h
            simp only [allNodesAst] at hspa
            obtain ⟨⟨node1, ctxA⟩, ⟨⟨stmts2, cS⟩, hS, hin⟩, hpostEq⟩ := h
            cases ihS statements (stmts2, cS) hspa hS
            simp only [Node.replace, Option.some.injEq, Prod.mk.injEq] at hin
            obtain ⟨rfl, rfl⟩ := hin
            obtain rfl := Option.some.inj hpostEq
            rfl
        | Statement inner =>
            simp only [substituteHook, Node.value, osome_bind, obind_eq_some] at h
            simp only [allNodesAst] at hspa
            obtain ⟨⟨node1, ctxA⟩, ⟨⟨inner2, cinner⟩, hinner, hin⟩, hpostEq⟩ := h
            cases ihT inner (inner2, cinner) hspa hinner
            simp only [Node.replace, Option.some.injEq, Prod.mk.injEq] at hin
            obtain ⟨rfl, rfl⟩ := hin
            obtain rfl := Option.some.inj hpostEq
            rfl
        | TemplateString str =>
            simp only [substituteHook, Node.value, Node.replace, osome_bind] at h
            obtain rfl := Option.some.inj h
            rfl
        | Tuple items =>
            simp only [substituteHook, Node.value, osome_bind, obind_eq_some] at h
            simp only [allNodesAst] at hspa
            obtain ⟨⟨node1, ctxA⟩, ⟨items2, hitems, hin⟩, hpostEq⟩ := h
            cases ihL items items2 hspa hitems
            simp only [Node.replace, Option.some.injEq, Prod.mk.injEq] at hin
            obtain ⟨rfl, rfl⟩ := hin
            obtain rfl := Option.some.inj hpostEq
            rfl
        | TypeAlias exported name params body =>
            simp only [substituteHook, Node.value, osome_bind, obind_eq_some] at h
            simp only [allNodesAst, Bool.and_eq_true] at hspa
            obtain ⟨⟨node1, ctxA⟩, ⟨⟨body2, cbody⟩, hbody, params2, hparams, hin⟩, hpostEq⟩ := h
            cases ihT body (body2, cbody) hspa.2 hbody
            cases ihPar params params2 hspa.1 hparams
            simp only [Node.replace, Option.some.injEq, Prod.mk.injEq] at hin
            obtain ⟨rfl, rfl⟩ := hin
            obtain rfl := Option.some.inj hpostEq
            rfl
        | MacroCall name =>
            simp only [substituteHook, Node.value, osome_bind] at h
            obtain rfl := Option.some.inj h
            rfl
        | NoOp =>
            simp only [substituteHook, Node.value, osome_bind] at h
            obtain rfl := Option.some.inj h
            rfl
        | Number raw =>
            simp only [substituteHook, Node.value, osome_bind] at h
            obtain rfl := Option.some.inj h
            rfl
        | String str =>
            simp only [substituteHook, Node.value, osome_bind] at h
            obtain rfl := Option.some.inj h
            rfl
        | Primitive name =>
            simp only [substituteHook, Node.value, osome_bind] at h
            obtain rfl := Option.some.inj h
            rfl
        | Never =>
            simp only [substituteHook, Node.value, osome_bind] at h
            obtain rfl := Option.some.inj h
            rfl
        | Any =>
            simp only [substituteHook, Node.value, osome_bind] at h
            obtain rfl := Option.some.inj h
            rfl
        | Unknown =>
            simp only [substituteHook, Node.value, osome_bind] at h
            obtain rfl := Option.some.inj h
            rfl
        | Null =>
            simp only [substituteHook, Node.value, osome_bind] at h
            obtain rfl := Option.some.inj h
            rfl
        | Undefined =>
            simp only [substituteHook, Node.value, osome_bind] at h
            obtain rfl := Option.some.inj h
            rfl
        | True =>
            simp only [substituteHook, Node.value, osome_bind] at h
            obtain rfl := Option.some.inj h
            rfl
        | False =>
            simp only [substituteHook, Node.value, osome_bind] at h
            obtain rfl := Option.some.inj h
            rfl
      refine ⟨main, ?_, ?_, ?_, ?_, ?_, ?_, ?_⟩
      · intro xs rs hq h
        cases xs with
        | nil =>
            simp only [traverseList, Option.some.injEq] at h
            subst h; rfl
        | cons x rest =>
            simp only [allNodesList, Bool.and_eq_true] at hq
            simp only [traverseList, osome_bind, obind_eq_some] at h
            obtain ⟨⟨x2, c1⟩, h1, rest2, h2, h⟩ := h
            cases ihT x (x2, c1) hq.1 h1
            cases ihL rest rest2 hq.2 h2
            obtain rfl := Option.some.inj h
            rfl
      · intro o ro hq h
        cases o with
        | none =>
            simp only [traverseOpt, Option.some.injEq] at h
            subst h; rfl
        | some v =>
            simp only [allNodesOpt] at hq
            simp only [traverseOpt, osome_bind, obind_eq_some] at h
            obtain ⟨⟨v2, c1⟩, h1, h⟩ := h
            cases ihT v (v2, c1) hq h1
            obtain rfl := Option.some.inj h
            rfl
      · intro arms rs hq h
        cases arms with
        | nil =>
            simp only [traverseArms, Option.some.injEq] at h
            subst h; rfl
        | cons arm rest =>
            obtain ⟨pattern, body⟩ := arm
            simp only [allNodesArms, Bool.and_eq_true] at hq
            simp only [traverseArms, MatchArm.pattern, MatchArm.body, osome_bind,
              obind_eq_some] at h
            obtain ⟨⟨p2, c1⟩, h1, ⟨b2, c2⟩, h2, rest2, h3, h⟩ := h
            cases ihT pattern (p2, c1) hq.1.1 h1
            cases ihT body (b2, c2) hq.1.2 h2
            cases ihA rest rest2 hq.2 h3
            obtain rfl := Option.some.inj h
            rfl
      · intro arms rs hq h
        cases arms with
        | nil =>
            simp only [traverseCondArms, Option.some.injEq] at h
            subst h; rfl
        | cons arm rest =>
            obtain ⟨condition, body⟩ := arm
            simp only [allNodesCondArms, Bool.and_eq_true] at hq
            simp only [traverseCondArms, CondArm.condition, CondArm.body, osome_bind,
              obind_eq_some] at h
            obtain ⟨⟨c2, cx1⟩, h1, ⟨b2, cx2⟩, h2, rest2, h3, h⟩ := h
            cases ihT condition (c2, cx1) hq.1.1 h1
            cases ihT body (b2, cx2) hq.1.2 h2
            cases ihC rest rest2 hq.2 h3
            obtain rfl := Option.some.inj h
            rfl
      · intro props rs hq h
        cases props with
        | nil =>
            simp only [traverseProps, Option.some.injEq] at h
            subst h; rfl
        | cons prop rest =>
            obtain ⟨key, value⟩ := prop
            simp only [allNodesProps, Bool.and_eq_true] at hq
            simp only [traverseProps, osome_bind, obind_eq_some] at h
            obtain ⟨⟨v2, c1⟩, h1, rest2, h2, h⟩ := h
            cases ihT value (v2, c1) hq.1 h1
            cases ihP rest rest2 hq.2 h2
            obtain rfl := Option.some.inj h
            rfl
      · intro params rs hq h
        cases params with
        | nil =>
            simp only [traverseParams, Option.some.injEq] at h
            subst h; rfl
        | cons param rest =>
            obtain ⟨name, constraint, dflt, rest_flag⟩ := param
            simp only [allNodesParams, Bool.and_eq_true] at hq
            simp only [traverseParams, osome_bind, obind_eq_some] at h
            obtain ⟨c2, h1, d2, h2, rest2, h3, h⟩ := h
            cases ihO constraint c2 hq.1.1 h1
            cases ihO dflt d2 hq.1.2 h2
            cases ihPar rest rest2 hq.2 h3
            obtain rfl := Option.some.inj h
            rfl
      · intro stmts rs hq h
        cases stmts with
        | nil =>
            simp only [traverseStmts, Option.some.injEq] at h
            subst h; rfl
        | cons st rest =>
            simp only [allNodesList, Bool.and_eq_true] at hq
            simp only [traverseStmts, osome_bind, obind_eq_some] at h
            obtain ⟨⟨s2, c1⟩, h1, ⟨rest2, c2⟩, h2, h⟩ := h
            cases ihT st (s2, c1) hq.1 h1
            cases ihS rest (rest2, c2) hq.2 h2
            obtain rfl := Option.some.inj h
            rfl


/-- Simplifying an empty binding map returns it, for any fuel. -/
theorem simplifyBindings_nil : ∀ fuel : Nat, simplifyBindings fuel [] = some [] := by
  intro fuel
  cases fuel <;> rfl

/-- C3 (amended): the let pass substitutes the simplified bound values for the
bound identifiers of the body in one pass, as the spec describes, whenever the
simplified values mention no bound key (the walk keeps substituting inside
substituted values) and body and values are span-free (the rebuild grafts the
replaced identifier's span onto composite values). -/
theorem letExpr_simplify_subst (fuel : Nat) (bindings bs2 : Bindings)
    (body t : Node)
    (h1 : simplifyBindings fuel bindings = some bs2)
    (hvals : bindingsAll (fun v => noBoundIdents bs2 v && spanFree v) bs2 = true)
    (hsp : spanFree body = true)
    (h : LetExpr.simplify (fuel + 1) bindings body = some t) :
    t = substSpec bs2 body := by
  rw [LetExpr.simplify] at h
  simp only [osome_bind, obind_eq_some] at h
  obtain ⟨bs2x, hb, ⟨tree, c⟩, h2, h3⟩ := h
  rw [h1] at hb
  obtain rfl := Option.some.inj hb
  cases (traverse_subst_spec bs2 hvals fuel).1 body (tree, c) hsp h2
  exact (Option.some.inj h3).symm

/-- The bindings of the C3 counterexample: `a` is bound to `b + 1` and `b`
to `2`. -/
def c3bnd : Bindings :=
  [("a", Node.mk none (.InfixOp (Node.mk none (.Ident "b")) "+"
      (Node.mk none (.Number "1")))),
   ("b", Node.mk none (.Number "2"))]

/-- The body of the C3 counterexample, a bare reference to `a`. -/
def c3body : Node := Node.mk none (.Ident "a")

/-- What the let pass actually returns for the C3 counterexample. -/
def c3res : Node :=
  Node.mk none (.InfixOp (Node.mk none (.Number "2")) "+"
    (Node.mk none (.Number "1")))

/-- C3 counterexample: the walk does not stop at a substituted value.  The
body reference to `a` should become a deep copy of `a`'s (pre-simplified)
bound value `b + 1`, which still mentions `b`; the walk instead resolves `b`
inside the copied value, so the returned tree no longer contains the
identifier `b`. -/
theorem let_subst_descends_into_values :
    LetExpr.simplify 10 c3bnd c3body = some c3res ∧
    containsIdent "b" (substSpec c3bnd c3body) = true ∧
    containsIdent "b" c3res = false :=
  ⟨rfl, rfl, rfl⟩

/-- The C3 witness bindings, `x` bound to the literal `1`. -/
def c3wbnd : Bindings := [("x", Node.mk none (.Number "1"))]

/-- The C3 witness body, `x + x`. -/
def c3wbody : Node :=
  Node.mk none (.InfixOp (Node.mk none (.Ident "x")) "+"
    (Node.mk none (.Ident "x")))

/-- What the let pass returns on the C3 witness, `1 + 1`. -/
def c3wres : Node :=
  Node.mk none (.InfixOp (Node.mk none (.Number "1")) "+"
    (Node.mk none (.Number "1")))

/-- C3 witness: on the spec's own example `let x = 1 in x + x` the let pass
computes the spec's one-pass substitution. -/
theorem letExpr_simplify_subst_witness : c3wres = substSpec c3wbnd c3wbody :=
  letExpr_simplify_subst 9 c3wbnd c3wbnd c3wbody c3wres (by rfl) (by rfl)
    (by rfl) (by rfl)

/-- C4 (amended): step 1 of the let pass simplifies every bound value
independently of the others: on a binding map whose values are already in
canonical form it is the identity, so no identifier inside a value is
resolved against a sibling binding during value simplification. -/
theorem simplifyBindings_independent :
    ∀ (b : Bindings) (fuel : Nat) (b2 : Bindings),
      bindingsAll isClean b = true → simplifyBindings fuel b = some b2 →
      b2 = b := by
  intro b
  induction b with
  | nil =>
      intro fuel b2 _ h
      rw [simplifyBindings_nil] at h
      exact (Option.some.inj h).symm
  | cons kv rest ih =>
      intro fuel b2 hclean h
      obtain ⟨k, v⟩ := kv
      cases fuel with
      | zero => simp [simplifyBindings] at h
      | succ f =>
          simp only [bindingsAll, List.all_cons, Bool.and_eq_true] at hclean
          simp only [simplifyBindings, osome_bind, obind_eq_some] at h
          obtain ⟨nv, h1, rest2, h2, h3⟩ := h
          have hnv := simplify_id_of_clean f v nv hclean.1 h1
          subst hnv
          have hrest := ih f rest2 hclean.2 h2
          subst hrest
          exact (Option.some.inj h3).symm

/-- The bindings of the C4 counterexample: `x` is bound to the tuple `[y]`
and `y` to `7`. -/
def c4bnd : Bindings :=
  [("x", Node.mk none (.Tuple [Node.mk none (.Ident "y")])),
   ("y", Node.mk none (.Number "7"))]

/-- The body of the C4 counterexample, a bare reference to `x`. -/
def c4body : Node := Node.mk none (.Ident "x")

/-- What the let pass actually returns for the C4 counterexample: the
sibling reference `y` inside `x`'s value has been resolved to `7`. -/
def c4res : Node := Node.mk none (.Tuple [Node.mk none (.Number "7")])

/-- C4 counterexample: a binding value that names a sibling binding of the
same let.  During the body walk the substituted copy of `x`'s value is walked
further, so the `y` inside it is resolved to `7` in the final result — the
sibling identifier is resolved somewhere in the result of let-elimination. -/
theorem let_sibling_reference_resolved :
    LetExpr.simplify 10 c4bnd c4body = some c4res ∧
    containsIdent "y" c4res = false :=
  ⟨rfl, rfl⟩

/-- The C4 witness bindings: one value, a tuple naming only the free
identifier `z`. -/
def c4wb : Bindings :=
  [("x", Node.mk none (.Tuple [Node.mk none (.Ident "z")]))]

/-- C4 witness: value simplification returns the canonical-value map
unchanged. -/
theorem simplifyBindings_independent_witness :
    [("x", Node.mk none (.Tuple [Node.mk none (.Ident "z")]))] = c4wb :=
  simplifyBindings_independent c4wb 6
    [("x", Node.mk none (.Tuple [Node.mk none (.Ident "z")]))]
    (by rfl) (by rfl)

/-- C6: shadowing.  For `let x = v1 in (let x = v2 in x)` the inner let is
eliminated before the outer walk substitutes, so every result is the inner
value `v2` and the outer `v1` never leaks inside (stated for a canonical,
identifier-free, span-free inner value). -/
theorem let_shadowing (fuel : Nat) (x : Identifier) (v1 v2 r : Node)
    (hc2 : isClean v2 = true) (hi2 : identFree v2 = true)
    (hs2 : spanFree v2 = true) (hnb : noBoundIdents [(x, v2)] v2 = true)
    (h : Node.simplify fuel (Node.mk none (.LetExpr [(x, v1)]
      (Node.mk none (.LetExpr [(x, v2)] (Node.mk none (.Ident x)))))) = some r) :
    r = v2 := by
  cases fuel with
  | zero => simp [Node.simplify] at h
  | succ F =>
  rw [Node.simplify] at h
  simp only [osome_bind, obind_eq_some] at h
  obtain ⟨⟨tree, c⟩, hT, hr⟩ := h
  cases F with
  | zero => simp [Node.traverse] at hT
  | succ A =>
  rw [Node.traverse] at hT
  simp only [Node.value, osome_bind, obind_eq_some] at hT
  obtain ⟨⟨node1, ctxA⟩, ⟨⟨ib, cb⟩, hInner, hReb⟩, hPost⟩ := hT
  cases A with
  | zero => simp [Node.traverse] at hInner
  | succ B =>
  rw [Node.traverse] at hInner
  simp only [Node.value, osome_bind, obind_eq_some] at hInner
  obtain ⟨⟨node2, ctxB⟩, ⟨⟨idb, cb2⟩, hIdn, hReb2⟩, hPost2⟩ := hInner
  cases B with
  | zero => simp [Node.traverse] at hIdn
  | succ C =>
  rw [Node.traverse] at hIdn
  simp only [Node.value, osome_bind] at hIdn
  have hpassI : ∀ FF : Nat,
      simplifyHook FF (Node.mk none (.Ident x)) [] =
        some (Node.mk none (.Ident x), []) := fun FF =>
    simplifyHook_passthrough FF none (.Ident x) [] (by simp [notSurface, Node.value])
  rw [hpassI] at hIdn
  simp only [Option.some.injEq, Prod.mk.injEq] at hIdn
  obtain ⟨rfl, rfl⟩ := hIdn
  simp only [Node.replace, Option.some.injEq, Prod.mk.injEq] at hReb2
  obtain ⟨rfl, rfl⟩ := hReb2
  simp only [simplifyHook, Node.value, Option.map_eq_some'] at hPost2
  obtain ⟨t1, hLet1, hEq1⟩ := hPost2
  cases hEq1
  rw [LetExpr.simplify] at hLet1
  simp only [osome_bind, obind_eq_some] at hLet1
  obtain ⟨bs2, hB2, ⟨t2, c2⟩, hTr2, hS2x⟩ := hLet1
  simp only [simplifyBindings, osome_bind, obind_eq_some] at hB2
  obtain ⟨m, hm, hbs⟩ := hB2
  have hmv : v2 = m := (simplify_id_of_clean C v2 m hc2 hm).symm
  subst hmv
  obtain rfl := Option.some.inj hbs
  have hv : bindingsAll (fun v => noBoundIdents [(x, v2)] v && spanFree v)
      [(x, v2)] = true := by
    simp only [bindingsAll, List.all_cons, List.all_nil, Bool.and_eq_true]
    exact ⟨⟨hnb, hs2⟩, trivial⟩
  have hspIdn : spanFree (Node.mk none (.Ident x)) = true := by
    simp [spanFree, allNodes, allNodesAst, Node.span]
  cases (traverse_subst_spec [(x, v2)] hv (C + 1)).1 (Node.mk none (.Ident x))
    (t2, c2) hspIdn hTr2
  have hgx : Bindings.get [(x, v2)] x = some v2 := by
    simp [Bindings.get, List.find?_cons]
  have hsub : substSpec [(x, v2)] (Node.mk none (.Ident x)) = v2 := by
    simp [substSpec, hgx]
  rw [hsub] at hS2x
  obtain rfl := Option.some.inj hS2x
  simp only [Node.replace, Option.some.injEq, Prod.mk.injEq] at hReb
  obtain ⟨rfl, rfl⟩ := hReb
  simp only [simplifyHook, Node.value, Option.map_eq_some'] at hPost
  obtain ⟨t3, hLet2, hEq3⟩ := hPost
  cases hEq3
  rw [LetExpr.simplify] at hLet2
  simp only [osome_bind, obind_eq_some] at hLet2
  obtain ⟨bs3, hB3, ⟨t4, c4⟩, hTr4, hS4⟩ := hLet2
  cases subst_id_of_identFree bs3 (C + 1) v2 (t4, c4) hi2 hTr4
  obtain rfl := Option.some.inj hS4
  exact (Option.some.inj hr).symm

/-- The spec's shadowing example returns the inner literal. -/
def c6r : Node := Node.mk none (.Number "2")

/-- C6 witness: `simplify(let x = 1 in (let x = 2 in x))` yields `2`. -/
theorem let_shadowing_witness : c6r = Node.mk none (.Number "2") :=
  let_shadowing 12 "x" (Node.mk none (.Number "1")) (Node.mk none (.Number "2"))
    c6r (by rfl) (by rfl) (by rfl) (by rfl) (by rfl)

end Spanned
